import Mathlib

/-!
A verification development for `ads_p.c` (p-adic sumsets).

The C program computes, for a base `p ≥ 2` and a bound `n ≥ 1`, the sizes `|A|` and `|A+A|`
of the set `A = { i * p^e : 1 ≤ i ≤ n, p ∤ i, 1 ≤ e ≤ Emax i }`, using GMP integers and a
hand-written open-addressing hash map from big-integer keys to big-integer bit masks.

Conventions of the embedding:

* `int` values are `Int`; C leaves signed overflow undefined, so statements that depend on
  values staying inside the `int` range carry that range as a hypothesis;
* `unsigned` (32 bit) and `uint64_t` arithmetic wraps, written with an explicit `% 2^w`;
* `size_t` table indices and counters are `Nat` (a table of `cap` entries has been allocated,
  so `cap * 10` is far below `2^64`);
* `mpz_t` values are `Int`;
* a loop whose termination depends on the data takes fuel and returns `none` when the fuel
  runs out; each use is accompanied by a proof that the fuel given is enough.
-/

namespace AdsP

/-! ## Helpers (`ads_p.c`, lines 8-31) -/

/-- Width of `unsigned`. -/
def UINT_BITS : Nat := 32

/-- Conversion of a mathematical value to `unsigned`. -/
def toUnsigned (x : Int) : Nat := (x % 2 ^ UINT_BITS).toNat

/-- Conversion of a mathematical value to `int` (two's complement wrap). -/
def toInt (x : Int) : Int := (x + 2 ^ (UINT_BITS - 1)) % 2 ^ UINT_BITS - 2 ^ (UINT_BITS - 1)

/-- The loop `while (x >= p) { x /= p; lm++; }` of `ilogp_int`; `none` when the fuel is used
up before the loop exits. -/
def ilogp_loop (p : Int) : Nat → Int → Int → Option Int
  | 0, _, _ => none
  | fuel + 1, x, lm =>
    if x ≥ p then ilogp_loop p fuel (Int.tdiv x p) (lm + 1) else some lm

/-- Function `ilogp_int(x, p)`: returns 0 for `x <= 0`, otherwise counts the divisions by `p`. -/
def ilogp_int (x p : Int) : Option Int :=
  if x ≤ 0 then some 0 else ilogp_loop p (x.toNat + 1) x 0

/-- Function `mpz_or_range(dst, lo, hi)`: the new value of `dst`. The arguments `lo`, `hi` are
`unsigned`, and so is `len = hi - lo + 1`, which wraps modulo `2^32`. -/
def mpz_or_range (dst : Int) (lo hi : Nat) : Int :=
  if hi < lo then dst
  else
    let len : Nat := (hi - lo + 1) % 2 ^ UINT_BITS
    let tmp_pow : Int := 2 ^ len
    let tmp_interval : Int := tmp_pow - 1
    let tmp_interval : Int := tmp_interval * 2 ^ lo
    Int.lor dst tmp_interval

/-! ## Hashing (`ads_p.c`, lines 33-63) -/

/-- Function `mix64`: every operation is on `uint64_t` and wraps modulo `2^64`. -/
def mix64 (x : Nat) : Nat :=
  let x := (x + 0x9e3779b97f4a7c15) % 2 ^ 64
  let x := ((x ^^^ (x >>> 30)) * 0xbf58476d1ce4e5b9) % 2 ^ 64
  let x := ((x ^^^ (x >>> 37)) * 0x94d049bb133111eb) % 2 ^ 64
  x ^^^ (x >>> 31)

/-- Width of a GMP limb (`mp_limb_t`), a constant of `gmp.h`. -/
def GMP_LIMB_BITS : Nat := 64

/-- GMP function `mpz_size(z)`: the number of limbs of `|z|` (0 for `z = 0`). -/
def mpz_size (z : Int) : Nat :=
  if z.natAbs = 0 then 0 else Nat.log2 z.natAbs / GMP_LIMB_BITS + 1

/-- GMP function `mpz_getlimbn(z, i)`: limb `i` of `|z|`, least significant first. -/
def mpz_getlimbn (z : Int) (i : Nat) : Nat :=
  (z.natAbs >>> (GMP_LIMB_BITS * i)) % 2 ^ GMP_LIMB_BITS

/-- Function `mpz_hash64(z)`: mixes the limb count, the first four limbs and, for keys of more than
four limbs, up to four of the last limbs. -/
def mpz_hash64 (z : Int) : Nat :=
  let nlimbs := mpz_size z
  let h := mix64 (nlimbs % 2 ^ 64)
  let S := 4
  let take_front := if nlimbs < S then nlimbs else S
  let h := (List.range take_front).foldl
    (fun h i => h ^^^ mix64 ((mpz_getlimbn z i + 0x100000001b3 * i) % 2 ^ 64)) h
  if nlimbs > S then
    let take_back := if nlimbs - take_front < S then nlimbs - take_front else S
    (List.range take_back).foldl
      (fun h j =>
        let i := nlimbs - 1 - j
        h ^^^ mix64 ((mpz_getlimbn z i + 0x9e3779b97f4a7c15 * i) % 2 ^ 64)) h
  else h

/-! ## The hash table (`ads_p.c`, lines 65-151) -/

/-- One slot of the table: `used`, `key`, `mask`. -/
structure Entry where
  used : Bool
  key : Int
  mask : Int
deriving DecidableEq, Repr

/-- A slot as `calloc` leaves it: not used (its `mpz_t` fields are not initialised; they are
never read while `used` is 0). -/
def Entry.empty : Entry := ⟨false, 0, 0⟩

/-- The map: the slot array `tab`, its capacity `cap` and the number `size` of used slots. -/
structure UMap where
  tab : List Entry
  cap : Nat
  size : Nat
deriving DecidableEq, Repr

/-- Function `umap_init(m, cap_pow2)`: an array of `cap_pow2` empty slots, size 0. -/
def umap_init (cap_pow2 : Nat) : UMap :=
  { tab := List.replicate cap_pow2 Entry.empty, cap := cap_pow2, size := 0 }

/-- The probe loop of `umap_rehash`: `while (m->tab[idx].used) idx = (idx + 1) & (m->cap - 1);`,
returning the index of the empty slot it stops at. A read outside the array, or more than
`fuel` steps, gives `none`. -/
def probe_empty (tab : List Entry) (cap : Nat) : Nat → Nat → Option Nat
  | 0, _ => none
  | fuel + 1, idx =>
    match tab[idx]? with
    | none => none
    | some e =>
      if e.used then probe_empty tab cap fuel ((idx + 1) &&& (cap - 1))
      else some idx

/-- The body of the `for` loop of `umap_rehash` for one used old slot `e`: probe from the
hash index to an empty slot and copy key and mask there. -/
def rehash_insert (m : UMap) (e : Entry) : Option UMap :=
  let h := mpz_hash64 e.key
  let idx := h &&& (m.cap - 1)
  match probe_empty m.tab m.cap m.cap idx with
  | none => none
  | some idx =>
    some { m with tab := m.tab.set idx { used := true, key := e.key, mask := e.mask },
                  size := m.size + 1 }

/-- The `for (i = 0; i < oldcap; i++)` loop of `umap_rehash` over the old slots still to visit. -/
def rehash_loop : List Entry → UMap → Option UMap
  | [], m => some m
  | e :: rest, m =>
    if !e.used then rehash_loop rest m
    else
      match rehash_insert m e with
      | none => none
      | some m1 => rehash_loop rest m1

/-- Function `umap_rehash(m, new_cap)`: a fresh array of `new_cap` empty slots into which the
used slots of the old array are re-inserted, in index order. -/
def umap_rehash (m : UMap) (new_cap : Nat) : Option UMap :=
  rehash_loop (m.tab.take m.cap)
    { tab := List.replicate new_cap Entry.empty, cap := new_cap, size := 0 }

/-- The probe loop of `umap_get_or_create`: stops at a used slot whose key equals `u`
(result `(idx, true)`) or at an empty slot (result `(idx, false)`). -/
def probe (tab : List Entry) (cap : Nat) (u : Int) : Nat → Nat → Option (Nat × Bool)
  | 0, _ => none
  | fuel + 1, idx =>
    match tab[idx]? with
    | none => none
    | some e =>
      if e.used then
        if e.key = u then some (idx, true)
        else probe tab cap u fuel ((idx + 1) &&& (cap - 1))
      else some (idx, false)

/-- Function `umap_get_or_create(m, u)`: the map after the call and the index of the slot whose mask
the returned pointer refers to. -/
def umap_get_or_create (m : UMap) (u : Int) : Option (UMap × Nat) :=
  match (if (m.size + 1) * 10 ≥ m.cap * 7 then umap_rehash m (m.cap * 2) else some m) with
  | none => none
  | some m =>
    let h := mpz_hash64 u
    let idx := h &&& (m.cap - 1)
    match probe m.tab m.cap u m.cap idx with
    | none => none
    | some (idx, true) => some (m, idx)
    | some (idx, false) =>
      some ({ m with tab := m.tab.set idx { used := true, key := u, mask := 0 },
                     size := m.size + 1 }, idx)

/-- The mask that a pointer returned by `umap_get_or_create` refers to. -/
def UMap.maskAt (m : UMap) (idx : Nat) : Int := (m.tab.getD idx Entry.empty).mask

/-- A write `*maskp = v` through the pointer to the mask of slot `idx`. -/
def UMap.setMask (m : UMap) (idx : Nat) (v : Int) : UMap :=
  { m with tab := m.tab.modify (fun e => { e with mask := v }) idx }

/-! ## The main computation (`ads_p.c`, lines 155-247) -/

/-- Conversion to `unsigned long` (64 bit). -/
def toULong (x : Int) : Nat := (x % 2 ^ 64).toNat

/-- Number of set bits of a natural number, by halving; `fuel` bounds the number of halvings. -/
def popcountAux : Nat → Nat → Nat
  | 0, _ => 0
  | fuel + 1, x => if x = 0 then 0 else x % 2 + popcountAux fuel (x / 2)

/-- GMP function `mpz_popcount(z)`: the number of set bits for `z ≥ 0`, and the largest `mp_bitcnt_t`
for `z < 0`. -/
def mpz_popcount (z : Int) : Nat :=
  if z < 0 then 2 ^ 64 - 1 else popcountAux z.toNat z.toNat

/-- Lines 164-167: the `i` in `[1, n]` with `i % p != 0`, in increasing order. -/
def build_units (n p : Int) : List Int :=
  ((List.range n.toNat).map (fun (i : Nat) => (i : Int) + 1)).filter
    (fun (i : Int) => Int.tmod i p ≠ 0)

/-- Lines 169-174: `Emax[i] = n + ilogp_int(n / units[i], p)`; the result pairs each unit
with its bound. -/
def build_Emax (n p : Int) : List Int → Option (List (Int × Int))
  | [] => some []
  | u :: us =>
    let q := Int.tdiv n u
    match ilogp_int q p with
    | none => none
    | some L =>
      match build_Emax n p us with
      | none => none
      | some rest => some ((u, n + L) :: rest)

/-- Lines 176-178: `A_size` as the sum of the `Emax[i]`. -/
def sum_Emax (ue : List (Int × Int)) : Int :=
  ue.foldl (fun acc x => acc + (toULong x.2 : Int)) 0

/-- Lines 225-228: `while (mpz_divisible_p(K, pZ)) { mpz_divexact(K, K, pZ); tz++; }`. -/
def strip_loop (pZ : Int) : Nat → Int → Nat → Option (Int × Nat)
  | 0, _, _ => none
  | fuel + 1, K, tz =>
    if pZ ∣ K then strip_loop pZ fuel (K / pZ) (tz + 1) else some (K, tz)

/-- Lines 236-237: `maskp = umap_get_or_create(&map, uZ)` followed by
`mpz_or_range(*maskp, t_lo, t_hi, ...)`. -/
def or_into (map : UMap) (uZ : Int) (t_lo t_hi : Nat) : Option UMap :=
  match umap_get_or_create map uZ with
  | none => none
  | some (map, idx) => some (map.setMask idx (mpz_or_range (map.maskAt idx) t_lo t_hi))

/-- Lines 218-237: the body of the `d` loop after the `E1max < 1` test: build `K = a + b * p^d`,
strip the factors `p`, and OR the interval `[1 + tz, E1max + tz]` into the mask of the core. -/
def d_body (p a b E1max : Int) (d : Nat) (map : UMap) : Option UMap :=
  let aZ : Int := toULong a
  let bZ : Int := toULong b
  let pZ : Int := toULong p
  let pPow : Int := (toULong p : Int) ^ (toULong d)
  let K : Int := bZ * pPow
  let K : Int := K + aZ
  match strip_loop pZ (K.natAbs + 1) K 0 with
  | none => none
  | some (uZ, tz) =>
    let t_lo : Nat := toUnsigned (1 + tz)
    let t_hi : Nat := toUnsigned (E1max + toInt tz)
    or_into map uZ t_lo t_hi

/-- Lines 213-238: the `d` loop for one ordered pair `(a, b)`, over the values of `d` still
to visit; `E1max < 1` leaves the loop. -/
def d_loop (p a Ea b Eb : Int) : List Nat → UMap → Option UMap
  | [], map => some map
  | d :: ds, map =>
    let Eb_minus_d : Int := Eb - d
    let E1max : Int := if Ea < Eb_minus_d then Ea else Eb_minus_d
    if E1max < 1 then some map
    else
      match d_body p a b E1max d map with
      | none => none
      | some map => d_loop p a Ea b Eb ds map

/-- Lines 205-239: the `bi` loop for one `a`. -/
def b_loop (p a Ea : Int) : List (Int × Int) → UMap → Option UMap
  | [], map => some map
  | (b, Eb) :: rest, map =>
    let max_d : Int := Eb - 1
    if max_d < 0 then b_loop p a Ea rest map
    else
      match d_loop p a Ea b Eb (List.range (max_d + 1).toNat) map with
      | none => none
      | some map => b_loop p a Ea rest map

/-- Lines 200-240: the `ai` loop; `all` is the whole unit sequence, scanned by every `bi` loop. -/
def a_loop (p : Int) (all : List (Int × Int)) : List (Int × Int) → UMap → Option UMap
  | [], map => some map
  | (a, Ea) :: rest, map =>
    match b_loop p a Ea all map with
    | none => none
    | some map => a_loop p all rest map

/-- Lines 243-247: the sum of the popcounts of the masks of the used slots. -/
def sum_popcounts (map : UMap) : Int :=
  (map.tab.take map.cap).foldl
    (fun acc e => if !e.used then acc else acc + (mpz_popcount e.mask : Int)) 0

/-- Lines 159-240 of `A_ads_size_big`: `A_size` and the map when the enumeration is over. -/
def A_ads_map (n p : Int) : Option (Int × UMap) :=
  match build_Emax n p (build_units n p) with
  | none => none
  | some ue =>
    let A_size := sum_Emax ue
    match a_loop p ue ue (umap_init (2 ^ 13)) with
    | none => none
    | some map => some (A_size, map)

/-- Function `A_ads_size_big(n, p)`: the pair `(A_size, AA_size)`. -/
def A_ads_size_big (n p : Int) : Option (Int × Int) :=
  match A_ads_map n p with
  | none => none
  | some (A_size, map) => some (A_size, sum_popcounts map)

/-! ## Specification: the representation invariant and the abstract view of the map -/

/-- Slot `i` of a table, an empty slot outside the array. -/
def slot (tab : List Entry) (i : Nat) : Entry := tab.getD i Entry.empty

/-- The index at which probing for key `k` starts in a table of capacity `cap`. -/
def home (cap : Nat) (k : Int) : Nat := mpz_hash64 k &&& (cap - 1)

/-- The representation invariant of the table. -/
structure TabInv (tab : List Entry) (cap : Nat) : Prop where
  pow2 : ∃ e : Nat, cap = 2 ^ e
  len : tab.length = cap
  distinct : ∀ i j, (slot tab i).used = true → (slot tab j).used = true →
    (slot tab i).key = (slot tab j).key → i = j
  chain : ∀ i, (slot tab i).used = true →
    ∀ s, s < (i + cap - home cap (slot tab i).key) % cap →
      (slot tab ((home cap (slot tab i).key + s) % cap)).used = true

/-- The invariant of a map: the table invariant, and `size` counts the used slots. -/
structure UMap.Inv (m : UMap) : Prop where
  tabInv : TabInv m.tab m.cap
  size_eq : m.size = m.tab.countP (fun e => e.used)

/-- Key `u` is held by a used slot of the map. -/
def UMap.hasKey (m : UMap) (u : Int) : Prop := ∃ x ∈ m.tab, x.used = true ∧ x.key = u

/-- The invariant together with the load-factor bound kept between calls. -/
structure UMap.WF (m : UMap) : Prop where
  inv : m.Inv
  load : m.size * 10 < m.cap * 7

/-- The mask associated with key `u`: that of the used slot holding `u`, and 0 when no slot
holds it. -/
def UMap.maskOf (m : UMap) (u : Int) : Int :=
  match m.tab.find? (fun e => e.used && decide (e.key = u)) with
  | some e => e.mask
  | none => 0

/-! ## Specification: sequences of calls -/

/-- A sequence of calls `umap_get_or_create(m, u)`, each followed by
`mpz_or_range(*maskp, lo, hi)` on the mask returned (a call that only looks the key up is the
case `hi < lo`). -/
def run_calls : List (Int × Nat × Nat) → UMap → Option UMap
  | [], m => some m
  | (u, lo, hi) :: rest, m =>
    match or_into m u lo hi with
    | none => none
    | some m1 => run_calls rest m1

/-- The mask that key `k` should hold after a sequence of calls, starting from mask `v`:
every interval OR'ed into `k`, in order. -/
def expected_mask (k : Int) : List (Int × Nat × Nat) → Int → Int
  | [], v => v
  | (u, lo, hi) :: rest, v =>
    expected_mask k rest (if u = k then mpz_or_range v lo hi else v)

/-- The keys of the used slots, in slot order. -/
def UMap.keys (m : UMap) : List Int := (m.tab.filter (fun e => e.used)).map (fun e => e.key)

/-! ## Specification: the visits of the enumeration -/

/-- The coprime core and the `p`-adic valuation of `K`, as the stripping loop computes them. -/
def core_val (p K : Int) : Int × Nat := (strip_loop p (K.natAbs + 1) K 0).getD (K, 0)

/-- One visit of the loop body: `(a, b, E1max, d)`. -/
abbrev Visit := Int × Int × Int × Nat

/-- The big integer `K = b * p^d + a` of a visit. -/
def Visit.K (p : Int) (q : Visit) : Int := q.2.1 * p ^ q.2.2.2 + q.1

/-- Bit `t` of key `k` is among the bits that visit `q` sets: `k` is the core of `K` and
`1 + tz ≤ t ≤ E1max + tz`. -/
def contributes (p : Int) (q : Visit) (k : Int) (t : Nat) : Prop :=
  k = (core_val p (q.K p)).1 ∧ 1 + (core_val p (q.K p)).2 ≤ t ∧
    (t : Int) ≤ q.2.2.1 + (core_val p (q.K p)).2

/-- The visits on which no conversion wraps: `a`, `b`, `d` fit `unsigned long`, `E1max ≥ 1`,
and `E1max + tz` fits `int`. -/
def validVisit (p : Int) (q : Visit) : Prop :=
  1 ≤ q.1 ∧ q.1 < 2 ^ 64 ∧ 1 ≤ q.2.1 ∧ q.2.1 < 2 ^ 64 ∧ q.2.2.2 < 2 ^ 64 ∧ 1 ≤ q.2.2.1 ∧
    q.2.2.1 + (core_val p (q.K p)).2 < 2 ^ 31

/-- Processing a list of visits in order. -/
def run_visits (p : Int) : List Visit → UMap → Option UMap
  | [], m => some m
  | (a, b, E1max, d) :: rest, m =>
    match d_body p a b E1max d m with
    | none => none
    | some m1 => run_visits p rest m1

/-- The visits of the `d` loop of one pair, in order (the loop is left when `E1max < 1`). -/
def d_visits (a Ea b Eb : Int) : List Nat → List Visit
  | [] => []
  | d :: ds =>
    let Eb_minus_d : Int := Eb - d
    let E1max : Int := if Ea < Eb_minus_d then Ea else Eb_minus_d
    if E1max < 1 then [] else (a, b, E1max, d) :: d_visits a Ea b Eb ds

/-- The visits of the `bi` loop for one `a`. -/
def b_visits (a Ea : Int) : List (Int × Int) → List Visit
  | [] => []
  | (b, Eb) :: rest =>
    (if Eb - 1 < 0 then [] else d_visits a Ea b Eb (List.range (Eb - 1 + 1).toNat)) ++
      b_visits a Ea rest

/-- The visits of the `ai` loop: the order in which the program processes `(a, b, d)`. -/
def a_visits (all : List (Int × Int)) : List (Int × Int) → List Visit
  | [] => []
  | (a, Ea) :: rest => b_visits a Ea all ++ a_visits all rest

/-! ### Specification of the units and of their bounds -/

/-- The units: the `i` in `[1, n]` that `p` does not divide. -/
def spec_U (n p : Nat) : Finset Nat := (Finset.Icc 1 n).filter (fun i => ¬ p ∣ i)

/-- The bound `Emax(i) = n + floor(log_p(n / i))`, with `n / i` the exact rational quotient. -/
def spec_Emax (n p i : Nat) : Int := (n : Int) + Int.log p ((n : ℚ) / (i : ℚ))

/-- The units as a list of natural numbers, in increasing order. -/
def unitsNat (n p : Nat) : List Nat :=
  ((List.range n).map (fun i => i + 1)).filter (fun i => decide (¬ p ∣ i))

/-! ### The set bits of the masks -/

/-- The positions of the set bits of a natural number. -/
def bitsOf (M : Nat) : Finset Nat := (Finset.range M).filter (fun t => M.testBit t)

/-- The pairs `(key, bit index)` of the set bits of the masks of a map. -/
def UMap.bitPairs (m : UMap) : Finset (Int × Nat) :=
  m.keys.toFinset.biUnion (fun k => (bitsOf (m.maskOf k).toNat).image (fun t => (k, t)))

/-! ### The unit sequence of the program -/

/-- The unit sequence with its bounds, as the program builds it. -/
def ueSpec (n p : Nat) : List (Int × Int) :=
  (unitsNat n p).map (fun (i : Nat) => ((i : Int), (n : Int) + (Nat.log p (n / i) : Nat)))

/-! ### The specification of `A` and of its sumset -/

/-- The set `A = { i * p^e : i a unit, 1 ≤ e ≤ Emax(i) }`. -/
def spec_A (n p : Nat) : Finset Nat :=
  (spec_U n p).biUnion
    (fun i => (Finset.Icc 1 (spec_Emax n p i).toNat).image (fun e => i * p ^ e))

/-- The sumset `A + A`: the distinct integers `x + y` with `x, y ∈ A`. -/
def spec_sumset (n p : Nat) : Finset Nat :=
  (spec_A n p ×ˢ spec_A n p).image (fun xy => xy.1 + xy.2)

/-! ## Variants of the enumeration without the early exit -/

/-- The `d` loop of lines 213-238 with the statement `if (E1max < 1) break;` deleted. -/
def d_loop_nobreak (p a Ea b Eb : Int) : List Nat → UMap → Option UMap
  | [], map => some map
  | d :: ds, map =>
    let Eb_minus_d : Int := Eb - d
    let E1max : Int := if Ea < Eb_minus_d then Ea else Eb_minus_d
    match d_body p a b E1max d map with
    | none => none
    | some map => d_loop_nobreak p a Ea b Eb ds map

/-- The `d` loop of lines 213-238 with `break` replaced by a skip of the current `d`
(`if (E1max < 1) continue;`). -/
def d_loop_skip (p a Ea b Eb : Int) : List Nat → UMap → Option UMap
  | [], map => some map
  | d :: ds, map =>
    let Eb_minus_d : Int := Eb - d
    let E1max : Int := if Ea < Eb_minus_d then Ea else Eb_minus_d
    if E1max < 1 then d_loop_skip p a Ea b Eb ds map
    else
      match d_body p a b E1max d map with
      | none => none
      | some map => d_loop_skip p a Ea b Eb ds map

/-- The `bi` loop of lines 205-239 around a given `d` loop `dl`. -/
def b_loop_with (dl : Int → Int → Int → Int → Int → List Nat → UMap → Option UMap)
    (p a Ea : Int) : List (Int × Int) → UMap → Option UMap
  | [], map => some map
  | (b, Eb) :: rest, map =>
    let max_d : Int := Eb - 1
    if max_d < 0 then b_loop_with dl p a Ea rest map
    else
      match dl p a Ea b Eb (List.range (max_d + 1).toNat) map with
      | none => none
      | some map => b_loop_with dl p a Ea rest map

/-- The `ai` loop of lines 200-240 around a given `d` loop `dl`. -/
def a_loop_with (dl : Int → Int → Int → Int → Int → List Nat → UMap → Option UMap)
    (p : Int) (all : List (Int × Int)) : List (Int × Int) → UMap → Option UMap
  | [], map => some map
  | (a, Ea) :: rest, map =>
    match b_loop_with dl p a Ea all map with
    | none => none
    | some map => a_loop_with dl p all rest map

/-- Lines 159-240 of `A_ads_size_big` with the `d` loop replaced by `dl`. -/
def A_ads_map_with (dl : Int → Int → Int → Int → Int → List Nat → UMap → Option UMap)
    (n p : Int) : Option (Int × UMap) :=
  match build_Emax n p (build_units n p) with
  | none => none
  | some ue =>
    let A_size := sum_Emax ue
    match a_loop_with dl p ue ue (umap_init (2 ^ 13)) with
    | none => none
    | some map => some (A_size, map)

/-- The function `A_ads_size_big` with the `d` loop replaced by `dl`. -/
def A_ads_size_big_with (dl : Int → Int → Int → Int → Int → List Nat → UMap → Option UMap)
    (n p : Int) : Option (Int × Int) :=
  match A_ads_map_with dl n p with
  | none => none
  | some (A_size, map) => some (A_size, sum_popcounts map)

/-! ## Specification: the map update of a visit, and a populated table -/

/-- A populated table: the map after `umap_get_or_create` (each followed by an OR of bit 1)
for the keys 9, 19, 1, 10, 13 on `umap_init 8`. Keys 9 and 19 hash to index 7 (19 wraps
around to slot 0), keys 1, 10 and 13 hash to index 0. -/
def example_map : UMap :=
  { tab := [⟨true, 19, 2⟩, ⟨true, 1, 2⟩, ⟨true, 10, 2⟩, ⟨true, 13, 2⟩, Entry.empty, Entry.empty,
            Entry.empty, ⟨true, 9, 2⟩],
    cap := 8, size := 5 }

/-- The map update that a visit performs: the key is the core of `K`, the interval is
`[1 + tz, E1max + tz]`. -/
def visit_call (p : Int) (q : Visit) : Int × Nat × Nat :=
  ((core_val p (q.K p)).1, 1 + (core_val p (q.K p)).2,
    (q.2.2.1 + ((core_val p (q.K p)).2 : Int)).toNat)

/-! ## The helpers -/

theorem ilogp_loop_spec (p : Int) (hp : 2 ≤ p) :
    ∀ (fuel : Nat) (x lm : Int), 0 < x → x.toNat < fuel →
      ∃ L : Nat, ilogp_loop p fuel x lm = some (lm + L) ∧ p ^ L ≤ x ∧ x < p ^ (L + 1) := by
  intro fuel
  induction fuel with
  | zero => intro x lm _ h; omega
  | succ f ih =>
    intro x lm hx hf
    unfold ilogp_loop
    by_cases hxp : x ≥ p
    · rw [if_pos hxp]
      have hp0 : 0 < p := by omega
      have hq : Int.tdiv x p = x / p := Int.tdiv_eq_ediv (by omega) (by omega)
      have hqpos : 0 < x / p := Int.le_ediv_of_mul_le hp0 (by omega : 1 * p ≤ x)
      have hqlt : x / p < x := Int.ediv_lt_of_lt_mul hp0 (by nlinarith)
      rw [hq]
      obtain ⟨L, hL, h1, h2⟩ := ih (x / p) (lm + 1) hqpos (by omega)
      refine ⟨L + 1, ?_, ?_, ?_⟩
      · rw [hL]; push_cast; congr 1; ring
      · have := Int.ediv_mul_le x (ne_of_gt hp0)
        calc p ^ (L + 1) = p ^ L * p := pow_succ p L
          _ ≤ x / p * p := by nlinarith
          _ ≤ x := this
      · have := Int.lt_ediv_add_one_mul_self x hp0
        have h3 : x / p + 1 ≤ p ^ (L + 1) := h2
        calc x < (x / p + 1) * p := this
          _ ≤ p ^ (L + 1) * p := by nlinarith
          _ = p ^ (L + 1 + 1) := (pow_succ p (L + 1)).symm
    · rw [if_neg hxp]
      exact ⟨0, by simp, by simpa using hx, by simpa using not_le.mp hxp⟩

/-- For `x > 0` and `p ≥ 2` the loop of `ilogp_int` exits within the fuel given. -/
theorem ilogp_int_pos (x p : Int) (hx : 0 < x) (hp : 2 ≤ p) :
    ∃ L : Nat, ilogp_int x p = some (L : Int) ∧ p ^ L ≤ x ∧ x < p ^ (L + 1) := by
  obtain ⟨L, h, h1, h2⟩ := ilogp_loop_spec p hp (x.toNat + 1) x 0 hx (by omega)
  refine ⟨L, ?_, h1, h2⟩
  unfold ilogp_int
  rw [if_neg (by omega), h]
  simp

/-- C4: for `p ≥ 2` and `x > 0`, `ilogp_int x p` returns the largest `L ≥ 0` with
`p^L ≤ x` (so `p^L ≤ x < p^(L+1)`); for `x ≤ 0` it returns 0. -/
theorem ilogp_int_spec (x p : Int) (hp : 2 ≤ p) :
    (0 < x → ∃ L : Nat, ilogp_int x p = some (L : Int) ∧ p ^ L ≤ x ∧ x < p ^ (L + 1) ∧
      ∀ M : Nat, p ^ M ≤ x → M ≤ L) ∧
    (x ≤ 0 → ilogp_int x p = some 0) := by
  constructor
  · intro hx
    obtain ⟨L, h, h1, h2⟩ := ilogp_int_pos x p hx hp
    refine ⟨L, h, h1, h2, ?_⟩
    intro M hM
    by_contra hlt
    have hle : L + 1 ≤ M := by omega
    have : p ^ (L + 1) ≤ p ^ M := pow_le_pow_right₀ (by omega) hle
    omega
  · intro hx
    unfold ilogp_int
    rw [if_pos hx]

theorem ilogp_int_spec_witness :
    ∃ L : Nat, ilogp_int 80 3 = some (L : Int) ∧ (3 : Int) ^ L ≤ 80 ∧ (80 : Int) < 3 ^ (L + 1) ∧
      ∀ M : Nat, (3 : Int) ^ M ≤ 80 → M ≤ L :=
  (ilogp_int_spec 80 3 (by decide)).1 (by decide)

/-! ### Bit masks -/

theorem int_testBit_natCast (m k : Nat) : Int.testBit (Int.ofNat m) k = Nat.testBit m k := rfl

theorem int_eq_of_testBit_eq : ∀ a b : Int, (∀ k, Int.testBit a k = Int.testBit b k) → a = b := by
  have key : ∀ m n : Nat, ¬ ∀ k, Nat.testBit m k = !Nat.testBit n k := by
    intro m n h
    have h1 : Nat.testBit m (max m n) = false :=
      Nat.testBit_lt_two_pow (lt_of_le_of_lt (le_max_left m n) (Nat.lt_two_pow _))
    have h2 : Nat.testBit n (max m n) = false :=
      Nat.testBit_lt_two_pow (lt_of_le_of_lt (le_max_right m n) (Nat.lt_two_pow _))
    have := h (max m n)
    rw [h1, h2] at this
    simp at this
  intro a b h
  cases a with
  | ofNat m =>
    cases b with
    | ofNat n =>
      have : m = n := Nat.eq_of_testBit_eq (fun k => h k)
      rw [this]
    | negSucc n => exact absurd (fun k => h k) (key m n)
  | negSucc m =>
    cases b with
    | ofNat n =>
      exact absurd (fun k => by have := h k; simp only [Int.testBit] at this; exact this.symm)
        (key n m)
    | negSucc n =>
      have : m = n := Nat.eq_of_testBit_eq (fun k => by
        have := h k; simp only [Int.testBit] at this; simpa using this)
      rw [this]

theorem interval_eq_natCast (len lo : Nat) :
    (((2 : Int) ^ len - (1 : Int)) * (2 : Int) ^ lo) = Int.ofNat ((2 ^ len - 1) <<< lo) := by
  rw [Nat.shiftLeft_eq]
  have : 1 ≤ 2 ^ len := Nat.one_le_two_pow
  simp only [Int.ofNat_eq_coe]
  push_cast [this]
  ring

theorem testBit_interval (len lo k : Nat) :
    Nat.testBit ((2 ^ len - 1) <<< lo) k = decide (lo ≤ k ∧ k < lo + len) := by
  rw [Nat.testBit_shiftLeft, Nat.testBit_two_pow_sub_one]
  by_cases h1 : lo ≤ k <;> by_cases h2 : k < lo + len <;> simp [h1, h2] <;> omega

/-- The bits of `mpz_or_range dst lo hi` when `hi - lo + 1` does not wrap. -/
theorem mpz_or_range_testBit (dst : Int) (lo hi k : Nat) (hlen : hi - lo + 1 < 2 ^ UINT_BITS) :
    Int.testBit (mpz_or_range dst lo hi) k = (Int.testBit dst k || decide (lo ≤ k ∧ k ≤ hi)) := by
  unfold mpz_or_range
  by_cases h : hi < lo
  · rw [if_pos h]
    have : ¬ (lo ≤ k ∧ k ≤ hi) := by omega
    simp [this]
  · rw [if_neg h]
    simp only []
    rw [Nat.mod_eq_of_lt hlen, interval_eq_natCast, Int.testBit_lor, int_testBit_natCast,
      testBit_interval]
    congr 2
    apply propext
    constructor <;> intro h' <;> omega

/-- C10: applying `mpz_or_range dst lo hi` twice gives the same mask as applying it once. -/
theorem mpz_or_range_idem (dst : Int) (lo hi : Nat) :
    mpz_or_range (mpz_or_range dst lo hi) lo hi = mpz_or_range dst lo hi := by
  unfold mpz_or_range
  by_cases h : hi < lo
  · simp [h]
  · simp only [if_neg h]
    apply int_eq_of_testBit_eq
    intro k
    simp only [Int.testBit_lor, Bool.or_assoc, Bool.or_self]

/-! ## The hash table -/

theorem slot_of_lt {tab : List Entry} {i : Nat} (h : i < tab.length) :
    tab[i]? = some (slot tab i) := by
  simp [slot, List.getD_eq_getElem?_getD, List.getElem?_eq_getElem h]

theorem slot_of_ge {tab : List Entry} {i : Nat} (h : tab.length ≤ i) :
    slot tab i = Entry.empty := by
  simp [slot, List.getD_eq_getElem?_getD, List.getElem?_eq_none h]

theorem lt_of_slot_used {tab : List Entry} {i : Nat} (h : (slot tab i).used = true) :
    i < tab.length := by
  by_contra hn
  rw [slot_of_ge (by omega)] at h
  simp [Entry.empty] at h

theorem slot_mem {tab : List Entry} {i : Nat} (h : i < tab.length) : slot tab i ∈ tab :=
  List.mem_iff_getElem?.mpr ⟨i, slot_of_lt h⟩

theorem exists_slot_of_mem {tab : List Entry} {e : Entry} (h : e ∈ tab) :
    ∃ i, i < tab.length ∧ slot tab i = e := by
  obtain ⟨i, hi, rfl⟩ := List.mem_iff_getElem.mp h
  exact ⟨i, hi, by simp [slot, List.getD_eq_getElem?_getD, List.getElem?_eq_getElem hi]⟩

theorem slot_set (tab : List Entry) (j i : Nat) (e : Entry) (hj : j < tab.length) :
    slot (tab.set j e) i = if j = i then e else slot tab i := by
  unfold slot
  simp only [List.getD_eq_getElem?_getD, List.getElem?_set]
  by_cases h : j = i
  · subst h
    simp [hj]
  · simp [h]

theorem and_mask (cap x : Nat) (h : ∃ e : Nat, cap = 2 ^ e) : x &&& (cap - 1) = x % cap := by
  obtain ⟨e, rfl⟩ := h
  exact Nat.and_pow_two_sub_one_eq_mod x e

theorem cap_pos {cap : Nat} (h : ∃ e : Nat, cap = 2 ^ e) : 0 < cap := by
  obtain ⟨e, rfl⟩ := h
  exact Nat.pos_pow_of_pos e (by decide)

theorem home_lt {cap : Nat} (h : ∃ e : Nat, cap = 2 ^ e) (k : Int) : home cap k < cap := by
  unfold home
  rw [and_mask cap _ h]
  exact Nat.mod_lt _ (cap_pos h)

/-! ### Modular offsets -/

theorem offset_reach {c h i : Nat} (hh : h < c) (hi : i < c) :
    (h + (i + c - h) % c) % c = i := by
  rw [Nat.add_mod_mod]
  have : h + (i + c - h) = i + c := by omega
  rw [this, Nat.add_mod_right, Nat.mod_eq_of_lt hi]

theorem offset_inj {c h s t : Nat} (hs : s < c) (ht : t < c)
    (heq : (h + s) % c = (h + t) % c) : s = t := by
  have h1 : s ≡ t [MOD c] := Nat.ModEq.add_left_cancel' h heq
  have h2 := Nat.ModEq.eq_of_lt_of_lt h1 hs ht
  exact h2

theorem offset_succ (c h s : Nat) : ((h + 1) % c + s) % c = (h + (s + 1)) % c := by
  rw [Nat.mod_add_mod]
  congr 1
  omega

theorem offset_unique {c h t i : Nat} (hh : h < c) (ht : t < c) (hi : i < c)
    (heq : (h + t) % c = i) : t = (i + c - h) % c := by
  apply offset_inj (h := h) ht (Nat.mod_lt _ (by omega))
  rw [heq, offset_reach hh hi]

/-! ### The probe loops -/

theorem probe_hit (tab : List Entry) (cap : Nat) (u : Int) (hc : ∃ e : Nat, cap = 2 ^ e)
    (hlen : tab.length = cap) :
    ∀ (t idx fuel : Nat), idx < cap → t < fuel →
      (∀ s, s < t → (slot tab ((idx + s) % cap)).used = true ∧
        (slot tab ((idx + s) % cap)).key ≠ u) →
      (slot tab ((idx + t) % cap)).used = true → (slot tab ((idx + t) % cap)).key = u →
      probe tab cap u fuel idx = some ((idx + t) % cap, true) := by
  intro t
  induction t with
  | zero =>
    intro idx fuel hidx hf _ hu hk
    obtain ⟨f, rfl⟩ : ∃ f, fuel = f + 1 := ⟨fuel - 1, by omega⟩
    simp only [Nat.add_zero, Nat.mod_eq_of_lt hidx] at hu hk ⊢
    unfold probe
    rw [slot_of_lt (by omega)]
    simp [hu, hk]
  | succ t ih =>
    intro idx fuel hidx hf hpre hu hk
    obtain ⟨f, rfl⟩ : ∃ f, fuel = f + 1 := ⟨fuel - 1, by omega⟩
    have h0 := hpre 0 (by omega)
    simp only [Nat.add_zero, Nat.mod_eq_of_lt hidx] at h0
    unfold probe
    rw [slot_of_lt (by omega)]
    simp only [h0.1, if_true, if_neg h0.2]
    rw [and_mask cap _ hc]
    have hstep := ih ((idx + 1) % cap) f (Nat.mod_lt _ (cap_pos hc)) (by omega)
      (fun s hs => by rw [offset_succ]; exact hpre (s + 1) (by omega))
      (by rw [offset_succ]; exact hu) (by rw [offset_succ]; exact hk)
    rw [hstep, offset_succ]

theorem probe_miss (tab : List Entry) (cap : Nat) (u : Int) (hc : ∃ e : Nat, cap = 2 ^ e)
    (hlen : tab.length = cap) :
    ∀ (t idx fuel : Nat), idx < cap → t < fuel →
      (∀ s, s < t → (slot tab ((idx + s) % cap)).used = true ∧
        (slot tab ((idx + s) % cap)).key ≠ u) →
      (slot tab ((idx + t) % cap)).used = false →
      probe tab cap u fuel idx = some ((idx + t) % cap, false) := by
  intro t
  induction t with
  | zero =>
    intro idx fuel hidx hf _ hu
    obtain ⟨f, rfl⟩ : ∃ f, fuel = f + 1 := ⟨fuel - 1, by omega⟩
    simp only [Nat.add_zero, Nat.mod_eq_of_lt hidx] at hu ⊢
    unfold probe
    rw [slot_of_lt (by omega)]
    simp [hu]
  | succ t ih =>
    intro idx fuel hidx hf hpre hu
    obtain ⟨f, rfl⟩ : ∃ f, fuel = f + 1 := ⟨fuel - 1, by omega⟩
    have h0 := hpre 0 (by omega)
    simp only [Nat.add_zero, Nat.mod_eq_of_lt hidx] at h0
    unfold probe
    rw [slot_of_lt (by omega)]
    simp only [h0.1, if_true, if_neg h0.2]
    rw [and_mask cap _ hc]
    have hstep := ih ((idx + 1) % cap) f (Nat.mod_lt _ (cap_pos hc)) (by omega)
      (fun s hs => by rw [offset_succ]; exact hpre (s + 1) (by omega))
      (by rw [offset_succ]; exact hu)
    rw [hstep, offset_succ]

theorem probe_empty_spec (tab : List Entry) (cap : Nat) (hc : ∃ e : Nat, cap = 2 ^ e)
    (hlen : tab.length = cap) :
    ∀ (t idx fuel : Nat), idx < cap → t < fuel →
      (∀ s, s < t → (slot tab ((idx + s) % cap)).used = true) →
      (slot tab ((idx + t) % cap)).used = false →
      probe_empty tab cap fuel idx = some ((idx + t) % cap) := by
  intro t
  induction t with
  | zero =>
    intro idx fuel hidx hf _ hu
    obtain ⟨f, rfl⟩ : ∃ f, fuel = f + 1 := ⟨fuel - 1, by omega⟩
    simp only [Nat.add_zero, Nat.mod_eq_of_lt hidx] at hu ⊢
    unfold probe_empty
    rw [slot_of_lt (by omega)]
    simp [hu]
  | succ t ih =>
    intro idx fuel hidx hf hpre hu
    obtain ⟨f, rfl⟩ : ∃ f, fuel = f + 1 := ⟨fuel - 1, by omega⟩
    have h0 := hpre 0 (by omega)
    simp only [Nat.add_zero, Nat.mod_eq_of_lt hidx] at h0
    unfold probe_empty
    rw [slot_of_lt (by omega)]
    simp only [h0, if_true]
    rw [and_mask cap _ hc]
    have hstep := ih ((idx + 1) % cap) f (Nat.mod_lt _ (cap_pos hc)) (by omega)
      (fun s hs => by rw [offset_succ]; exact hpre (s + 1) (by omega))
      (by rw [offset_succ]; exact hu)
    rw [hstep, offset_succ]

/-- A table with fewer used slots than slots has an empty slot. -/
theorem exists_empty_slot (tab : List Entry) (h : tab.countP (fun e => e.used) < tab.length) :
    ∃ j, j < tab.length ∧ (slot tab j).used = false := by
  by_contra hall
  have : tab.countP (fun e => e.used) = tab.length := by
    rw [List.countP_eq_length]
    intro a ha
    obtain ⟨i, hi, rfl⟩ := exists_slot_of_mem ha
    by_contra hu
    exact hall ⟨i, hi, by simpa using hu⟩
  omega

/-- From any start index there is a first empty slot along the probe sequence. -/
theorem exists_first_empty (tab : List Entry) (cap h : Nat) (hlen : tab.length = cap)
    (hh : h < cap) (hroom : tab.countP (fun e => e.used) < cap) :
    ∃ t, t < cap ∧ (slot tab ((h + t) % cap)).used = false ∧
      ∀ s, s < t → (slot tab ((h + s) % cap)).used = true := by
  obtain ⟨j, hj, hju⟩ := exists_empty_slot tab (by omega)
  have hex : ∃ t, t < cap ∧ (slot tab ((h + t) % cap)).used = false :=
    ⟨(j + cap - h) % cap, Nat.mod_lt _ (by omega), by rw [offset_reach hh (by omega)]; exact hju⟩
  classical
  refine ⟨Nat.find hex, (Nat.find_spec hex).1, (Nat.find_spec hex).2, ?_⟩
  intro s hs
  have := Nat.find_min hex hs
  by_contra hn
  exact this ⟨lt_trans hs (Nat.find_spec hex).1, by simpa using hn⟩

/-! ### Claiming an empty slot -/

theorem countP_set_empty (tab : List Entry) (j : Nat) (e : Entry) (hj : j < tab.length)
    (hfree : (slot tab j).used = false) (he : e.used = true) :
    (tab.set j e).countP (fun x => x.used) = tab.countP (fun x => x.used) + 1 := by
  rw [List.countP_set _ _ _ _ hj]
  have : tab[j] = slot tab j := by
    have := slot_of_lt hj
    rw [List.getElem?_eq_getElem hj] at this
    exact Option.some.inj this
  simp [this, hfree, he]

theorem mem_set_empty (tab : List Entry) (j : Nat) (e : Entry) (hj : j < tab.length)
    (hfree : (slot tab j).used = false) (x : Entry) (hx : x.used = true) :
    x ∈ tab.set j e ↔ x ∈ tab ∨ x = e := by
  constructor
  · intro h
    obtain ⟨i, hi, rfl⟩ := exists_slot_of_mem h
    rw [List.length_set] at hi
    rw [slot_set tab j i e hj]
    by_cases hji : j = i
    · simp [hji]
    · simp only [if_neg hji]
      exact Or.inl (slot_mem hi)
  · intro h
    rcases h with h | h
    · obtain ⟨i, hi, rfl⟩ := exists_slot_of_mem h
      have hji : j ≠ i := by
        intro hji
        rw [← hji, hfree] at hx
        exact Bool.noConfusion hx
      have : slot (tab.set j e) i = slot tab i := by rw [slot_set tab j i e hj, if_neg hji]
      rw [← this]
      exact slot_mem (by rw [List.length_set]; exact hi)
    · have hm : slot (tab.set j e) j ∈ tab.set j e :=
        slot_mem (by rw [List.length_set]; exact hj)
      rw [slot_set tab j j e hj, if_pos rfl] at hm
      rw [h]
      exact hm

theorem TabInv.insert {tab : List Entry} {cap : Nat} (hinv : TabInv tab cap) (k v : Int)
    (habs : ∀ i, (slot tab i).used = true → (slot tab i).key ≠ k)
    (t : Nat) (ht : t < cap)
    (hpre : ∀ s, s < t → (slot tab ((home cap k + s) % cap)).used = true) :
    TabInv (tab.set ((home cap k + t) % cap) ⟨true, k, v⟩) cap := by
  have hcpos := cap_pos hinv.pow2
  have hj : (home cap k + t) % cap < tab.length := by rw [hinv.len]; exact Nat.mod_lt _ hcpos
  have hslot := fun i => slot_set tab ((home cap k + t) % cap) i ⟨true, k, v⟩ hj
  have hmono : ∀ i, (slot tab i).used = true →
      (slot (tab.set ((home cap k + t) % cap) ⟨true, k, v⟩) i).used = true := by
    intro i hi
    rw [hslot]
    split
    · rfl
    · exact hi
  refine ⟨hinv.pow2, by rw [List.length_set]; exact hinv.len, ?_, ?_⟩
  · intro i i' hi hi' hkey
    rw [hslot] at hi hkey
    rw [hslot] at hi' hkey
    by_cases h1 : (home cap k + t) % cap = i <;> by_cases h2 : (home cap k + t) % cap = i'
    · rw [← h1, ← h2]
    · simp only [if_pos h1, if_neg h2] at hi hi' hkey
      exact absurd hkey.symm (habs i' hi')
    · simp only [if_neg h1, if_pos h2] at hi hi' hkey
      exact absurd hkey (habs i hi)
    · simp only [if_neg h1, if_neg h2] at hi hi' hkey
      exact hinv.distinct i i' hi hi' hkey
  · intro i hi s hs
    rw [hslot] at hi hs
    rw [hslot i]
    by_cases h1 : (home cap k + t) % cap = i
    · simp only [if_pos h1] at hs ⊢
      apply hmono
      apply hpre
      have hi_lt : i < cap := by rw [← h1]; exact Nat.mod_lt _ hcpos
      have := offset_unique (home_lt hinv.pow2 k) ht hi_lt h1
      omega
    · simp only [if_neg h1] at hi hs ⊢
      exact hmono _ (hinv.chain i hi s hs)

theorem TabInv.replicate (cap : Nat) (hc : ∃ e : Nat, cap = 2 ^ e) :
    TabInv (List.replicate cap Entry.empty) cap := by
  have hs : ∀ i, (slot (List.replicate cap Entry.empty) i).used = false := by
    intro i
    unfold slot
    rw [List.getD_eq_getElem?_getD, List.getElem?_replicate]
    split <;> rfl
  refine ⟨hc, List.length_replicate _ _, ?_, ?_⟩
  · intro i j hi
    rw [hs] at hi
    exact Bool.noConfusion hi
  · intro i hi
    rw [hs] at hi
    exact Bool.noConfusion hi

theorem slot_modify_mask (tab : List Entry) (idx i : Nat) (v : Int) :
    slot (tab.modify (fun e => { e with mask := v }) idx) i =
      if idx = i ∧ i < tab.length then { slot tab i with mask := v } else slot tab i := by
  unfold slot
  simp only [List.getD_eq_getElem?_getD, List.getElem?_modify]
  by_cases hi : i < tab.length
  · rw [List.getElem?_eq_getElem hi]
    by_cases h : idx = i <;> simp [h, hi]
  · rw [List.getElem?_eq_none (by omega)]
    simp [hi]

theorem TabInv.modify_mask {tab : List Entry} {cap : Nat} (hinv : TabInv tab cap)
    (idx : Nat) (v : Int) :
    TabInv (tab.modify (fun e => { e with mask := v }) idx) cap := by
  have hu : ∀ i, (slot (tab.modify (fun e => { e with mask := v }) idx) i).used =
      (slot tab i).used := by
    intro i; rw [slot_modify_mask]; split <;> rfl
  have hk : ∀ i, (slot (tab.modify (fun e => { e with mask := v }) idx) i).key =
      (slot tab i).key := by
    intro i; rw [slot_modify_mask]; split <;> rfl
  refine ⟨hinv.pow2, by rw [List.length_modify]; exact hinv.len, ?_, ?_⟩
  · intro i j hi hj hkey
    rw [hu] at hi hj
    rw [hk, hk] at hkey
    exact hinv.distinct i j hi hj hkey
  · intro i hi s hs
    rw [hu] at hi ⊢
    rw [hk] at hs ⊢
    exact hinv.chain i hi s hs

/-! ### Rehashing -/

theorem entry_eta (e : Entry) (h : e.used = true) : (⟨true, e.key, e.mask⟩ : Entry) = e := by
  cases e
  simp_all

theorem rehash_insert_spec (m : UMap) (e : Entry) (hinv : m.Inv) (hroom : m.size < m.cap)
    (habs : ∀ x ∈ m.tab, x.used = true → x.key ≠ e.key) :
    ∃ m1, rehash_insert m e = some m1 ∧ m1.Inv ∧ m1.cap = m.cap ∧ m1.size = m.size + 1 ∧
      ∀ x : Entry, x.used = true → (x ∈ m1.tab ↔ x ∈ m.tab ∨ x = ⟨true, e.key, e.mask⟩) := by
  have hT := hinv.tabInv
  have hh := home_lt hT.pow2 e.key
  obtain ⟨t, ht, hfree, hpre⟩ := exists_first_empty m.tab m.cap (home m.cap e.key) hT.len hh
    (by rw [← hinv.size_eq]; exact hroom)
  have hj : (home m.cap e.key + t) % m.cap < m.tab.length := by
    rw [hT.len]; exact Nat.mod_lt _ (cap_pos hT.pow2)
  have hp := probe_empty_spec m.tab m.cap hT.pow2 hT.len t (home m.cap e.key) m.cap hh ht hpre hfree
  refine ⟨{ m with tab := m.tab.set ((home m.cap e.key + t) % m.cap) ⟨true, e.key, e.mask⟩,
                   size := m.size + 1 }, ?_, ⟨?_, ?_⟩, rfl, rfl, ?_⟩
  · unfold rehash_insert
    simp only []
    unfold home at hp
    rw [hp]
    rfl
  · exact hT.insert e.key e.mask
      (fun i hi => habs _ (slot_mem (lt_of_slot_used hi)) hi) t ht hpre
  · simp only []
    rw [countP_set_empty m.tab _ _ hj hfree rfl, hinv.size_eq]
  · intro x hx
    exact mem_set_empty m.tab _ _ hj hfree x hx

theorem rehash_loop_spec : ∀ (old : List Entry) (m : UMap), m.Inv →
    m.size + old.countP (fun e => e.used) < m.cap →
    old.Pairwise (fun a b => a.used = true → b.used = true → a.key ≠ b.key) →
    (∀ a ∈ old, a.used = true → ∀ x ∈ m.tab, x.used = true → x.key ≠ a.key) →
    ∃ m1, rehash_loop old m = some m1 ∧ m1.Inv ∧ m1.cap = m.cap ∧
      m1.size = m.size + old.countP (fun e => e.used) ∧
      ∀ x : Entry, x.used = true → (x ∈ m1.tab ↔ x ∈ m.tab ∨ x ∈ old) := by
  intro old
  induction old with
  | nil =>
    intro m hinv _ _ _
    exact ⟨m, rfl, hinv, rfl, by simp, by simp⟩
  | cons e rest ih =>
    intro m hinv hroom hpw habs
    rw [List.pairwise_cons] at hpw
    by_cases hu : e.used = true
    · have hcnt : (e :: rest).countP (fun e => e.used) = rest.countP (fun e => e.used) + 1 := by
        rw [List.countP_cons_of_pos _ _ hu]
      rw [hcnt] at hroom
      obtain ⟨m1, h1, hinv1, hcap1, hsize1, hmem1⟩ := rehash_insert_spec m e hinv (by omega)
        (fun x hx hxu => habs e (List.mem_cons_self _ _) hu x hx hxu)
      obtain ⟨m2, h2, hinv2, hcap2, hsize2, hmem2⟩ := ih m1 hinv1 (by rw [hcap1, hsize1]; omega)
        hpw.2 (by
          intro a ha hau x hx hxu
          rcases (hmem1 x hxu).mp hx with hx' | hx'
          · exact habs a (List.mem_cons_of_mem _ ha) hau x hx' hxu
          · rw [hx']
            exact hpw.1 a ha hu hau)
      refine ⟨m2, ?_, hinv2, by rw [hcap2, hcap1], by rw [hsize2, hsize1, hcnt]; omega, ?_⟩
      · unfold rehash_loop
        simp only [hu, Bool.not_true, Bool.false_eq_true, if_false, h1]
        exact h2
      · intro x hxu
        rw [hmem2 x hxu, hmem1 x hxu, entry_eta e hu, List.mem_cons]
        tauto
    · have hu' : e.used = false := by simpa using hu
      have hcnt : (e :: rest).countP (fun e => e.used) = rest.countP (fun e => e.used) := by
        rw [List.countP_cons_of_neg _ _ (by simp [hu'])]
      rw [hcnt] at hroom
      obtain ⟨m2, h2, hinv2, hcap2, hsize2, hmem2⟩ := ih m hinv hroom hpw.2
        (fun a ha => habs a (List.mem_cons_of_mem _ ha))
      refine ⟨m2, ?_, hinv2, hcap2, by rw [hsize2, hcnt], ?_⟩
      · unfold rehash_loop
        simp only [hu', Bool.not_false, if_true]
        exact h2
      · intro x hxu
        rw [hmem2 x hxu, List.mem_cons]
        constructor
        · tauto
        · rintro (h | rfl | h)
          · exact Or.inl h
          · rw [hu'] at hxu; exact Bool.noConfusion hxu
          · exact Or.inr h

theorem TabInv.pairwise {tab : List Entry} {cap : Nat} (hinv : TabInv tab cap) :
    tab.Pairwise (fun a b => a.used = true → b.used = true → a.key ≠ b.key) := by
  rw [List.pairwise_iff_getElem]
  intro i j hi hj hij ha hb hkey
  have h1 : tab[i] = slot tab i := by
    have := slot_of_lt hi
    rw [List.getElem?_eq_getElem hi] at this
    exact Option.some.inj this
  have h2 : tab[j] = slot tab j := by
    have := slot_of_lt hj
    rw [List.getElem?_eq_getElem hj] at this
    exact Option.some.inj this
  rw [h1] at ha hkey
  rw [h2] at hb hkey
  have := hinv.distinct i j ha hb hkey
  omega

theorem umap_rehash_spec (m : UMap) (new_cap : Nat) (hinv : m.Inv)
    (hpow : ∃ e : Nat, new_cap = 2 ^ e) (hroom : m.size < new_cap) :
    ∃ m1, umap_rehash m new_cap = some m1 ∧ m1.Inv ∧ m1.cap = new_cap ∧ m1.size = m.size ∧
      ∀ x : Entry, x.used = true → (x ∈ m1.tab ↔ x ∈ m.tab) := by
  have htake : m.tab.take m.cap = m.tab := List.take_of_length_le (le_of_eq hinv.tabInv.len)
  have hrep : ∀ x ∈ List.replicate new_cap Entry.empty, x.used = true → False := by
    intro x hx hxu
    rw [List.mem_replicate] at hx
    rw [hx.2] at hxu
    exact Bool.noConfusion hxu
  have hcount0 : (List.replicate new_cap Entry.empty).countP (fun e => e.used) = 0 := by
    rw [List.countP_eq_zero]
    intro a ha hau
    exact hrep a ha hau
  obtain ⟨m1, h1, hinv1, hcap1, hsize1, hmem1⟩ := rehash_loop_spec m.tab
    { tab := List.replicate new_cap Entry.empty, cap := new_cap, size := 0 }
    ⟨TabInv.replicate new_cap hpow, hcount0.symm⟩
    (by simp only []; rw [← hinv.size_eq]; omega)
    hinv.tabInv.pairwise
    (fun a _ _ x hx hxu => (hrep x hx hxu).elim)
  refine ⟨m1, ?_, hinv1, hcap1, by rw [hsize1, ← hinv.size_eq]; simp, ?_⟩
  · unfold umap_rehash
    rw [htake]
    exact h1
  · intro x hxu
    rw [hmem1 x hxu]
    constructor
    · rintro (h | h)
      · exact (hrep x h hxu).elim
      · exact h
    · exact Or.inr

/-! ### Lookup and insertion -/

theorem probe_present (tab : List Entry) (cap : Nat) (u : Int) (hinv : TabInv tab cap) (i : Nat)
    (hi : (slot tab i).used = true) (hk : (slot tab i).key = u) :
    probe tab cap u cap (home cap u) = some (i, true) := by
  have hic : i < cap := by rw [← hinv.len]; exact lt_of_slot_used hi
  have hh := home_lt hinv.pow2 u
  have ht : (i + cap - home cap u) % cap < cap := Nat.mod_lt _ (by omega)
  have hreach := offset_reach hh hic
  have := probe_hit tab cap u hinv.pow2 hinv.len ((i + cap - home cap u) % cap) (home cap u) cap
    hh ht
    (fun s hs => by
      have hus : (slot tab ((home cap u + s) % cap)).used = true := by
        have := hinv.chain i hi s (by rw [hk]; exact hs)
        rw [hk] at this
        exact this
      refine ⟨hus, fun hkey => ?_⟩
      have heq := hinv.distinct _ i hus hi (by rw [hkey, hk])
      have := offset_unique hh (by omega) hic heq
      omega)
    (by rw [hreach]; exact hi) (by rw [hreach]; exact hk)
  rw [this, hreach]

theorem probe_absent (tab : List Entry) (cap : Nat) (u : Int) (hinv : TabInv tab cap)
    (hroom : tab.countP (fun e => e.used) < cap)
    (habs : ∀ x ∈ tab, x.used = true → x.key ≠ u) :
    ∃ t, t < cap ∧ probe tab cap u cap (home cap u) = some ((home cap u + t) % cap, false) ∧
      (slot tab ((home cap u + t) % cap)).used = false ∧
      ∀ s, s < t → (slot tab ((home cap u + s) % cap)).used = true := by
  have hh := home_lt hinv.pow2 u
  obtain ⟨t, ht, hfree, hpre⟩ := exists_first_empty tab cap (home cap u) hinv.len hh hroom
  refine ⟨t, ht, ?_, hfree, hpre⟩
  exact probe_miss tab cap u hinv.pow2 hinv.len t (home cap u) cap hh ht
    (fun s hs => ⟨hpre s hs, habs _ (slot_mem (lt_of_slot_used (hpre s hs))) (hpre s hs)⟩) hfree

theorem hasKey_iff_slot (m : UMap) (u : Int) :
    m.hasKey u ↔ ∃ i, (slot m.tab i).used = true ∧ (slot m.tab i).key = u := by
  constructor
  · rintro ⟨x, hx, hxu, hxk⟩
    obtain ⟨i, _, rfl⟩ := exists_slot_of_mem hx
    exact ⟨i, hxu, hxk⟩
  · rintro ⟨i, hi, hk⟩
    exact ⟨slot m.tab i, slot_mem (lt_of_slot_used hi), hi, hk⟩

/-- The effect of `umap_get_or_create` on a well-formed map. -/
theorem umap_get_or_create_spec (m : UMap) (u : Int) (hwf : m.WF) :
    ∃ m1 idx, umap_get_or_create m u = some (m1, idx) ∧ m1.WF ∧
      (slot m1.tab idx).used = true ∧ (slot m1.tab idx).key = u ∧
      (m1.cap = m.cap ∨ m1.cap = m.cap * 2) ∧
      (m.hasKey u → m1.size = m.size ∧
        ∀ x : Entry, x.used = true → (x ∈ m1.tab ↔ x ∈ m.tab)) ∧
      (¬ m.hasKey u → m1.size = m.size + 1 ∧
        ∀ x : Entry, x.used = true → (x ∈ m1.tab ↔ x ∈ m.tab ∨ x = ⟨true, u, 0⟩)) := by
  have hcpos := cap_pos hwf.inv.tabInv.pow2
  have hload := hwf.load
  -- the resize step
  obtain ⟨m0, h0, hinv0, hcap0, hsize0, hmem0, hload0⟩ :
      ∃ m0, (if (m.size + 1) * 10 ≥ m.cap * 7 then umap_rehash m (m.cap * 2) else some m)
          = some m0 ∧ m0.Inv ∧ (m0.cap = m.cap ∨ m0.cap = m.cap * 2) ∧ m0.size = m.size ∧
        (∀ x : Entry, x.used = true → (x ∈ m0.tab ↔ x ∈ m.tab)) ∧
        (m0.size + 1) * 10 < m0.cap * 7 := by
    by_cases hg : (m.size + 1) * 10 ≥ m.cap * 7
    · rw [if_pos hg]
      obtain ⟨e, he⟩ := hwf.inv.tabInv.pow2
      obtain ⟨m0, h0, hinv0, hcap0, hsize0, hmem0⟩ := umap_rehash_spec m (m.cap * 2) hwf.inv
        ⟨e + 1, by rw [he, pow_succ]⟩ (by omega)
      have h7 : m.cap = 1 ∨ 2 ≤ m.cap := by omega
      exact ⟨m0, h0, hinv0, Or.inr hcap0, hsize0, hmem0, by
        rw [hcap0, hsize0]; rcases h7 with h7 | h7 <;> omega⟩
    · rw [if_neg hg]
      exact ⟨m, rfl, hwf.inv, Or.inl rfl, rfl, fun _ _ => Iff.rfl, by omega⟩
  have hT := hinv0.tabInv
  have hkey0 : m0.hasKey u ↔ m.hasKey u := by
    constructor
    · rintro ⟨x, hx, hxu, hxk⟩
      exact ⟨x, (hmem0 x hxu).mp hx, hxu, hxk⟩
    · rintro ⟨x, hx, hxu, hxk⟩
      exact ⟨x, (hmem0 x hxu).mpr hx, hxu, hxk⟩
  by_cases hk : m.hasKey u
  · obtain ⟨i, hi, hik⟩ := (hasKey_iff_slot m0 u).mp (hkey0.mpr hk)
    have hp := probe_present m0.tab m0.cap u hT i hi hik
    refine ⟨m0, i, ?_, ⟨hinv0, by omega⟩, hi, hik, hcap0, fun _ => ⟨hsize0, hmem0⟩,
      fun hn => absurd hk hn⟩
    unfold umap_get_or_create
    rw [h0]
    simp only []
    unfold home at hp
    rw [hp]
  · have habs : ∀ x ∈ m0.tab, x.used = true → x.key ≠ u :=
      fun x hx hxu hxk => hk (hkey0.mp ⟨x, hx, hxu, hxk⟩)
    obtain ⟨t, ht, hp, hfree, hpre⟩ := probe_absent m0.tab m0.cap u hT
      (by rw [← hinv0.size_eq]; omega) habs
    have hj : (home m0.cap u + t) % m0.cap < m0.tab.length := by
      rw [hT.len]; exact Nat.mod_lt _ (cap_pos hT.pow2)
    refine ⟨{ m0 with tab := m0.tab.set ((home m0.cap u + t) % m0.cap) ⟨true, u, 0⟩,
                      size := m0.size + 1 }, (home m0.cap u + t) % m0.cap, ?_, ⟨⟨?_, ?_⟩, ?_⟩,
      ?_, ?_, hcap0, fun h => absurd h hk, fun _ => ⟨by simp only []; rw [hsize0], ?_⟩⟩
    · unfold umap_get_or_create
      rw [h0]
      simp only []
      unfold home at hp
      rw [hp]
      rfl
    · exact hT.insert u 0 (fun i hi => habs _ (slot_mem (lt_of_slot_used hi)) hi) t ht hpre
    · simp only []
      rw [countP_set_empty m0.tab _ _ hj hfree rfl, hinv0.size_eq]
    · exact hload0
    · simp only []
      rw [slot_set _ _ _ _ hj, if_pos rfl]
    · simp only []
      rw [slot_set _ _ _ _ hj, if_pos rfl]
    · intro x hxu
      simp only []
      rw [mem_set_empty m0.tab _ _ hj hfree x hxu, hmem0 x hxu]

/-! ### Keys, masks and one map update -/

theorem TabInv.eq_of_key {tab : List Entry} {cap : Nat} (hinv : TabInv tab cap) {x y : Entry}
    (hx : x ∈ tab) (hy : y ∈ tab) (hxu : x.used = true) (hyu : y.used = true)
    (hk : x.key = y.key) : x = y := by
  obtain ⟨i, _, rfl⟩ := exists_slot_of_mem hx
  obtain ⟨j, _, rfl⟩ := exists_slot_of_mem hy
  rw [hinv.distinct i j hxu hyu hk]

theorem maskOf_of_mem (m : UMap) (hinv : m.Inv) (x : Entry) (hx : x ∈ m.tab)
    (hxu : x.used = true) : m.maskOf x.key = x.mask := by
  unfold UMap.maskOf
  cases hf : m.tab.find? (fun e => e.used && decide (e.key = x.key)) with
  | none =>
    rw [List.find?_eq_none] at hf
    exact absurd (by simp [hxu]) (hf x hx)
  | some e =>
    have hp := List.find?_some hf
    simp only [Bool.and_eq_true, decide_eq_true_eq] at hp
    have := hinv.tabInv.eq_of_key (List.mem_of_find?_eq_some hf) hx hp.1 hxu hp.2
    rw [this]

theorem maskOf_of_not_hasKey (m : UMap) (u : Int) (h : ¬ m.hasKey u) : m.maskOf u = 0 := by
  unfold UMap.maskOf
  cases hf : m.tab.find? (fun e => e.used && decide (e.key = u)) with
  | none => rfl
  | some e =>
    have hp := List.find?_some hf
    simp only [Bool.and_eq_true, decide_eq_true_eq] at hp
    exact absurd ⟨e, List.mem_of_find?_eq_some hf, hp.1, hp.2⟩ h

theorem countP_modify_mask (v : Int) : ∀ (tab : List Entry) (idx : Nat),
    (tab.modify (fun e => { e with mask := v }) idx).countP (fun e => e.used) =
      tab.countP (fun e => e.used) := by
  intro tab
  induction tab with
  | nil => intro idx; simp
  | cons a rest ih =>
    intro idx
    cases idx with
    | zero => simp [List.countP_cons]
    | succ n => simp [List.countP_cons, ih n]

theorem mem_setMask (m : UMap) (hinv : m.Inv) (idx : Nat) (u w : Int)
    (hu : (slot m.tab idx).used = true) (hk : (slot m.tab idx).key = u)
    (x : Entry) (hxu : x.used = true) :
    x ∈ (m.setMask idx w).tab ↔ (x ∈ m.tab ∧ x.key ≠ u) ∨ x = ⟨true, u, w⟩ := by
  have hidx := lt_of_slot_used hu
  have hs := fun i => slot_modify_mask m.tab idx i w
  have hnew : slot (m.setMask idx w).tab idx = ⟨true, u, w⟩ := by
    unfold UMap.setMask
    simp only []
    rw [hs idx, if_pos ⟨rfl, hidx⟩, ← hu, ← hk]
  have hlen : (m.setMask idx w).tab.length = m.tab.length := by
    unfold UMap.setMask; simp
  constructor
  · intro h
    obtain ⟨i, hi, rfl⟩ := exists_slot_of_mem h
    by_cases hii : idx = i
    · right; rw [← hii, hnew]
    · left
      have : slot (m.setMask idx w).tab i = slot m.tab i := by
        unfold UMap.setMask
        simp only []
        rw [hs i, if_neg (fun h => hii h.1)]
      rw [this] at hxu ⊢
      refine ⟨slot_mem (by omega), fun hkey => hii ?_⟩
      exact hinv.tabInv.distinct idx i hu hxu (by rw [hk, hkey])
  · rintro (⟨hx, hkey⟩ | rfl)
    · obtain ⟨i, hi, rfl⟩ := exists_slot_of_mem hx
      have hii : idx ≠ i := fun h => hkey (by rw [← h, hk])
      have : slot (m.setMask idx w).tab i = slot m.tab i := by
        unfold UMap.setMask
        simp only []
        rw [hs i, if_neg (fun h => hii h.1)]
      rw [← this]
      exact slot_mem (by omega)
    · rw [← hnew]
      exact slot_mem (by omega)

theorem Inv_setMask (m : UMap) (hinv : m.Inv) (idx : Nat) (w : Int) :
    (m.setMask idx w).Inv := by
  refine ⟨hinv.tabInv.modify_mask idx w, ?_⟩
  unfold UMap.setMask
  simp only []
  rw [countP_modify_mask, hinv.size_eq]

/-- Two maps with the same used entries have the same keys and masks. -/
theorem hasKey_congr (m m1 : UMap)
    (hmem : ∀ x : Entry, x.used = true → (x ∈ m1.tab ↔ x ∈ m.tab)) (k : Int) :
    m1.hasKey k ↔ m.hasKey k := by
  constructor
  · rintro ⟨x, hx, hxu, hxk⟩
    exact ⟨x, (hmem x hxu).mp hx, hxu, hxk⟩
  · rintro ⟨x, hx, hxu, hxk⟩
    exact ⟨x, (hmem x hxu).mpr hx, hxu, hxk⟩

theorem maskOf_congr (m m1 : UMap) (hinv : m.Inv) (hinv1 : m1.Inv)
    (hmem : ∀ x : Entry, x.used = true → (x ∈ m1.tab ↔ x ∈ m.tab)) (k : Int) :
    m1.maskOf k = m.maskOf k := by
  by_cases hk : m.hasKey k
  · obtain ⟨x, hx, hxu, rfl⟩ := hk
    rw [maskOf_of_mem m hinv x hx hxu, maskOf_of_mem m1 hinv1 x ((hmem x hxu).mpr hx) hxu]
  · rw [maskOf_of_not_hasKey m k hk,
      maskOf_of_not_hasKey m1 k (fun h => hk ((hasKey_congr m m1 hmem k).mp h))]

/-- The effect of one map update (`umap_get_or_create` followed by `mpz_or_range`) in terms
of keys, masks and size. -/
theorem or_into_spec (m : UMap) (u : Int) (lo hi : Nat) (hwf : m.WF) :
    ∃ m2, or_into m u lo hi = some m2 ∧ m2.WF ∧
      (∀ k, m2.hasKey k ↔ m.hasKey k ∨ k = u) ∧
      (∀ k, m2.maskOf k = if k = u then mpz_or_range (m.maskOf u) lo hi else m.maskOf k) ∧
      (m.hasKey u → m2.size = m.size) ∧ (¬ m.hasKey u → m2.size = m.size + 1) ∧
      (m2.cap = m.cap ∨ m2.cap = m.cap * 2) := by
  obtain ⟨m1, idx, h1, hwf1, hu1, hk1, hcap1, hhit, hmiss⟩ := umap_get_or_create_spec m u hwf
  have hslot_mem : slot m1.tab idx ∈ m1.tab := slot_mem (lt_of_slot_used hu1)
  -- keys and masks of `m1` in terms of `m`
  have hkeys1 : ∀ k, m1.hasKey k ↔ m.hasKey k ∨ k = u := by
    intro k
    by_cases hk : m.hasKey u
    · rw [hasKey_congr m m1 (hhit hk).2 k]
      constructor
      · exact Or.inl
      · rintro (h | rfl)
        · exact h
        · exact hk
    · constructor
      · rintro ⟨x, hx, hxu, hxk⟩
        rcases ((hmiss hk).2 x hxu).mp hx with h | h
        · exact Or.inl ⟨x, h, hxu, hxk⟩
        · right; rw [← hxk, h]
      · rintro (⟨x, hx, hxu, hxk⟩ | rfl)
        · exact ⟨x, ((hmiss hk).2 x hxu).mpr (Or.inl hx), hxu, hxk⟩
        · exact ⟨slot m1.tab idx, hslot_mem, hu1, hk1⟩
  have hmask1 : ∀ k, m1.maskOf k = m.maskOf k := by
    intro k
    by_cases hk : m.hasKey u
    · exact maskOf_congr m m1 hwf.inv hwf1.inv (hhit hk).2 k
    · by_cases hkk : m.hasKey k
      · obtain ⟨x, hx, hxu, rfl⟩ := hkk
        rw [maskOf_of_mem m hwf.inv x hx hxu,
          maskOf_of_mem m1 hwf1.inv x (((hmiss hk).2 x hxu).mpr (Or.inl hx)) hxu]
      · rw [maskOf_of_not_hasKey m k hkk]
        by_cases hku : k = u
        · have hnew : (⟨true, u, 0⟩ : Entry) ∈ m1.tab := ((hmiss hk).2 _ rfl).mpr (Or.inr rfl)
          have := maskOf_of_mem m1 hwf1.inv _ hnew rfl
          rw [hku]
          exact this
        · exact maskOf_of_not_hasKey m1 k (fun h => by
            rcases (hkeys1 k).mp h with h | h
            · exact hkk h
            · exact hku h)
  have hmaskAt : m1.maskAt idx = m.maskOf u := by
    have := maskOf_of_mem m1 hwf1.inv _ hslot_mem hu1
    rw [hk1, hmask1] at this
    exact this.symm
  have hmem2 := mem_setMask m1 hwf1.inv idx u (mpz_or_range (m.maskOf u) lo hi) hu1 hk1
  have hinv2 := Inv_setMask m1 hwf1.inv idx (mpz_or_range (m.maskOf u) lo hi)
  refine ⟨m1.setMask idx (mpz_or_range (m.maskOf u) lo hi), ?_, ⟨hinv2, hwf1.load⟩, ?_, ?_,
    fun h => (hhit h).1, fun h => (hmiss h).1, hcap1⟩
  · unfold or_into
    rw [h1]
    simp only []
    rw [hmaskAt]
  · intro k
    rw [← hkeys1 k]
    constructor
    · rintro ⟨x, hx, hxu, hxk⟩
      rcases (hmem2 x hxu).mp hx with h | h
      · exact ⟨x, h.1, hxu, hxk⟩
      · refine ⟨slot m1.tab idx, hslot_mem, hu1, ?_⟩
        rw [hk1, ← hxk, h]
    · rintro ⟨x, hx, hxu, hxk⟩
      by_cases hku : k = u
      · exact ⟨⟨true, u, _⟩, (hmem2 _ rfl).mpr (Or.inr rfl), rfl, hku.symm⟩
      · exact ⟨x, (hmem2 x hxu).mpr (Or.inl ⟨hx, by rw [hxk]; exact hku⟩), hxu, hxk⟩
  · intro k
    by_cases hku : k = u
    · rw [if_pos hku, hku]
      exact maskOf_of_mem _ hinv2 ⟨true, u, _⟩ ((hmem2 _ rfl).mpr (Or.inr rfl)) rfl
    · rw [if_neg hku, ← hmask1 k]
      by_cases hkk : m1.hasKey k
      · obtain ⟨x, hx, hxu, rfl⟩ := hkk
        rw [maskOf_of_mem m1 hwf1.inv x hx hxu,
          maskOf_of_mem _ hinv2 x ((hmem2 x hxu).mpr (Or.inl ⟨hx, hku⟩)) hxu]
      · rw [maskOf_of_not_hasKey m1 k hkk]
        apply maskOf_of_not_hasKey
        rintro ⟨x, hx, hxu, hxk⟩
        rcases (hmem2 x hxu).mp hx with h | h
        · exact hkk ⟨x, h.1, hxu, hxk⟩
        · apply hku; rw [← hxk, h]

/-! ### Sequences of calls -/

theorem umap_init_WF (e : Nat) : (umap_init (2 ^ e)).WF := by
  have hc : (List.replicate (2 ^ e) Entry.empty).countP (fun e => e.used) = 0 := by
    rw [List.countP_eq_zero]
    intro a ha
    rw [List.mem_replicate] at ha
    rw [ha.2]
    simp [Entry.empty]
  refine ⟨⟨TabInv.replicate _ ⟨e, rfl⟩, ?_⟩, ?_⟩
  · unfold umap_init; simp only []; rw [hc]
  · unfold umap_init; simp only []
    have : 0 < 2 ^ e := Nat.pos_pow_of_pos e (by decide)
    omega

theorem umap_init_not_hasKey (c : Nat) (k : Int) : ¬ (umap_init c).hasKey k := by
  rintro ⟨x, hx, hxu, _⟩
  unfold umap_init at hx
  simp only [List.mem_replicate] at hx
  rw [hx.2] at hxu
  exact Bool.noConfusion hxu

theorem run_calls_spec : ∀ (calls : List (Int × Nat × Nat)) (m : UMap), m.WF →
    ∃ m1, run_calls calls m = some m1 ∧ m1.WF ∧
      (∀ k, m1.hasKey k ↔ m.hasKey k ∨ k ∈ calls.map (fun c => c.1)) ∧
      (∀ k, m1.maskOf k = expected_mask k calls (m.maskOf k)) := by
  intro calls
  induction calls with
  | nil => intro m hwf; exact ⟨m, rfl, hwf, by simp, fun _ => rfl⟩
  | cons c rest ih =>
    intro m hwf
    obtain ⟨u, lo, hi⟩ := c
    obtain ⟨m1, h1, hwf1, hkeys1, hmask1, -, -, -⟩ := or_into_spec m u lo hi hwf
    obtain ⟨m2, h2, hwf2, hkeys2, hmask2⟩ := ih m1 hwf1
    refine ⟨m2, ?_, hwf2, ?_, ?_⟩
    · unfold run_calls
      rw [h1]
      exact h2
    · intro k
      rw [hkeys2, hkeys1]
      simp only [List.map_cons, List.mem_cons]
      tauto
    · intro k
      rw [hmask2, hmask1]
      show _ = expected_mask k rest (if u = k then mpz_or_range (m.maskOf k) lo hi else m.maskOf k)
      by_cases hk : k = u
      · rw [if_pos hk, if_pos hk.symm, hk]
      · rw [if_neg hk, if_neg (fun h => hk h.symm)]

theorem mem_keys_iff (m : UMap) (k : Int) : k ∈ m.keys ↔ m.hasKey k := by
  unfold UMap.keys UMap.hasKey
  simp only [List.mem_map, List.mem_filter]
  constructor
  · rintro ⟨x, ⟨hx, hxu⟩, hk⟩
    exact ⟨x, hx, hxu, hk⟩
  · rintro ⟨x, hx, hxu, hk⟩
    exact ⟨x, ⟨hx, hxu⟩, hk⟩

theorem keys_nodup (m : UMap) (hinv : m.Inv) : m.keys.Nodup := by
  unfold UMap.keys
  rw [List.Nodup, List.pairwise_map]
  have h1 := hinv.tabInv.pairwise.filter (fun e => e.used)
  refine h1.imp_of_mem ?_
  intro a b ha hb hR
  rw [List.mem_filter] at ha hb
  exact hR ha.2 hb.2

theorem keys_length (m : UMap) (hinv : m.Inv) : m.keys.length = m.size := by
  unfold UMap.keys
  rw [List.length_map, hinv.size_eq, List.countP_eq_length_filter]

/-- On a map satisfying the invariant, `size` is the number of distinct keys held. -/
theorem size_eq_card_keys (m : UMap) (hinv : m.Inv) : m.size = m.keys.toFinset.card := by
  rw [List.toFinset_card_of_nodup (keys_nodup m hinv), keys_length m hinv]

/-- C6: after any sequence of calls on a map initialised with a power-of-two capacity, a
further `umap_get_or_create` with a key `k` passed before returns the slot that holds `k`,
whose mask carries every interval OR'ed into `k` so far; no entry is created (the size is
unchanged and that slot is the only one holding `k`), and linear probing from the hash index
of `k` reaches that slot. -/
theorem umap_get_or_create_existing (e : Nat) (calls : List (Int × Nat × Nat)) (k : Int)
    (hk : k ∈ calls.map (fun c => c.1)) :
    ∃ m m1 idx, run_calls calls (umap_init (2 ^ e)) = some m ∧
      umap_get_or_create m k = some (m1, idx) ∧
      m1.tab[idx]? = some ⟨true, k, expected_mask k calls 0⟩ ∧
      m1.size = m.size ∧
      (∀ j, (slot m1.tab j).used = true → (slot m1.tab j).key = k → j = idx) ∧
      probe m1.tab m1.cap k m1.cap (mpz_hash64 k &&& (m1.cap - 1)) = some (idx, true) := by
  obtain ⟨m, hrun, hwf, hkeys, hmask⟩ := run_calls_spec calls (umap_init (2 ^ e)) (umap_init_WF e)
  have hhas : m.hasKey k := (hkeys k).mpr (Or.inr hk)
  obtain ⟨m1, idx, h1, hwf1, hu1, hk1, -, hhit, -⟩ := umap_get_or_create_spec m k hwf
  have hidx := lt_of_slot_used hu1
  have hmask1 : (slot m1.tab idx).mask = expected_mask k calls 0 := by
    have h := maskOf_of_mem m1 hwf1.inv _ (slot_mem hidx) hu1
    rw [hk1, maskOf_congr m m1 hwf.inv hwf1.inv (hhit hhas).2 k, hmask k,
      maskOf_of_not_hasKey _ k (umap_init_not_hasKey _ k)] at h
    exact h.symm
  refine ⟨m, m1, idx, hrun, h1, ?_, (hhit hhas).1, ?_, ?_⟩
  · have heta : slot m1.tab idx =
        ⟨(slot m1.tab idx).used, (slot m1.tab idx).key, (slot m1.tab idx).mask⟩ := rfl
    rw [slot_of_lt hidx, heta, hu1, hk1, hmask1]
  · intro j hj hjk
    exact hwf1.inv.tabInv.distinct j idx hj hu1 (by rw [hjk, hk1])
  · exact probe_present m1.tab m1.cap k hwf1.inv.tabInv idx hu1 hk1

theorem umap_get_or_create_existing_witness :
    ∃ m m1 idx, run_calls [(7, 1, 2), (9, 3, 3), (7, 4, 5)] (umap_init (2 ^ 1)) = some m ∧
      umap_get_or_create m 7 = some (m1, idx) ∧
      m1.tab[idx]? = some ⟨true, 7, expected_mask 7 [(7, 1, 2), (9, 3, 3), (7, 4, 5)] 0⟩ ∧
      m1.size = m.size ∧
      (∀ j, (slot m1.tab j).used = true → (slot m1.tab j).key = 7 → j = idx) ∧
      probe m1.tab m1.cap 7 m1.cap (mpz_hash64 7 &&& (m1.cap - 1)) = some (idx, true) :=
  umap_get_or_create_existing 1 [(7, 1, 2), (9, 3, 3), (7, 4, 5)] 7 (by decide)

/-- C7: after any sequence of calls starting from an empty map with power-of-two capacity,
`size` equals the number of distinct keys passed, it is the number of used slots, and the
used slots hold pairwise distinct keys. -/
theorem umap_size_eq_distinct_keys (e : Nat) (calls : List (Int × Nat × Nat)) :
    ∃ m, run_calls calls (umap_init (2 ^ e)) = some m ∧
      m.size = (calls.map (fun c => c.1)).toFinset.card ∧
      m.size = m.tab.countP (fun x => x.used) ∧
      (∀ i j, (slot m.tab i).used = true → (slot m.tab j).used = true →
        (slot m.tab i).key = (slot m.tab j).key → i = j) := by
  obtain ⟨m, hrun, hwf, hkeys, -⟩ := run_calls_spec calls (umap_init (2 ^ e)) (umap_init_WF e)
  refine ⟨m, hrun, ?_, hwf.inv.size_eq, hwf.inv.tabInv.distinct⟩
  rw [size_eq_card_keys m hwf.inv]
  congr 1
  ext k
  rw [List.mem_toFinset, List.mem_toFinset, mem_keys_iff, hkeys]
  constructor
  · rintro (h | h)
    · exact absurd h (umap_init_not_hasKey _ k)
    · exact h
  · exact Or.inr

/-! ### Conversions stay the identity inside the range -/

theorem toULong_of_range (x : Int) (h0 : 0 ≤ x) (h1 : x < 2 ^ 64) : (toULong x : Int) = x := by
  unfold toULong
  rw [Int.emod_eq_of_lt h0 h1]
  exact Int.toNat_of_nonneg h0

theorem toULong_natCast (d : Nat) (h1 : d < 2 ^ 64) : toULong (d : Int) = d := by
  have := toULong_of_range (d : Int) (by omega) (by exact_mod_cast h1)
  exact_mod_cast this

theorem toUnsigned_of_range (x : Int) (h0 : 0 ≤ x) (h1 : x < 2 ^ 32) :
    (toUnsigned x : Int) = x := by
  unfold toUnsigned UINT_BITS
  rw [Int.emod_eq_of_lt h0 h1]
  exact Int.toNat_of_nonneg h0

theorem toInt_of_range (x : Int) (h0 : 0 ≤ x) (h1 : x < 2 ^ 31) : toInt x = x := by
  unfold toInt UINT_BITS
  have : (x + 2 ^ (32 - 1)) % 2 ^ 32 = x + 2 ^ (32 - 1) :=
    Int.emod_eq_of_lt (by norm_num; omega) (by norm_num at h1 ⊢; omega)
  rw [this]
  ring

/-! ### Stripping the factors `p` -/

theorem strip_loop_spec (p : Int) (hp : 2 ≤ p) :
    ∀ (fuel : Nat) (K : Int) (tz : Nat), K ≠ 0 → K.natAbs < fuel →
      ∃ (u : Int) (v : Nat), strip_loop p fuel K tz = some (u, tz + v) ∧ K = u * p ^ v ∧ ¬ p ∣ u := by
  intro fuel
  induction fuel with
  | zero => intro K tz _ h; omega
  | succ f ih =>
    intro K tz hK hf
    unfold strip_loop
    by_cases hd : p ∣ K
    · rw [if_pos hd]
      obtain ⟨c, hc⟩ := hd
      have hp0 : p ≠ 0 := by omega
      have hq : K / p = c := by rw [hc]; exact Int.mul_ediv_cancel_left c hp0
      have hc0 : c ≠ 0 := by intro h; rw [h, mul_zero] at hc; exact hK hc
      have hlt : c.natAbs < K.natAbs := by
        rw [hc, Int.natAbs_mul]
        have h2 : 2 ≤ p.natAbs := by omega
        have h1 : 1 ≤ c.natAbs := Int.natAbs_pos.mpr hc0
        nlinarith
      rw [hq]
      obtain ⟨u, v, h, hKu, hnd⟩ := ih c (tz + 1) hc0 (by omega)
      refine ⟨u, v + 1, ?_, ?_, hnd⟩
      · rw [h]; congr 2; omega
      · rw [hc, hKu, pow_succ]; ring
    · rw [if_neg hd]
      exact ⟨K, 0, rfl, by simp, hd⟩

theorem core_val_spec (p : Int) (hp : 2 ≤ p) (K : Int) (hK : 0 < K) :
    strip_loop p (K.natAbs + 1) K 0 = some (core_val p K) ∧
      K = (core_val p K).1 * p ^ (core_val p K).2 ∧ ¬ p ∣ (core_val p K).1 ∧
      0 < (core_val p K).1 := by
  obtain ⟨u, v, h, hKu, hnd⟩ := strip_loop_spec p hp (K.natAbs + 1) K 0 (by omega) (by omega)
  have hcv : core_val p K = (u, v) := by
    unfold core_val; rw [h]; simp
  rw [hcv, h]
  refine ⟨by simp, hKu, hnd, ?_⟩
  have hpv : 0 < p ^ v := pow_pos (by omega) v
  simp only []
  by_contra hneg
  have : u * p ^ v ≤ 0 := mul_nonpos_of_nonpos_of_nonneg (by omega) (le_of_lt hpv)
  omega

/-- The valuation is bounded by any exponent whose power exceeds `K`. -/
theorem core_val_lt (p : Int) (hp : 2 ≤ p) (K : Int) (hK : 0 < K) (B : Nat) (hB : K < p ^ B) :
    (core_val p K).2 < B := by
  obtain ⟨-, hKu, -, hu⟩ := core_val_spec p hp K hK
  by_contra hge
  have h1 : p ^ B ≤ p ^ (core_val p K).2 := pow_le_pow_right₀ (by omega) (by omega)
  have h2 : p ^ (core_val p K).2 ≤ (core_val p K).1 * p ^ (core_val p K).2 := by
    have hpv : 0 < p ^ (core_val p K).2 := pow_pos (by omega) _
    nlinarith
  omega

/-! ### One visit of the loop body -/

theorem mpz_or_range_nonneg (dst : Int) (lo hi : Nat) (h : 0 ≤ dst) :
    0 ≤ mpz_or_range dst lo hi := by
  unfold mpz_or_range
  split
  · exact h
  · simp only []
    rw [interval_eq_natCast]
    obtain ⟨n, rfl⟩ := Int.eq_ofNat_of_zero_le h
    show 0 ≤ Int.ofNat (n ||| _)
    exact Int.ofNat_nonneg _

theorem Visit.K_pos (p : Int) (hp : 2 ≤ p) (q : Visit) (hq : validVisit p q) : 0 < q.K p := by
  obtain ⟨ha, -, hb, -, -, -, -⟩ := hq
  unfold Visit.K
  have : 0 < p ^ q.2.2.2 := pow_pos (by omega) _
  have : 0 < q.2.1 * p ^ q.2.2.2 := mul_pos (by omega) this
  omega

/-- The effect of one visit on keys and masks. -/
theorem d_body_spec (p : Int) (hp : 2 ≤ p) (hp64 : p < 2 ^ 64) (q : Visit) (hq : validVisit p q)
    (m : UMap) (hwf : m.WF) :
    ∃ m1, d_body p q.1 q.2.1 q.2.2.1 q.2.2.2 m = some m1 ∧ m1.WF ∧
      (∀ k, m1.hasKey k ↔ m.hasKey k ∨ k = (core_val p (q.K p)).1) ∧
      (∀ k t, Int.testBit (m1.maskOf k) t = true ↔
        Int.testBit (m.maskOf k) t = true ∨ contributes p q k t) ∧
      ((∀ k, 0 ≤ m.maskOf k) → ∀ k, 0 ≤ m1.maskOf k) := by
  have hKpos := Visit.K_pos p hp q hq
  obtain ⟨ha, ha64, hb, hb64, hd64, hE, hrange⟩ := hq
  obtain ⟨hstrip, -, -, -⟩ := core_val_spec p hp (q.K p) hKpos
  have htz0 : (0 : Int) ≤ ((core_val p (q.K p)).2 : Int) := by omega
  have hlo : toUnsigned (1 + ((core_val p (q.K p)).2 : Int)) = 1 + (core_val p (q.K p)).2 := by
    have := toUnsigned_of_range (1 + ((core_val p (q.K p)).2 : Int)) (by omega)
      (by norm_num at hrange ⊢; omega)
    omega
  have hhi : (toUnsigned (q.2.2.1 + toInt ((core_val p (q.K p)).2 : Int)) : Int) =
      q.2.2.1 + (core_val p (q.K p)).2 := by
    rw [toInt_of_range _ htz0 (by omega)]
    exact toUnsigned_of_range _ (by omega) (by norm_num at hrange ⊢; omega)
  obtain ⟨m1, h1, hwf1, hkeys1, hmask1, -, -, -⟩ := or_into_spec m (core_val p (q.K p)).1
    (1 + (core_val p (q.K p)).2) (toUnsigned (q.2.2.1 + toInt ((core_val p (q.K p)).2 : Int))) hwf
  refine ⟨m1, ?_, hwf1, hkeys1, ?_, ?_⟩
  · unfold d_body
    simp only []
    rw [toULong_of_range q.1 (by omega) ha64, toULong_of_range q.2.1 (by omega) hb64,
      toULong_of_range p (by omega) hp64, toULong_natCast q.2.2.2 hd64]
    have hK : q.2.1 * p ^ q.2.2.2 + q.1 = q.K p := rfl
    rw [hK, hstrip]
    simp only []
    rw [hlo]
    exact h1
  · intro k t
    rw [hmask1]
    unfold contributes
    by_cases hk : k = (core_val p (q.K p)).1
    · rw [if_pos hk, mpz_or_range_testBit _ _ _ _ (by
        unfold UINT_BITS; norm_num at hrange ⊢; omega)]
      simp only [Bool.or_eq_true, decide_eq_true_eq]
      rw [← hk]
      constructor
      · rintro (h | ⟨h1, h2⟩)
        · exact Or.inl h
        · exact Or.inr ⟨rfl, h1, by omega⟩
      · rintro (h | ⟨-, h1, h2⟩)
        · exact Or.inl h
        · exact Or.inr ⟨h1, by omega⟩
    · rw [if_neg hk]
      constructor
      · exact Or.inl
      · rintro (h | ⟨h, -, -⟩)
        · exact h
        · exact absurd h hk
  · intro hnn k
    rw [hmask1]
    split
    · exact mpz_or_range_nonneg _ _ _ (hnn _)
    · exact hnn k

theorem run_visits_spec (p : Int) (hp : 2 ≤ p) (hp64 : p < 2 ^ 64) :
    ∀ (l : List Visit) (m : UMap), (∀ q ∈ l, validVisit p q) → m.WF →
      ∃ m1, run_visits p l m = some m1 ∧ m1.WF ∧
        (∀ k, m1.hasKey k ↔ m.hasKey k ∨ ∃ q ∈ l, k = (core_val p (q.K p)).1) ∧
        (∀ k t, Int.testBit (m1.maskOf k) t = true ↔
          Int.testBit (m.maskOf k) t = true ∨ ∃ q ∈ l, contributes p q k t) ∧
        ((∀ k, 0 ≤ m.maskOf k) → ∀ k, 0 ≤ m1.maskOf k) := by
  intro l
  induction l with
  | nil =>
    intro m _ hwf
    exact ⟨m, rfl, hwf, by simp, by simp, fun h => h⟩
  | cons q rest ih =>
    intro m hval hwf
    obtain ⟨m1, h1, hwf1, hkeys1, hbits1, hnn1⟩ := d_body_spec p hp hp64 q
      (hval q (List.mem_cons_self _ _)) m hwf
    obtain ⟨m2, h2, hwf2, hkeys2, hbits2, hnn2⟩ := ih m1
      (fun q' hq' => hval q' (List.mem_cons_of_mem _ hq')) hwf1
    refine ⟨m2, ?_, hwf2, ?_, ?_, fun h => hnn2 (hnn1 h)⟩
    · obtain ⟨a, b, E1max, d⟩ := q
      unfold run_visits
      simp only [] at h1
      rw [h1]
      exact h2
    · intro k
      rw [hkeys2, hkeys1]
      simp only [List.mem_cons, exists_eq_or_imp]
      tauto
    · intro k t
      rw [hbits2, hbits1]
      simp only [List.mem_cons, exists_eq_or_imp]
      tauto

/-! ### The loops as lists of visits -/

theorem run_visits_cons (p : Int) (q : Visit) (rest : List Visit) (m : UMap) :
    run_visits p (q :: rest) m =
      match d_body p q.1 q.2.1 q.2.2.1 q.2.2.2 m with
      | none => none
      | some m1 => run_visits p rest m1 := by
  obtain ⟨a, b, E1max, d⟩ := q
  rfl

theorem run_visits_append (p : Int) : ∀ (l1 l2 : List Visit) (m : UMap),
    run_visits p (l1 ++ l2) m = (run_visits p l1 m).bind (run_visits p l2) := by
  intro l1
  induction l1 with
  | nil => intro l2 m; rfl
  | cons q rest ih =>
    intro l2 m
    rw [List.cons_append, run_visits_cons, run_visits_cons]
    cases d_body p q.1 q.2.1 q.2.2.1 q.2.2.2 m with
    | none => rfl
    | some m1 => exact ih l2 m1

theorem d_loop_cons (p a Ea b Eb : Int) (d : Nat) (ds : List Nat) (m : UMap) :
    d_loop p a Ea b Eb (d :: ds) m =
      if (if Ea < Eb - (d : Int) then Ea else Eb - d) < 1 then some m
      else
        match d_body p a b (if Ea < Eb - (d : Int) then Ea else Eb - d) d m with
        | none => none
        | some m1 => d_loop p a Ea b Eb ds m1 := rfl

theorem d_visits_cons (a Ea b Eb : Int) (d : Nat) (ds : List Nat) :
    d_visits a Ea b Eb (d :: ds) =
      if (if Ea < Eb - (d : Int) then Ea else Eb - d) < 1 then []
      else (a, b, (if Ea < Eb - (d : Int) then Ea else Eb - d), d) :: d_visits a Ea b Eb ds := rfl

theorem d_loop_eq (p a Ea b Eb : Int) : ∀ (ds : List Nat) (m : UMap),
    d_loop p a Ea b Eb ds m = run_visits p (d_visits a Ea b Eb ds) m := by
  intro ds
  induction ds with
  | nil => intro m; rfl
  | cons d ds ih =>
    intro m
    rw [d_loop_cons, d_visits_cons]
    by_cases hc : (if Ea < Eb - (d : Int) then Ea else Eb - d) < 1
    · rw [if_pos hc, if_pos hc]; rfl
    · rw [if_neg hc, if_neg hc, run_visits_cons]
      cases d_body p a b (if Ea < Eb - (d : Int) then Ea else Eb - d) d m with
      | none => rfl
      | some m1 => exact ih m1

theorem b_loop_cons (p a Ea b Eb : Int) (rest : List (Int × Int)) (m : UMap) :
    b_loop p a Ea ((b, Eb) :: rest) m =
      if Eb - 1 < 0 then b_loop p a Ea rest m
      else
        match d_loop p a Ea b Eb (List.range (Eb - 1 + 1).toNat) m with
        | none => none
        | some m1 => b_loop p a Ea rest m1 := rfl

theorem b_visits_cons (a Ea b Eb : Int) (rest : List (Int × Int)) :
    b_visits a Ea ((b, Eb) :: rest) =
      (if Eb - 1 < 0 then [] else d_visits a Ea b Eb (List.range (Eb - 1 + 1).toNat)) ++
        b_visits a Ea rest := rfl

theorem b_loop_eq (p a Ea : Int) : ∀ (bs : List (Int × Int)) (m : UMap),
    b_loop p a Ea bs m = run_visits p (b_visits a Ea bs) m := by
  intro bs
  induction bs with
  | nil => intro m; rfl
  | cons x rest ih =>
    intro m
    obtain ⟨b, Eb⟩ := x
    rw [b_loop_cons, b_visits_cons, run_visits_append]
    by_cases hc : Eb - 1 < 0
    · rw [if_pos hc, if_pos hc, ih]; rfl
    · rw [if_neg hc, if_neg hc, d_loop_eq]
      cases run_visits p (d_visits a Ea b Eb (List.range (Eb - 1 + 1).toNat)) m with
      | none => rfl
      | some m1 => exact ih m1

theorem a_loop_cons (p : Int) (all : List (Int × Int)) (a Ea : Int) (rest : List (Int × Int))
    (m : UMap) :
    a_loop p all ((a, Ea) :: rest) m =
      match b_loop p a Ea all m with
      | none => none
      | some m1 => a_loop p all rest m1 := rfl

theorem a_visits_cons (all : List (Int × Int)) (a Ea : Int) (rest : List (Int × Int)) :
    a_visits all ((a, Ea) :: rest) = b_visits a Ea all ++ a_visits all rest := rfl

theorem a_loop_eq (p : Int) (all : List (Int × Int)) : ∀ (as : List (Int × Int)) (m : UMap),
    a_loop p all as m = run_visits p (a_visits all as) m := by
  intro as
  induction as with
  | nil => intro m; rfl
  | cons x rest ih =>
    intro m
    obtain ⟨a, Ea⟩ := x
    rw [a_loop_cons, a_visits_cons, run_visits_append, b_loop_eq]
    cases run_visits p (b_visits a Ea all) m with
    | none => rfl
    | some m1 => exact ih m1

/-! ### Which visits the loops make -/

theorem d_visits_eq_map (a Ea b Eb : Int) (hEa : 1 ≤ Ea) : ∀ ds : List Nat,
    (∀ d ∈ ds, (d : Int) < Eb) →
    d_visits a Ea b Eb ds =
      ds.map (fun d : Nat => ((a, b, min Ea (Eb - (d : Int)), d) : Visit)) := by
  intro ds
  induction ds with
  | nil => intro _; rfl
  | cons d ds ih =>
    intro h
    have hd := h d (List.mem_cons_self _ _)
    rw [d_visits_cons]
    simp only [List.map_cons]
    have hmin : (if Ea < Eb - (d : Int) then Ea else Eb - d) = min Ea (Eb - d) := by
      by_cases hc : Ea < Eb - (d : Int)
      · rw [if_pos hc, min_eq_left (le_of_lt hc)]
      · rw [if_neg hc, min_eq_right (by omega)]
    rw [hmin, if_neg (by omega), ih (fun d' hd' => h d' (List.mem_cons_of_mem _ hd'))]

theorem mem_b_visits (a Ea : Int) (hEa : 1 ≤ Ea) (q : Visit) : ∀ bs : List (Int × Int),
    (q ∈ b_visits a Ea bs ↔
      ∃ y ∈ bs, ∃ d : Nat, (d : Int) < y.2 ∧ q = (a, y.1, min Ea (y.2 - d), d)) := by
  intro bs
  induction bs with
  | nil => simp [b_visits]
  | cons x rest ih =>
    obtain ⟨b, Eb⟩ := x
    rw [b_visits_cons, List.mem_append, ih]
    simp only [List.mem_cons, exists_eq_or_imp]
    apply or_congr_left
    by_cases hneg : Eb - 1 < 0
    · rw [if_pos hneg]
      simp only [List.not_mem_nil, false_iff, not_exists, not_and]
      intro d hd
      omega
    · rw [if_neg hneg, d_visits_eq_map a Ea b Eb hEa _ (by
        intro d hd; rw [List.mem_range] at hd; omega)]
      simp only [List.mem_map, List.mem_range]
      constructor
      · rintro ⟨d, hd, rfl⟩
        exact ⟨d, by omega, rfl⟩
      · rintro ⟨d, hd, rfl⟩
        exact ⟨d, by omega, rfl⟩

theorem mem_a_visits (all : List (Int × Int)) (q : Visit) : ∀ as : List (Int × Int),
    (∀ x ∈ as, 1 ≤ x.2) →
    (q ∈ a_visits all as ↔
      ∃ x ∈ as, ∃ y ∈ all, ∃ d : Nat, (d : Int) < y.2 ∧ q = (x.1, y.1, min x.2 (y.2 - d), d)) := by
  intro as
  induction as with
  | nil => intro _; simp [a_visits]
  | cons x rest ih =>
    intro h
    obtain ⟨a, Ea⟩ := x
    rw [a_visits_cons, List.mem_append, ih (fun x hx => h x (List.mem_cons_of_mem _ hx)),
      mem_b_visits a Ea (h (a, Ea) (List.mem_cons_self _ _)) q all]
    simp only [List.mem_cons, exists_eq_or_imp]

/-! ### Units and bounds -/

theorem build_units_eq (n p : Nat) :
    build_units (n : Int) (p : Int) = (unitsNat n p).map (fun (i : Nat) => (i : Int)) := by
  unfold build_units unitsNat
  rw [Int.toNat_ofNat, List.filter_map, List.filter_map, List.map_map]
  congr 1
  apply List.filter_congr
  intro i _
  simp only [Function.comp]
  have h1 : Int.tmod ((i : Int) + 1) (p : Int) = (((i + 1) % p : Nat) : Int) := by
    rw [Int.ofNat_tmod]; rfl
  rw [h1]
  congr 1
  apply propext
  rw [Nat.dvd_iff_mod_eq_zero]
  constructor
  · intro h h'; apply h; rw [h']; rfl
  · intro h h'; apply h; exact_mod_cast h'

theorem mem_unitsNat (n p i : Nat) : i ∈ unitsNat n p ↔ 1 ≤ i ∧ i ≤ n ∧ ¬ p ∣ i := by
  unfold unitsNat
  simp only [List.mem_filter, List.mem_map, List.mem_range, decide_eq_true_eq]
  constructor
  · rintro ⟨⟨j, hj, rfl⟩, hd⟩
    exact ⟨by omega, by omega, hd⟩
  · rintro ⟨h1, h2, hd⟩
    exact ⟨⟨i - 1, by omega, by omega⟩, hd⟩

theorem unitsNat_nodup (n p : Nat) : (unitsNat n p).Nodup := by
  unfold unitsNat
  apply List.Nodup.filter
  exact (List.nodup_range n).map (fun a b h => by simpa using h)

theorem unitsNat_toFinset (n p : Nat) : (unitsNat n p).toFinset = spec_U n p := by
  ext i
  rw [List.mem_toFinset, mem_unitsNat]
  unfold spec_U
  simp only [Finset.mem_filter, Finset.mem_Icc]
  tauto

/-- With `1 ≤ i ≤ n` the floor of the real logarithm of the rational `n / i` is the integer
logarithm of the integer quotient. -/
theorem spec_Emax_eq (n p i : Nat) (hi : 1 ≤ i) (hin : i ≤ n) :
    spec_Emax n p i = (n : Int) + (Nat.log p (n / i) : Nat) := by
  unfold spec_Emax
  have h1 : (1 : ℚ) ≤ (n : ℚ) / (i : ℚ) := by
    rw [le_div_iff₀ (by exact_mod_cast hi)]
    simpa using (by exact_mod_cast hin : (i : ℚ) ≤ n)
  rw [Int.log_of_one_le_right p h1, Nat.floor_div_eq_div]

theorem ilogp_int_eq_log (x p : Nat) (hx : 1 ≤ x) (hp : 2 ≤ p) :
    ilogp_int (x : Int) (p : Int) = some ((Nat.log p x : Nat) : Int) := by
  obtain ⟨L, h, h1, h2⟩ := ilogp_int_pos (x : Int) (p : Int) (by omega) (by omega)
  have h1' : p ^ L ≤ x := by exact_mod_cast h1
  have h2' : x < p ^ (L + 1) := by exact_mod_cast h2
  rw [h, Nat.log_eq_of_pow_le_of_lt_pow h1' h2']

theorem build_Emax_eq (n p : Nat) (hp : 2 ≤ p) : ∀ us : List Nat,
    (∀ i ∈ us, 1 ≤ i ∧ i ≤ n) →
    build_Emax (n : Int) (p : Int) (us.map (fun (i : Nat) => (i : Int))) =
      some (us.map (fun (i : Nat) => ((i : Int), (n : Int) + (Nat.log p (n / i) : Nat)))) := by
  intro us
  induction us with
  | nil => intro _; rfl
  | cons i rest ih =>
    intro h
    obtain ⟨hi1, hi2⟩ := h i (List.mem_cons_self _ _)
    have hq : Int.tdiv (n : Int) (i : Int) = ((n / i : Nat) : Int) := (Int.ofNat_tdiv n i).symm
    have hq1 : 1 ≤ n / i := (Nat.one_le_div_iff (by omega)).mpr hi2
    simp only [List.map_cons]
    unfold build_Emax
    simp only []
    rw [hq, ilogp_int_eq_log _ p hq1 hp]
    simp only []
    rw [ih (fun j hj => h j (List.mem_cons_of_mem _ hj))]

theorem foldl_add_eq (g : Int × Int → Int) : ∀ (l : List (Int × Int)) (acc : Int),
    l.foldl (fun acc x => acc + g x) acc = acc + (l.map g).sum := by
  intro l
  induction l with
  | nil => intro acc; simp
  | cons x rest ih =>
    intro acc
    rw [List.foldl_cons, ih, List.map_cons, List.sum_cons]
    ring

/-- The value `A_size` as computed from the list of units is the sum of the specified bounds. -/
theorem sum_Emax_eq (n p : Nat) (hrange : n + Nat.log p n < 2 ^ 31) :
    sum_Emax ((unitsNat n p).map (fun (i : Nat) => ((i : Int), (n : Int) + (Nat.log p (n / i) : Nat)))) =
      ∑ i ∈ spec_U n p, spec_Emax n p i := by
  unfold sum_Emax
  rw [foldl_add_eq (fun x => ((toULong x.2 : Nat) : Int)), zero_add, List.map_map,
    ← unitsNat_toFinset, List.sum_toFinset _ (unitsNat_nodup n p)]
  congr 1
  apply List.map_congr_left
  intro i hi
  rw [mem_unitsNat] at hi
  simp only [Function.comp]
  rw [spec_Emax_eq n p i hi.1 hi.2.1]
  have hmono : Nat.log p (n / i) ≤ Nat.log p n := Nat.log_mono_right (Nat.div_le_self n i)
  apply toULong_of_range
  · omega
  · have : (2 : Int) ^ 31 < 2 ^ 64 := by norm_num
    have h' : ((n + Nat.log p n : Nat) : Int) < 2 ^ 31 := by exact_mod_cast hrange
    push_cast at h'
    omega

/-! ### Population count -/

theorem popcountAux_eq : ∀ (fuel x B : Nat), x ≤ fuel → x < 2 ^ B →
    popcountAux fuel x = (List.range B).countP (fun t => x.testBit t) := by
  intro fuel
  induction fuel with
  | zero =>
    intro x B hx _
    have : x = 0 := by omega
    subst this
    simp [popcountAux]
  | succ f ih =>
    intro x B hx hB
    unfold popcountAux
    by_cases h0 : x = 0
    · subst h0; simp
    · rw [if_neg h0]
      obtain ⟨B', rfl⟩ : ∃ B', B = B' + 1 := by
        cases B with
        | zero => simp at hB; omega
        | succ B' => exact ⟨B', rfl⟩
      have hhalf : x / 2 < 2 ^ B' := by
        rw [pow_succ] at hB; omega
      rw [ih (x / 2) B' (by omega) hhalf, List.range_succ_eq_map, List.countP_cons,
        List.countP_map]
      have hsucc : ((fun t => x.testBit t) ∘ Nat.succ) = fun t => (x / 2).testBit t := by
        funext t
        simp only [Function.comp, Nat.succ_eq_add_one, Nat.testBit_succ]
      rw [hsucc, Nat.testBit_zero]
      have : x % 2 = 0 ∨ x % 2 = 1 := by omega
      rcases this with h | h
      · simp [h]
      · simp [h]; omega

theorem mem_bitsOf (M t : Nat) : t ∈ bitsOf M ↔ M.testBit t = true := by
  unfold bitsOf
  rw [Finset.mem_filter, Finset.mem_range]
  constructor
  · exact fun h => h.2
  · intro h
    refine ⟨?_, h⟩
    have h1 : 2 ^ t ≤ M := Nat.testBit_implies_ge h
    exact lt_of_lt_of_le (Nat.lt_two_pow t) h1

theorem card_bitsOf (M : Nat) : (bitsOf M).card = popcountAux M M := by
  rw [popcountAux_eq M M M (le_refl _) (Nat.lt_two_pow M)]
  unfold bitsOf
  rw [Finset.card_def, Finset.filter_val, Finset.range_val, ← Multiset.countP_eq_card_filter,
    Multiset.range, Multiset.coe_countP]
  simp

theorem mpz_popcount_eq (z : Int) (hz : 0 ≤ z) : mpz_popcount z = (bitsOf z.toNat).card := by
  unfold mpz_popcount
  rw [if_neg (by omega), card_bitsOf]

/-! ### The sum of the popcounts -/

theorem foldl_popcount_eq : ∀ (l : List Entry) (acc : Int),
    l.foldl (fun acc e => if !e.used then acc else acc + (mpz_popcount e.mask : Int)) acc =
      acc + ((l.filter (fun e => e.used)).map (fun e => (mpz_popcount e.mask : Int))).sum := by
  intro l
  induction l with
  | nil => intro acc; simp
  | cons x rest ih =>
    intro acc
    rw [List.foldl_cons, ih]
    by_cases hx : x.used = true
    · rw [List.filter_cons_of_pos hx, List.map_cons, List.sum_cons]
      simp only [hx, Bool.not_true, Bool.false_eq_true, if_false]
      ring
    · have hx' : x.used = false := by simpa using hx
      rw [List.filter_cons_of_neg (by simp [hx'])]
      simp [hx']

theorem mem_bitPairs (m : UMap) (hnn : ∀ k, 0 ≤ m.maskOf k) (k : Int) (t : Nat) :
    (k, t) ∈ m.bitPairs ↔ Int.testBit (m.maskOf k) t = true := by
  have hbit : Int.testBit (m.maskOf k) t = Nat.testBit (m.maskOf k).toNat t := by
    obtain ⟨M, hM⟩ := Int.eq_ofNat_of_zero_le (hnn k)
    rw [hM]
    rfl
  unfold UMap.bitPairs
  simp only [Finset.mem_biUnion, Finset.mem_image, List.mem_toFinset, Prod.mk.injEq,
    mem_bitsOf, mem_keys_iff]
  rw [hbit]
  constructor
  · rintro ⟨k', _, t', ht', rfl, rfl⟩
    exact ht'
  · intro h
    refine ⟨k, ?_, t, h, rfl, rfl⟩
    by_contra hk
    rw [maskOf_of_not_hasKey m k hk] at h
    simp at h

/-- On a map that satisfies the invariant and has non-negative masks, the sum of the
popcounts counts the pairs `(key, set bit)`. -/
theorem sum_popcounts_eq_card (m : UMap) (hinv : m.Inv) (hnn : ∀ k, 0 ≤ m.maskOf k) :
    sum_popcounts m = (m.bitPairs.card : Int) := by
  unfold sum_popcounts
  rw [List.take_of_length_le (le_of_eq hinv.tabInv.len), foldl_popcount_eq, zero_add]
  have h1 : (m.tab.filter (fun e => e.used)).map (fun e => (mpz_popcount e.mask : Int)) =
      m.keys.map (fun k => ((bitsOf (m.maskOf k).toNat).card : Int)) := by
    unfold UMap.keys
    rw [List.map_map]
    apply List.map_congr_left
    intro x hx
    rw [List.mem_filter] at hx
    simp only [Function.comp]
    rw [maskOf_of_mem m hinv x hx.1 hx.2, mpz_popcount_eq]
    have := hnn x.key
    rw [maskOf_of_mem m hinv x hx.1 hx.2] at this
    exact this
  rw [h1, ← List.sum_toFinset _ (keys_nodup m hinv)]
  unfold UMap.bitPairs
  rw [Finset.card_biUnion]
  · push_cast
    apply Finset.sum_congr rfl
    intro k _
    rw [Finset.card_image_of_injective _ (fun a b h => by simpa using h)]
  · intro k _ k' _ hkk
    rw [Finset.disjoint_left]
    intro x hx hx'
    rw [Finset.mem_image] at hx hx'
    obtain ⟨t, _, rfl⟩ := hx
    obtain ⟨t', _, h⟩ := hx'
    exact hkk (Prod.mk.inj h).1.symm

/-! ### The loops always run to completion -/

theorem d_body_total (p : Int) (hp : 2 ≤ p) (hp64 : p < 2 ^ 64) (a b E1max : Int) (d : Nat)
    (ha : 1 ≤ a) (ha64 : a < 2 ^ 64) (m : UMap) (hwf : m.WF) :
    ∃ m1, d_body p a b E1max d m = some m1 ∧ m1.WF := by
  have hpz : ((toULong p : Nat) : Int) = p := toULong_of_range p (by omega) hp64
  have haz : ((toULong a : Nat) : Int) = a := toULong_of_range a (by omega) ha64
  have hK : 0 < ((toULong b : Nat) : Int) * ((toULong p : Nat) : Int) ^ (toULong (d : Int)) +
      ((toULong a : Nat) : Int) := by
    have h1 : (0 : Int) ≤ ((toULong b : Nat) : Int) * ((toULong p : Nat) : Int) ^
        (toULong (d : Int)) := by positivity
    omega
  obtain ⟨u, v, hs, -, -⟩ := strip_loop_spec ((toULong p : Nat) : Int) (by omega) _ _ 0
    (ne_of_gt hK) (Nat.lt_succ_self _)
  obtain ⟨m1, h1, hwf1, -⟩ := or_into_spec m u (toUnsigned (1 + ((0 + v : Nat) : Int)))
    (toUnsigned (E1max + toInt ((0 + v : Nat) : Int))) hwf
  refine ⟨m1, ?_, hwf1⟩
  unfold d_body
  simp only []
  rw [hs]
  exact h1

theorem run_visits_total (p : Int) (hp : 2 ≤ p) (hp64 : p < 2 ^ 64) :
    ∀ (l : List Visit) (m : UMap), (∀ q ∈ l, 1 ≤ q.1 ∧ q.1 < 2 ^ 64) → m.WF →
      ∃ m1, run_visits p l m = some m1 ∧ m1.WF := by
  intro l
  induction l with
  | nil => intro m _ hwf; exact ⟨m, rfl, hwf⟩
  | cons q rest ih =>
    intro m h hwf
    obtain ⟨ha, ha64⟩ := h q (List.mem_cons_self _ _)
    obtain ⟨m1, h1, hwf1⟩ := d_body_total p hp hp64 q.1 q.2.1 q.2.2.1 q.2.2.2 ha ha64 m hwf
    obtain ⟨m2, h2, hwf2⟩ := ih m1 (fun q' hq' => h q' (List.mem_cons_of_mem _ hq')) hwf1
    refine ⟨m2, ?_, hwf2⟩
    rw [run_visits_cons, h1]
    exact h2

theorem build_ue (n p : Nat) (hp : 2 ≤ p) :
    build_Emax (n : Int) (p : Int) (build_units (n : Int) (p : Int)) = some (ueSpec n p) := by
  rw [build_units_eq]
  exact build_Emax_eq n p hp (unitsNat n p) (fun i hi => by
    rw [mem_unitsNat] at hi; exact ⟨hi.1, hi.2.1⟩)

theorem mem_ueSpec (n p : Nat) (x : Int × Int) :
    x ∈ ueSpec n p ↔ ∃ i : Nat, 1 ≤ i ∧ i ≤ n ∧ ¬ p ∣ i ∧
      x = ((i : Int), (n : Int) + (Nat.log p (n / i) : Nat)) := by
  unfold ueSpec
  simp only [List.mem_map, mem_unitsNat]
  constructor
  · rintro ⟨i, ⟨h1, h2, h3⟩, rfl⟩
    exact ⟨i, h1, h2, h3, rfl⟩
  · rintro ⟨i, h1, h2, h3, rfl⟩
    exact ⟨i, ⟨h1, h2, h3⟩, rfl⟩

/-- The visits of the program, described by units and exponents. -/
theorem mem_program_visits (n p : Nat) (hn : 1 ≤ n) (q : Visit) :
    q ∈ a_visits (ueSpec n p) (ueSpec n p) ↔
      ∃ i j d : Nat, (1 ≤ i ∧ i ≤ n ∧ ¬ p ∣ i) ∧ (1 ≤ j ∧ j ≤ n ∧ ¬ p ∣ j) ∧
        d < n + Nat.log p (n / j) ∧
        q = ((i : Int), (j : Int),
          min ((n : Int) + (Nat.log p (n / i) : Nat)) ((n : Int) + (Nat.log p (n / j) : Nat) - d),
          d) := by
  rw [mem_a_visits _ q _ (fun x hx => by
    obtain ⟨i, -, -, -, rfl⟩ := (mem_ueSpec n p x).mp hx
    simp only []
    omega)]
  constructor
  · rintro ⟨x, hx, y, hy, d, hd, rfl⟩
    obtain ⟨i, hi1, hi2, hi3, rfl⟩ := (mem_ueSpec n p x).mp hx
    obtain ⟨j, hj1, hj2, hj3, rfl⟩ := (mem_ueSpec n p y).mp hy
    simp only [] at hd
    exact ⟨i, j, d, ⟨hi1, hi2, hi3⟩, ⟨hj1, hj2, hj3⟩, by omega, rfl⟩
  · rintro ⟨i, j, d, hi, hj, hd, rfl⟩
    refine ⟨_, (mem_ueSpec n p _).mpr ⟨i, hi.1, hi.2.1, hi.2.2, rfl⟩,
      _, (mem_ueSpec n p _).mpr ⟨j, hj.1, hj.2.1, hj.2.2, rfl⟩, d, ?_, rfl⟩
    simp only []
    omega

theorem Visit.K_pos_of (p : Int) (hp : 2 ≤ p) (q : Visit) (ha : 1 ≤ q.1) (hb : 1 ≤ q.2.1) :
    0 < q.K p := by
  unfold Visit.K
  have : 0 < p ^ q.2.2.2 := pow_pos (by omega) _
  have : 0 < q.2.1 * p ^ q.2.2.2 := mul_pos (by omega) this
  omega

theorem log_div_le (n p i : Nat) : Nat.log p (n / i) ≤ Nat.log p n :=
  Nat.log_mono_right (Nat.div_le_self n i)

/-- Every visit of the program is free of wrap-around when `n + 2 * log_p n + 1` fits `int`. -/
theorem program_visits_valid (n p : Nat) (hp : 2 ≤ p) (hn : 1 ≤ n)
    (hrange : n + 2 * Nat.log p n + 1 < 2 ^ 31) (q : Visit)
    (hq : q ∈ a_visits (ueSpec n p) (ueSpec n p)) : validVisit (p : Int) q := by
  obtain ⟨i, j, d, hi, hj, hd, rfl⟩ := (mem_program_visits n p hn q).mp hq
  have hLi := log_div_le n p i
  have hLj := log_div_le n p j
  have h31 : (2 : Int) ^ 31 < 2 ^ 64 := by norm_num
  have hr : ((n + 2 * Nat.log p n + 1 : Nat) : Int) < 2 ^ 31 := by exact_mod_cast hrange
  push_cast at hr
  -- the valuation of `K = j * p^d + i` is at most `log_p n + d + 1`
  have hKlt : Visit.K (p : Int) ((i : Int), (j : Int),
      min ((n : Int) + (Nat.log p (n / i) : Nat)) ((n : Int) + (Nat.log p (n / j) : Nat) - d), d)
      < (p : Int) ^ (Nat.log p n + d + 2) := by
    unfold Visit.K
    simp only []
    have hn1 : n < p ^ (Nat.log p n + 1) := Nat.lt_pow_succ_log_self (by omega) n
    have hpd : 1 ≤ p ^ d := Nat.one_le_pow _ _ (by omega)
    have hnat : j * p ^ d + i < p ^ (Nat.log p n + d + 2) := by
      calc j * p ^ d + i ≤ n * p ^ d + n * p ^ d := by
            have := Nat.mul_le_mul_right (p ^ d) hj.2.1
            have := Nat.mul_le_mul_left n hpd
            omega
        _ = n * (2 * p ^ d) := by ring
        _ ≤ n * (p * p ^ d) := Nat.mul_le_mul_left n (Nat.mul_le_mul_right _ hp)
        _ < p ^ (Nat.log p n + 1) * (p * p ^ d) :=
            Nat.mul_lt_mul_of_pos_right hn1 (by positivity)
        _ = p ^ (Nat.log p n + d + 2) := by ring
    exact_mod_cast hnat
  have hv := core_val_lt (p : Int) (by omega) _ (Visit.K_pos_of (p : Int) (by omega) _
    (by simp only []; omega) (by simp only []; omega)) _ hKlt
  refine ⟨?_, ?_, ?_, ?_, ?_, ?_, ?_⟩ <;> simp only []
  · omega
  · omega
  · omega
  · omega
  · have : ((d : Nat) : Int) < 2 ^ 64 := by omega
    exact_mod_cast this
  · omega
  · have hmin : min ((n : Int) + (Nat.log p (n / i) : Nat))
        ((n : Int) + (Nat.log p (n / j) : Nat) - d) ≤ (n : Int) + (Nat.log p (n / j) : Nat) - d :=
      min_le_right _ _
    omega

theorem mem_spec_A (n p x : Nat) :
    x ∈ spec_A n p ↔ ∃ i e : Nat, (1 ≤ i ∧ i ≤ n ∧ ¬ p ∣ i) ∧ 1 ≤ e ∧
      e ≤ n + Nat.log p (n / i) ∧ x = i * p ^ e := by
  unfold spec_A spec_U
  simp only [Finset.mem_biUnion, Finset.mem_filter, Finset.mem_Icc, Finset.mem_image]
  constructor
  · rintro ⟨i, ⟨⟨h1, h2⟩, h3⟩, e, ⟨he1, he2⟩, rfl⟩
    rw [spec_Emax_eq n p i h1 h2] at he2
    exact ⟨i, e, ⟨h1, h2, h3⟩, he1, by omega, rfl⟩
  · rintro ⟨i, e, ⟨h1, h2, h3⟩, he1, he2, rfl⟩
    refine ⟨i, ⟨⟨h1, h2⟩, h3⟩, e, ⟨he1, ?_⟩, rfl⟩
    rw [spec_Emax_eq n p i h1 h2]
    omega

theorem mem_spec_sumset (n p s : Nat) :
    s ∈ spec_sumset n p ↔ ∃ x y, x ∈ spec_A n p ∧ y ∈ spec_A n p ∧ s = x + y := by
  unfold spec_sumset
  simp only [Finset.mem_image, Finset.mem_product, Prod.exists]
  constructor
  · rintro ⟨x, y, ⟨hx, hy⟩, rfl⟩
    exact ⟨x, y, hx, hy, rfl⟩
  · rintro ⟨x, y, hx, hy, rfl⟩
    exact ⟨x, y, ⟨hx, hy⟩, rfl⟩

/-! ### Uniqueness of core and valuation -/

theorem core_unique_aux (p u u' : Int) (t t' : Nat) (hp : 2 ≤ p) (hu : ¬ p ∣ u)
    (h : u * p ^ t = u' * p ^ t') : ¬ t < t' := by
  intro hlt
  have hpt : p ^ t ≠ 0 := pow_ne_zero _ (by omega)
  have h1 : u * p ^ t = (u' * p ^ (t' - t)) * p ^ t := by
    rw [h, mul_assoc, ← pow_add]
    congr 2
    omega
  have h2 : u = u' * p ^ (t' - t) := mul_right_cancel₀ hpt h1
  apply hu
  rw [h2]
  obtain ⟨c, hc⟩ : ∃ c, t' - t = c + 1 := ⟨t' - t - 1, by omega⟩
  rw [hc, pow_succ]
  exact ⟨u' * p ^ c, by ring⟩

theorem core_unique (p u u' : Int) (t t' : Nat) (hp : 2 ≤ p) (hu : ¬ p ∣ u) (hu' : ¬ p ∣ u')
    (h : u * p ^ t = u' * p ^ t') : u = u' ∧ t = t' := by
  have h1 := core_unique_aux p u u' t t' hp hu h
  have h2 := core_unique_aux p u' u t' t hp hu' h.symm
  have ht : t = t' := by omega
  subst ht
  exact ⟨mul_right_cancel₀ (pow_ne_zero _ (by omega)) h, rfl⟩

/-! ### Set bits and sums -/

/-- A bit set by a visit `(i, j, E1, d)` is the sum `i * p^e + j * p^(d + e)` for an
`e` with `1 ≤ e ≤ E1`. -/
theorem contributes_sum (p i j d : Nat) (E1 k : Int) (t : Nat) (hp : 2 ≤ p) (hi : 1 ≤ i)
    (hj : 1 ≤ j) (hc : contributes (p : Int) ((i : Int), (j : Int), E1, d) k t) :
    ∃ e : Nat, 1 ≤ e ∧ (e : Int) ≤ E1 ∧
      k * (p : Int) ^ t = ((i * p ^ e + j * p ^ (d + e) : Nat) : Int) := by
  obtain ⟨hk, h1, h2⟩ := hc
  obtain ⟨-, hK, -, -⟩ := core_val_spec (p : Int) (by omega)
    (Visit.K (p : Int) ((i : Int), (j : Int), E1, d))
    (Visit.K_pos_of (p : Int) (by omega) _ (by simp only []; omega) (by simp only []; omega))
  simp only [] at h2
  refine ⟨t - (core_val (p : Int) (Visit.K (p : Int) ((i : Int), (j : Int), E1, d))).2,
    by omega, by omega, ?_⟩
  have ht : t = (core_val (p : Int) (Visit.K (p : Int) ((i : Int), (j : Int), E1, d))).2 +
      (t - (core_val (p : Int) (Visit.K (p : Int) ((i : Int), (j : Int), E1, d))).2) := by omega
  rw [hk]
  conv_lhs => rw [ht, pow_add, ← mul_assoc, ← hK]
  unfold Visit.K
  push_cast
  ring

/-- Conversely every such sum is a bit set by the visit. -/
theorem sum_contributes (p i j d e : Nat) (E1 : Int) (hp : 2 ≤ p) (hi : 1 ≤ i) (hj : 1 ≤ j)
    (he1 : 1 ≤ e) (he2 : (e : Int) ≤ E1) :
    ∃ (k : Int) (t : Nat), contributes (p : Int) ((i : Int), (j : Int), E1, d) k t ∧
      k * (p : Int) ^ t = ((i * p ^ e + j * p ^ (d + e) : Nat) : Int) := by
  obtain ⟨-, hK, -, -⟩ := core_val_spec (p : Int) (by omega)
    (Visit.K (p : Int) ((i : Int), (j : Int), E1, d))
    (Visit.K_pos_of (p : Int) (by omega) _ (by simp only []; omega) (by simp only []; omega))
  refine ⟨(core_val (p : Int) (Visit.K (p : Int) ((i : Int), (j : Int), E1, d))).1,
    (core_val (p : Int) (Visit.K (p : Int) ((i : Int), (j : Int), E1, d))).2 + e,
    ⟨rfl, by omega, by simp only []; push_cast; omega⟩, ?_⟩
  rw [pow_add, ← mul_assoc, ← hK]
  unfold Visit.K
  push_cast
  ring

/-- The pairs `(core, bit)` set by the visits of the program are in bijection with `A + A`:
the map `(u, t) ↦ u * p^t` is injective on them and its image is `A + A`. -/
theorem sumset_bij (n p : Nat) (hp : 2 ≤ p) (hn : 1 ≤ n) (T : Finset (Int × Nat))
    (hT : ∀ k t, (k, t) ∈ T ↔
      ∃ q ∈ a_visits (ueSpec n p) (ueSpec n p), contributes (p : Int) q k t) :
    spec_sumset n p = T.image (fun x => (x.1 * (p : Int) ^ x.2).toNat) ∧
      Set.InjOn (fun x : Int × Nat => (x.1 * (p : Int) ^ x.2).toNat) (T : Set (Int × Nat)) := by
  refine ⟨?_, ?_⟩
  · ext s
    rw [mem_spec_sumset, Finset.mem_image]
    constructor
    · rintro ⟨x, y, hx, hy, rfl⟩
      obtain ⟨i, e1, hi, he1, he1', rfl⟩ := (mem_spec_A n p x).mp hx
      obtain ⟨j, e2, hj, he2, he2', rfl⟩ := (mem_spec_A n p y).mp hy
      -- the smaller exponent is factored out
      rcases Nat.le_total e1 e2 with hle | hle
      · obtain ⟨k, t, hc, hsum⟩ := sum_contributes p i j (e2 - e1) e1
          (min ((n : Int) + (Nat.log p (n / i) : Nat))
            ((n : Int) + (Nat.log p (n / j) : Nat) - ((e2 - e1 : Nat) : Int)))
          hp hi.1 hj.1 he1 (by rw [le_min_iff]; omega)
        refine ⟨(k, t), (hT k t).mpr ⟨_, (mem_program_visits n p hn _).mpr
          ⟨i, j, e2 - e1, hi, hj, by omega, rfl⟩, hc⟩, ?_⟩
        simp only []
        rw [hsum, Int.toNat_ofNat]
        congr 3
        omega
      · obtain ⟨k, t, hc, hsum⟩ := sum_contributes p j i (e1 - e2) e2
          (min ((n : Int) + (Nat.log p (n / j) : Nat))
            ((n : Int) + (Nat.log p (n / i) : Nat) - ((e1 - e2 : Nat) : Int)))
          hp hj.1 hi.1 he2 (by rw [le_min_iff]; omega)
        refine ⟨(k, t), (hT k t).mpr ⟨_, (mem_program_visits n p hn _).mpr
          ⟨j, i, e1 - e2, hj, hi, by omega, rfl⟩, hc⟩, ?_⟩
        simp only []
        rw [hsum, Int.toNat_ofNat, Nat.add_comm]
        congr 3
        omega
    · rintro ⟨⟨k, t⟩, hkt, rfl⟩
      obtain ⟨q, hq, hc⟩ := (hT k t).mp hkt
      obtain ⟨i, j, d, hi, hj, hd, rfl⟩ := (mem_program_visits n p hn q).mp hq
      obtain ⟨e, he1, he2, hsum⟩ := contributes_sum p i j d _ k t hp hi.1 hj.1 hc
      rw [le_min_iff] at he2
      refine ⟨i * p ^ e, j * p ^ (d + e), (mem_spec_A n p _).mpr ⟨i, e, hi, he1, by omega, rfl⟩,
        (mem_spec_A n p _).mpr ⟨j, d + e, hj, by omega, by omega, rfl⟩, ?_⟩
      simp only []
      rw [hsum, Int.toNat_ofNat]
  · intro x hx y hy hxy
    obtain ⟨k, t⟩ := x
    obtain ⟨k', t'⟩ := y
    simp only [] at hxy
    have hcore : ∀ k t, (k, t) ∈ T → 0 < k ∧ ¬ (p : Int) ∣ k := by
      intro k t hkt
      obtain ⟨q, hq, hk, -, -⟩ := (hT k t).mp hkt
      obtain ⟨i, j, d, hi, hj, hd, rfl⟩ := (mem_program_visits n p hn q).mp hq
      obtain ⟨-, -, hnd, hpos⟩ := core_val_spec (p : Int) (by omega) _
        (Visit.K_pos_of (p : Int) (by omega)
          ((i : Int), (j : Int), min ((n : Int) + (Nat.log p (n / i) : Nat))
            ((n : Int) + (Nat.log p (n / j) : Nat) - d), d)
          (by simp only []; omega) (by simp only []; omega))
      rw [hk]
      exact ⟨hpos, hnd⟩
    obtain ⟨hk0, hkd⟩ := hcore k t (Finset.mem_coe.mp hx)
    obtain ⟨hk0', hkd'⟩ := hcore k' t' (Finset.mem_coe.mp hy)
    have hpp : ∀ t : Nat, 0 < (p : Int) ^ t := fun t => pow_pos (by omega) t
    have h1 : 0 ≤ k * (p : Int) ^ t := le_of_lt (mul_pos hk0 (hpp t))
    have h2 : 0 ≤ k' * (p : Int) ^ t' := le_of_lt (mul_pos hk0' (hpp t'))
    have heq : k * (p : Int) ^ t = k' * (p : Int) ^ t' := by
      have := congrArg (fun z : Nat => (z : Int)) hxy
      simp only [Int.toNat_of_nonneg h1, Int.toNat_of_nonneg h2] at this
      exact this
    obtain ⟨hk, ht⟩ := core_unique (p : Int) k k' t t' (by omega) hkd hkd' heq
    rw [hk, ht]

theorem card_eq_sumset (n p : Nat) (hp : 2 ≤ p) (hn : 1 ≤ n) (T : Finset (Int × Nat))
    (hT : ∀ k t, (k, t) ∈ T ↔
      ∃ q ∈ a_visits (ueSpec n p) (ueSpec n p), contributes (p : Int) q k t) :
    T.card = (spec_sumset n p).card := by
  obtain ⟨himg, hinj⟩ := sumset_bij n p hp hn T hT
  rw [himg, Finset.card_image_of_injOn hinj]

/-! ### The enumeration as a whole -/

theorem umap_init_maskOf (c : Nat) (k : Int) : (umap_init c).maskOf k = 0 :=
  maskOf_of_not_hasKey _ k (umap_init_not_hasKey c k)

/-- Processing any list of wrap-free visits from a fresh map: the run completes, and the set
bits of the final map are the bits contributed by the visits. -/
theorem run_visits_init (p : Int) (hp : 2 ≤ p) (hp64 : p < 2 ^ 64) (l : List Visit)
    (hval : ∀ q ∈ l, validVisit p q) (e : Nat) :
    ∃ m, run_visits p l (umap_init (2 ^ e)) = some m ∧ m.WF ∧ (∀ k, 0 ≤ m.maskOf k) ∧
      (∀ k, m.hasKey k ↔ ∃ q ∈ l, k = (core_val p (q.K p)).1) ∧
      (∀ k t, (k, t) ∈ m.bitPairs ↔ ∃ q ∈ l, contributes p q k t) := by
  obtain ⟨m, hrun, hwf, hkeys, hbits, hnn⟩ := run_visits_spec p hp hp64 l (umap_init (2 ^ e))
    hval (umap_init_WF e)
  have hnn' : ∀ k, 0 ≤ m.maskOf k := hnn (fun k => by rw [umap_init_maskOf])
  refine ⟨m, hrun, hwf, hnn', ?_, ?_⟩
  · intro k
    rw [hkeys]
    constructor
    · rintro (h | h)
      · exact absurd h (umap_init_not_hasKey _ k)
      · exact h
    · exact Or.inr
  · intro k t
    rw [mem_bitPairs m hnn', hbits, umap_init_maskOf]
    constructor
    · rintro (h | h)
      · simp [Int.testBit] at h
      · exact h
    · exact Or.inr

/-- The sum of the popcounts after processing a list of visits depends only on which visits
the list contains. -/
theorem sum_popcounts_congr (p : Int) (hp : 2 ≤ p) (hp64 : p < 2 ^ 64) (l l' : List Visit)
    (hval : ∀ q ∈ l, validVisit p q) (hmem : ∀ q, q ∈ l' ↔ q ∈ l) (e : Nat) :
    ∃ m m', run_visits p l (umap_init (2 ^ e)) = some m ∧
      run_visits p l' (umap_init (2 ^ e)) = some m' ∧ sum_popcounts m' = sum_popcounts m := by
  obtain ⟨m, hrun, hwf, hnn, -, hbits⟩ := run_visits_init p hp hp64 l hval e
  obtain ⟨m', hrun', hwf', hnn', -, hbits'⟩ := run_visits_init p hp hp64 l'
    (fun q hq => hval q ((hmem q).mp hq)) e
  refine ⟨m, m', hrun, hrun', ?_⟩
  rw [sum_popcounts_eq_card m hwf.inv hnn, sum_popcounts_eq_card m' hwf'.inv hnn']
  congr 2
  ext ⟨k, t⟩
  rw [hbits, hbits']
  constructor
  · rintro ⟨q, hq, hc⟩; exact ⟨q, (hmem q).mp hq, hc⟩
  · rintro ⟨q, hq, hc⟩; exact ⟨q, (hmem q).mpr hq, hc⟩

theorem program_visits_small (n p : Nat) (hn : 1 ≤ n) (hn31 : n < 2 ^ 31) (q : Visit)
    (hq : q ∈ a_visits (ueSpec n p) (ueSpec n p)) : 1 ≤ q.1 ∧ q.1 < 2 ^ 64 := by
  obtain ⟨i, j, d, hi, hj, hd, rfl⟩ := (mem_program_visits n p hn q).mp hq
  simp only []
  have : ((n : Nat) : Int) < 2 ^ 31 := by exact_mod_cast hn31
  constructor <;> omega

theorem A_ads_map_eq (n p : Nat) (hp : 2 ≤ p) :
    A_ads_map (n : Int) (p : Int) =
      match run_visits (p : Int) (a_visits (ueSpec n p) (ueSpec n p)) (umap_init (2 ^ 13)) with
      | none => none
      | some map => some (sum_Emax (ueSpec n p), map) := by
  unfold A_ads_map
  rw [build_ue n p hp]
  simp only []
  rw [a_loop_eq]

theorem A_ads_size_big_eq (n p : Nat) :
    A_ads_size_big (n : Int) (p : Int) =
      match A_ads_map (n : Int) (p : Int) with
      | none => none
      | some (A_size, map) => some (A_size, sum_popcounts map) := rfl

/-- C1: for `p ≥ 2` and `n ≥ 1` with `n + floor(log_p n)` in the `int` range, the run
completes and `A_size` is the sum over the units `i` of `n + floor(log_p(n / i))`, where
`n / i` is the rational quotient. -/
theorem A_size_correct (n p : Nat) (hp : 2 ≤ p) (hn : 1 ≤ n) (hp31 : p < 2 ^ 31)
    (hrange : n + Nat.log p n < 2 ^ 31) :
    ∃ AA : Int, A_ads_size_big (n : Int) (p : Int) =
      some (∑ i ∈ spec_U n p, spec_Emax n p i, AA) := by
  have hp64 : (p : Int) < 2 ^ 64 := by
    have : ((p : Nat) : Int) < 2 ^ 31 := by exact_mod_cast hp31
    omega
  obtain ⟨m, hrun, -⟩ := run_visits_total (p : Int) (by omega) hp64
    (a_visits (ueSpec n p) (ueSpec n p)) (umap_init (2 ^ 13))
    (program_visits_small n p hn (by omega)) (umap_init_WF 13)
  refine ⟨sum_popcounts m, ?_⟩
  rw [A_ads_size_big_eq, A_ads_map_eq n p hp, hrun]
  simp only []
  unfold ueSpec
  rw [sum_Emax_eq n p hrange]

theorem A_size_correct_witness :
    ∃ AA : Int, A_ads_size_big ((5 : Nat) : Int) ((3 : Nat) : Int) =
      some (∑ i ∈ spec_U 5 3, spec_Emax 5 3 i, AA) :=
  A_size_correct 5 3 (by decide) (by decide) (by decide)
    (by have := Nat.log_le_self 3 5; omega)

/-- C2: for `p ≥ 2` and `n ≥ 1` (with `n + 2 * floor(log_p n) + 1` in the `int` range, so that
no conversion of a bit index wraps) the run completes, `A_size` is the sum of the bounds, and
`AA_size` is the number of distinct sums `x + y` with `x, y ∈ A`; every such sum is `u * p^t`
for exactly one pair (key `u`, set bit `t`) of the final map. -/
theorem AA_size_correct (n p : Nat) (hp : 2 ≤ p) (hn : 1 ≤ n) (hp31 : p < 2 ^ 31)
    (hrange : n + 2 * Nat.log p n + 1 < 2 ^ 31) :
    ∃ (A : Int) (map : UMap), A_ads_map (n : Int) (p : Int) = some (A, map) ∧
      A_ads_size_big (n : Int) (p : Int) = some (A, ((spec_sumset n p).card : Int)) ∧
      spec_sumset n p = map.bitPairs.image (fun x => (x.1 * (p : Int) ^ x.2).toNat) ∧
      Set.InjOn (fun x : Int × Nat => (x.1 * (p : Int) ^ x.2).toNat)
        (map.bitPairs : Set (Int × Nat)) := by
  have hp64 : (p : Int) < 2 ^ 64 := by
    have : ((p : Nat) : Int) < 2 ^ 31 := by exact_mod_cast hp31
    omega
  obtain ⟨m, hrun, hwf, hnn, -, hbits⟩ := run_visits_init (p : Int) (by omega) hp64
    (a_visits (ueSpec n p) (ueSpec n p)) (program_visits_valid n p hp hn hrange) 13
  obtain ⟨himg, hinj⟩ := sumset_bij n p hp hn m.bitPairs hbits
  refine ⟨sum_Emax (ueSpec n p), m, ?_, ?_, himg, hinj⟩
  · rw [A_ads_map_eq n p hp, hrun]
  · rw [A_ads_size_big_eq, A_ads_map_eq n p hp, hrun]
    simp only []
    rw [sum_popcounts_eq_card m hwf.inv hnn, card_eq_sumset n p hp hn m.bitPairs hbits]

theorem AA_size_correct_witness :
    ∃ (A : Int) (map : UMap), A_ads_map ((5 : Nat) : Int) ((3 : Nat) : Int) = some (A, map) ∧
      A_ads_size_big ((5 : Nat) : Int) ((3 : Nat) : Int) =
        some (A, ((spec_sumset 5 3).card : Int)) ∧
      spec_sumset 5 3 = map.bitPairs.image (fun x => (x.1 * ((3 : Nat) : Int) ^ x.2).toNat) ∧
      Set.InjOn (fun x : Int × Nat => (x.1 * ((3 : Nat) : Int) ^ x.2).toNat)
        (map.bitPairs : Set (Int × Nat)) :=
  AA_size_correct 5 3 (by decide) (by decide) (by decide)
    (by have := Nat.log_le_self 3 5; omega)

/-- C3: for `p = 2`, `n = 1` there is one unit `i = 1` with `Emax = 1`, `A_size = 1`, the final
map holds the single key 1 with the mask `4` (one bit set), and `AA_size = 1`. -/
theorem scenario_p2_n1 :
    build_units 1 2 = [1] ∧ build_Emax 1 2 [1] = some [(1, 1)] ∧
      (A_ads_map 1 2).map (fun r => (r.1, r.2.size, r.2.tab.filter (fun e => e.used))) =
        some (1, 1, [⟨true, 1, 4⟩]) ∧
      mpz_popcount 4 = 1 ∧ A_ads_size_big 1 2 = some (1, 1) := by
  decide!

/-- C9: under the hypotheses of C2, `AA_size` is at least the number of entries of the final
map, which is the number of distinct coprime cores produced; every used slot holds a mask with
at least one set bit. -/
theorem AA_size_ge_entries (n p : Nat) (hp : 2 ≤ p) (hn : 1 ≤ n) (hp31 : p < 2 ^ 31)
    (hrange : n + 2 * Nat.log p n + 1 < 2 ^ 31) :
    ∃ (A : Int) (map : UMap), A_ads_map (n : Int) (p : Int) = some (A, map) ∧
      A_ads_size_big (n : Int) (p : Int) = some (A, sum_popcounts map) ∧
      (map.size : Int) ≤ sum_popcounts map ∧
      map.size = ((a_visits (ueSpec n p) (ueSpec n p)).map
        (fun q => (core_val (p : Int) (q.K (p : Int))).1)).toFinset.card ∧
      (∀ x ∈ map.tab, x.used = true → ∃ t, Int.testBit x.mask t = true) := by
  have hp64 : (p : Int) < 2 ^ 64 := by
    have : ((p : Nat) : Int) < 2 ^ 31 := by exact_mod_cast hp31
    omega
  have hval := program_visits_valid n p hp hn hrange
  obtain ⟨m, hrun, hwf, hnn, hkeys, hbits⟩ := run_visits_init (p : Int) (by omega) hp64
    (a_visits (ueSpec n p) (ueSpec n p)) hval 13
  -- every key has a set bit: the lowest bit of the interval of the visit that produced it
  have hbit : ∀ k, m.hasKey k → ∃ t, (k, t) ∈ m.bitPairs := by
    intro k hk
    obtain ⟨q, hq, rfl⟩ := (hkeys k).mp hk
    obtain ⟨-, -, -, -, -, hE, -⟩ := hval q hq
    exact ⟨1 + (core_val (p : Int) (q.K (p : Int))).2, (hbits _ _).mpr
      ⟨q, hq, rfl, le_refl _, by push_cast; omega⟩⟩
  refine ⟨sum_Emax (ueSpec n p), m, ?_, ?_, ?_, ?_, ?_⟩
  · rw [A_ads_map_eq n p hp, hrun]
  · rw [A_ads_size_big_eq, A_ads_map_eq n p hp, hrun]
  · rw [sum_popcounts_eq_card m hwf.inv hnn, size_eq_card_keys m hwf.inv]
    have himg : m.keys.toFinset ⊆ m.bitPairs.image Prod.fst := by
      intro k hk
      rw [List.mem_toFinset, mem_keys_iff] at hk
      obtain ⟨t, ht⟩ := hbit k hk
      exact Finset.mem_image.mpr ⟨(k, t), ht, rfl⟩
    exact_mod_cast le_trans (Finset.card_le_card himg) Finset.card_image_le
  · rw [size_eq_card_keys m hwf.inv]
    congr 1
    ext k
    rw [List.mem_toFinset, List.mem_toFinset, mem_keys_iff, hkeys, List.mem_map]
    constructor
    · rintro ⟨q, hq, rfl⟩; exact ⟨q, hq, rfl⟩
    · rintro ⟨q, hq, rfl⟩; exact ⟨q, hq, rfl⟩
  · intro x hx hxu
    obtain ⟨t, ht⟩ := hbit x.key ⟨x, hx, hxu, rfl⟩
    rw [mem_bitPairs m hnn, maskOf_of_mem m hwf.inv x hx hxu] at ht
    exact ⟨t, ht⟩

theorem AA_size_ge_entries_witness :
    ∃ (A : Int) (map : UMap), A_ads_map ((5 : Nat) : Int) ((3 : Nat) : Int) = some (A, map) ∧
      A_ads_size_big ((5 : Nat) : Int) ((3 : Nat) : Int) = some (A, sum_popcounts map) ∧
      (map.size : Int) ≤ sum_popcounts map ∧
      map.size = ((a_visits (ueSpec 5 3) (ueSpec 5 3)).map
        (fun q => (core_val ((3 : Nat) : Int) (q.K ((3 : Nat) : Int))).1)).toFinset.card ∧
      (∀ x ∈ map.tab, x.used = true → ∃ t, Int.testBit x.mask t = true) :=
  AA_size_ge_entries 5 3 (by decide) (by decide) (by decide)
    (by have := Nat.log_le_self 3 5; omega)

/-- C8: `AA_size` does not depend on the order of the enumeration: processing the visits
`(a, b, d)` of the program in any permuted order, or running the loops on any reordering of
the unit sequence, completes and gives the same sum of popcounts. -/
theorem AA_size_order_invariant (n p : Nat) (hp : 2 ≤ p) (hn : 1 ≤ n) (hp31 : p < 2 ^ 31)
    (hrange : n + 2 * Nat.log p n + 1 < 2 ^ 31) :
    ∃ (ue : List (Int × Int)) (A AA : Int),
      build_Emax (n : Int) (p : Int) (build_units (n : Int) (p : Int)) = some ue ∧
      A_ads_size_big (n : Int) (p : Int) = some (A, AA) ∧
      (∀ l : List Visit, l.Perm (a_visits ue ue) →
        ∃ m, run_visits (p : Int) l (umap_init (2 ^ 13)) = some m ∧ sum_popcounts m = AA) ∧
      (∀ ue' : List (Int × Int), ue'.Perm ue →
        ∃ m, a_loop (p : Int) ue' ue' (umap_init (2 ^ 13)) = some m ∧ sum_popcounts m = AA) := by
  have hp64 : (p : Int) < 2 ^ 64 := by
    have : ((p : Nat) : Int) < 2 ^ 31 := by exact_mod_cast hp31
    omega
  have hval := program_visits_valid n p hp hn hrange
  have key : ∀ l : List Visit, (∀ q, q ∈ l ↔ q ∈ a_visits (ueSpec n p) (ueSpec n p)) →
      ∃ m m', run_visits (p : Int) (a_visits (ueSpec n p) (ueSpec n p)) (umap_init (2 ^ 13))
          = some m ∧
        run_visits (p : Int) l (umap_init (2 ^ 13)) = some m' ∧
        sum_popcounts m' = sum_popcounts m :=
    fun l hl => sum_popcounts_congr (p : Int) (by omega) hp64 _ l hval hl 13
  obtain ⟨m, -, hrun, -, -⟩ := key _ (fun _ => Iff.rfl)
  refine ⟨ueSpec n p, sum_Emax (ueSpec n p), sum_popcounts m, build_ue n p hp, ?_, ?_, ?_⟩
  · rw [A_ads_size_big_eq, A_ads_map_eq n p hp, hrun]
  · intro l hl
    obtain ⟨m0, m', h0, h', heq⟩ := key l (fun q => hl.mem_iff)
    rw [hrun] at h0
    rw [Option.some.inj h0]
    exact ⟨m', h', heq⟩
  · intro ue' hperm
    have hE : ∀ x ∈ ueSpec n p, 1 ≤ x.2 := by
      intro x hx
      obtain ⟨i, -, -, -, rfl⟩ := (mem_ueSpec n p x).mp hx
      simp only []
      omega
    obtain ⟨m0, m', h0, h', heq⟩ := key (a_visits ue' ue') (fun q => by
      rw [mem_a_visits ue' q ue' (fun x hx => hE x (hperm.mem_iff.mp hx)),
        mem_a_visits _ q _ hE]
      constructor
      · rintro ⟨x, hx, y, hy, r⟩
        exact ⟨x, hperm.mem_iff.mp hx, y, hperm.mem_iff.mp hy, r⟩
      · rintro ⟨x, hx, y, hy, r⟩
        exact ⟨x, hperm.mem_iff.mpr hx, y, hperm.mem_iff.mpr hy, r⟩)
    rw [hrun] at h0
    rw [Option.some.inj h0]
    exact ⟨m', by rw [a_loop_eq]; exact h', heq⟩

theorem AA_size_order_invariant_witness :
    ∃ (ue : List (Int × Int)) (A AA : Int),
      build_Emax ((5 : Nat) : Int) ((3 : Nat) : Int)
        (build_units ((5 : Nat) : Int) ((3 : Nat) : Int)) = some ue ∧
      A_ads_size_big ((5 : Nat) : Int) ((3 : Nat) : Int) = some (A, AA) ∧
      (∀ l : List Visit, l.Perm (a_visits ue ue) →
        ∃ m, run_visits ((3 : Nat) : Int) l (umap_init (2 ^ 13)) = some m ∧
          sum_popcounts m = AA) ∧
      (∀ ue' : List (Int × Int), ue'.Perm ue →
        ∃ m, a_loop ((3 : Nat) : Int) ue' ue' (umap_init (2 ^ 13)) = some m ∧
          sum_popcounts m = AA) :=
  AA_size_order_invariant 5 3 (by decide) (by decide) (by decide)
    (by have := Nat.log_le_self 3 5; omega)

/-- C11: two bit-interval unions commute: OR-ing `[lo1, hi1]` and then `[lo2, hi2]` into `dst`
gives the same mask as OR-ing `[lo2, hi2]` and then `[lo1, hi1]`. -/
theorem mpz_or_range_comm (dst : Int) (lo1 hi1 lo2 hi2 : Nat) :
    mpz_or_range (mpz_or_range dst lo1 hi1) lo2 hi2 =
      mpz_or_range (mpz_or_range dst lo2 hi2) lo1 hi1 := by
  unfold mpz_or_range
  by_cases h1 : hi1 < lo1 <;> by_cases h2 : hi2 < lo2
  · simp only [if_pos h1, if_pos h2]
  · simp only [if_pos h1, if_neg h2]
  · simp only [if_neg h1, if_pos h2]
  · simp only [if_neg h1, if_neg h2]
    apply int_eq_of_testBit_eq
    intro k
    simp only [Int.testBit_lor]
    rw [Bool.or_right_comm]

/-- C12: load factor. A map initialised with a power-of-two capacity has
`size * 10 ≤ cap * 7`, and so has the map after any sequence of calls and after one more
`umap_get_or_create`, whether it inserts, finds the key or resizes. -/
theorem umap_load_factor (e : Nat) (calls : List (Int × Nat × Nat)) (u : Int) :
    (umap_init (2 ^ e)).size * 10 ≤ (umap_init (2 ^ e)).cap * 7 ∧
      ∃ m m1 idx, run_calls calls (umap_init (2 ^ e)) = some m ∧
        m.size * 10 ≤ m.cap * 7 ∧
        umap_get_or_create m u = some (m1, idx) ∧ m1.size * 10 ≤ m1.cap * 7 := by
  obtain ⟨m, hrun, hwf, -, -⟩ := run_calls_spec calls (umap_init (2 ^ e)) (umap_init_WF e)
  obtain ⟨m1, idx, h1, hwf1, -⟩ := umap_get_or_create_spec m u hwf
  exact ⟨le_of_lt (umap_init_WF e).load, m, m1, idx, hrun, le_of_lt hwf.load, h1,
    le_of_lt hwf1.load⟩

/-- C13: power-of-two capacity. Starting from `umap_init (2^e)` (the program uses `2^13`),
the capacity is a power of two and equals the array length after any sequence of calls, after
one more `umap_get_or_create` (which keeps or doubles it) and after the resize
`umap_rehash m (m.cap * 2)`; hence `h & (cap - 1)` is an index below `cap`. -/
theorem umap_cap_pow2 (e : Nat) (calls : List (Int × Nat × Nat)) (u : Int) :
    (umap_init (2 ^ 13)).cap = 8192 ∧
      ∃ m m1 idx, run_calls calls (umap_init (2 ^ e)) = some m ∧
        (∃ k : Nat, m.cap = 2 ^ k) ∧ m.tab.length = m.cap ∧
        (∀ h : Nat, h &&& (m.cap - 1) < m.cap) ∧
        umap_get_or_create m u = some (m1, idx) ∧
        (∃ k : Nat, m1.cap = 2 ^ k) ∧ (m1.cap = m.cap ∨ m1.cap = m.cap * 2) ∧
        m1.tab.length = m1.cap ∧ idx < m1.cap ∧
        (∀ h : Nat, h &&& (m1.cap - 1) < m1.cap) ∧
        ∃ m2, umap_rehash m (m.cap * 2) = some m2 ∧ m2.cap = m.cap * 2 ∧
          (∃ k : Nat, m2.cap = 2 ^ k) ∧ m2.tab.length = m2.cap := by
  obtain ⟨m, hrun, hwf, -, -⟩ := run_calls_spec calls (umap_init (2 ^ e)) (umap_init_WF e)
  obtain ⟨m1, idx, h1, hwf1, hu1, -, hcap1, -, -⟩ := umap_get_or_create_spec m u hwf
  have hT := hwf.inv.tabInv
  have hT1 := hwf1.inv.tabInv
  have hmask : ∀ (c : Nat), (∃ k : Nat, c = 2 ^ k) → ∀ h : Nat, h &&& (c - 1) < c := by
    intro c hc h
    rw [and_mask c h hc]
    exact Nat.mod_lt _ (cap_pos hc)
  obtain ⟨k, hk⟩ := hT.pow2
  have hload := hwf.load
  obtain ⟨m2, h2, hinv2, hcap2, -, -⟩ := umap_rehash_spec m (m.cap * 2) hwf.inv
    ⟨k + 1, by rw [hk, pow_succ]⟩ (by omega)
  refine ⟨rfl, m, m1, idx, hrun, hT.pow2, hT.len, hmask _ hT.pow2, h1, hT1.pow2, hcap1, hT1.len,
    ?_, hmask _ hT1.pow2, m2, h2, hcap2, hinv2.tabInv.pow2, hinv2.tabInv.len⟩
  rw [← hT1.len]
  exact lt_of_slot_used hu1

/-- The exponent found by the stripping loop is the largest power of `p` dividing `K`. -/
theorem valuation_max (p u : Int) (tz t : Nat) (hp : 2 ≤ p) (hu : ¬ p ∣ u)
    (h : p ^ t ∣ u * p ^ tz) : t ≤ tz := by
  by_contra hlt
  apply hu
  have h1 : p ^ (tz + 1) ∣ u * p ^ tz := dvd_trans (pow_dvd_pow p (by omega)) h
  rw [pow_succ, mul_comm (p ^ tz) p] at h1
  exact (mul_dvd_mul_iff_right (pow_ne_zero tz (by omega : p ≠ 0))).mp h1

/-- C14: for `p ≥ 2` and `K ≥ 1` the stripping loop terminates with `tz` the `p`-adic
valuation of `K` (the largest `t` with `p^t ∣ K`) and with the core `u`: `K = u * p^tz`,
`u ≥ 1`, `p ∤ u`. Hence every key of the map built by the program is a positive integer that
`p` does not divide. -/
theorem strip_loop_valuation :
    (∀ p K : Int, 2 ≤ p → 1 ≤ K →
      ∃ (u : Int) (tz : Nat), strip_loop p (K.natAbs + 1) K 0 = some (u, tz) ∧
        K = u * p ^ tz ∧ 1 ≤ u ∧ ¬ p ∣ u ∧ p ^ tz ∣ K ∧ ∀ t : Nat, p ^ t ∣ K → t ≤ tz) ∧
    (∀ n p : Nat, 2 ≤ p → 1 ≤ n → p < 2 ^ 31 → n + 2 * Nat.log p n + 1 < 2 ^ 31 →
      ∃ (A : Int) (map : UMap), A_ads_map (n : Int) (p : Int) = some (A, map) ∧
        ∀ x ∈ map.tab, x.used = true → 1 ≤ x.key ∧ ¬ (p : Int) ∣ x.key) := by
  constructor
  · intro p K hp hK
    obtain ⟨hs, hKu, hnd, hpos⟩ := core_val_spec p hp K (by omega)
    refine ⟨(core_val p K).1, (core_val p K).2, hs, hKu, by omega, hnd,
      ⟨(core_val p K).1, by rw [mul_comm]; exact hKu⟩, ?_⟩
    intro t ht
    rw [hKu] at ht
    exact valuation_max p _ _ t hp hnd ht
  · intro n p hp hn hp31 hrange
    have hp64 : (p : Int) < 2 ^ 64 := by
      have : ((p : Nat) : Int) < 2 ^ 31 := by exact_mod_cast hp31
      omega
    have hval := program_visits_valid n p hp hn hrange
    obtain ⟨m, hrun, -, -, hkeys, -⟩ := run_visits_init (p : Int) (by omega) hp64
      (a_visits (ueSpec n p) (ueSpec n p)) hval 13
    refine ⟨sum_Emax (ueSpec n p), m, by rw [A_ads_map_eq n p hp, hrun], ?_⟩
    intro x hx hxu
    obtain ⟨q, hq, hk⟩ := (hkeys x.key).mp ⟨x, hx, hxu, rfl⟩
    obtain ⟨-, -, hnd, hpos⟩ := core_val_spec (p : Int) (by omega) (q.K (p : Int))
      (Visit.K_pos (p : Int) (by omega) q (hval q hq))
    rw [hk]
    exact ⟨by omega, hnd⟩

theorem strip_loop_valuation_witness :
    (∃ (u : Int) (tz : Nat), strip_loop 2 ((12 : Int).natAbs + 1) 12 0 = some (u, tz) ∧
        (12 : Int) = u * 2 ^ tz ∧ 1 ≤ u ∧ ¬ (2 : Int) ∣ u ∧ (2 : Int) ^ tz ∣ 12 ∧
        ∀ t : Nat, (2 : Int) ^ t ∣ 12 → t ≤ tz) ∧
    (∃ (A : Int) (map : UMap), A_ads_map ((5 : Nat) : Int) ((3 : Nat) : Int) = some (A, map) ∧
        ∀ x ∈ map.tab, x.used = true → 1 ≤ x.key ∧ ¬ ((3 : Nat) : Int) ∣ x.key) :=
  ⟨strip_loop_valuation.1 2 12 (by decide) (by decide),
    strip_loop_valuation.2 5 3 (by decide) (by decide) (by decide)
      (by have := Nat.log_le_self 3 5; omega)⟩

theorem mpz_or_range_mono (dst : Int) (lo hi t : Nat) (h : Int.testBit dst t = true) :
    Int.testBit (mpz_or_range dst lo hi) t = true := by
  unfold mpz_or_range
  split
  · exact h
  · simp only []
    rw [Int.testBit_lor, h, Bool.true_or]

/-- One map update keeps every entry and every set bit of its mask. -/
theorem or_into_grows (m : UMap) (u : Int) (lo hi : Nat) (hwf : m.WF) :
    ∃ m2, or_into m u lo hi = some m2 ∧ m2.WF ∧
      (∀ k, m.hasKey k → m2.hasKey k) ∧
      (∀ k t, Int.testBit (m.maskOf k) t = true → Int.testBit (m2.maskOf k) t = true) ∧
      ∀ x ∈ m.tab, x.used = true → ∃ y ∈ m2.tab, y.used = true ∧ y.key = x.key ∧
        ∀ t, Int.testBit x.mask t = true → Int.testBit y.mask t = true := by
  obtain ⟨m2, h2, hwf2, hkeys, hmask, -, -, -⟩ := or_into_spec m u lo hi hwf
  have hmono : ∀ k t, Int.testBit (m.maskOf k) t = true →
      Int.testBit (m2.maskOf k) t = true := by
    intro k t ht
    rw [hmask]
    split
    · rename_i hk
      rw [hk] at ht
      exact mpz_or_range_mono _ _ _ _ ht
    · exact ht
  refine ⟨m2, h2, hwf2, fun k hk => (hkeys k).mpr (Or.inl hk), hmono, ?_⟩
  intro x hx hxu
  obtain ⟨y, hy, hyu, hyk⟩ := (hkeys x.key).mpr (Or.inl ⟨x, hx, hxu, rfl⟩)
  refine ⟨y, hy, hyu, hyk, fun t ht => ?_⟩
  have h1 := maskOf_of_mem m hwf.inv x hx hxu
  have h3 := maskOf_of_mem m2 hwf2.inv y hy hyu
  rw [← h3, hyk]
  apply hmono
  rw [h1]
  exact ht

theorem not_contributes_zero (p : Int) (q : Visit) (k : Int) : ¬ contributes p q k 0 := by
  rintro ⟨-, h, -⟩
  omega

/-- C15: a key's mask only grows. Every map update (`umap_get_or_create`, with the resize it
may trigger, followed by `mpz_or_range`) keeps every entry of the map and every set bit of its
mask; and at every step of the enumeration of the program the same holds and bit 0 is set in
no mask, before or after the step. -/
theorem masks_only_grow (n p : Nat) (hp : 2 ≤ p) (hn : 1 ≤ n) (hp31 : p < 2 ^ 31)
    (hrange : n + 2 * Nat.log p n + 1 < 2 ^ 31) :
    (∀ (m : UMap) (u : Int) (lo hi : Nat), m.WF →
      ∃ m2, or_into m u lo hi = some m2 ∧
        ∀ x ∈ m.tab, x.used = true → ∃ y ∈ m2.tab, y.used = true ∧ y.key = x.key ∧
          ∀ t, Int.testBit x.mask t = true → Int.testBit y.mask t = true) ∧
    ∃ ue : List (Int × Int),
      build_Emax (n : Int) (p : Int) (build_units (n : Int) (p : Int)) = some ue ∧
      a_loop (p : Int) ue ue (umap_init (2 ^ 13)) =
        run_visits (p : Int) (a_visits ue ue) (umap_init (2 ^ 13)) ∧
      ∀ (l1 : List Visit) (q : Visit) (l2 : List Visit), a_visits ue ue = l1 ++ q :: l2 →
        ∃ m m1, run_visits (p : Int) l1 (umap_init (2 ^ 13)) = some m ∧
          d_body (p : Int) q.1 q.2.1 q.2.2.1 q.2.2.2 m = some m1 ∧
          (∀ x ∈ m.tab, x.used = true → ∃ y ∈ m1.tab, y.used = true ∧ y.key = x.key ∧
            ∀ t, Int.testBit x.mask t = true → Int.testBit y.mask t = true) ∧
          (∀ x ∈ m.tab, x.used = true → Int.testBit x.mask 0 = false) ∧
          (∀ y ∈ m1.tab, y.used = true → Int.testBit y.mask 0 = false) := by
  have hp64 : (p : Int) < 2 ^ 64 := by
    have : ((p : Nat) : Int) < 2 ^ 31 := by exact_mod_cast hp31
    omega
  have hval := program_visits_valid n p hp hn hrange
  refine ⟨?_, ueSpec n p, build_ue n p hp, a_loop_eq _ _ _ _, ?_⟩
  · intro m u lo hi hwf
    obtain ⟨m2, h2, -, -, -, h⟩ := or_into_grows m u lo hi hwf
    exact ⟨m2, h2, h⟩
  · intro l1 q l2 hsplit
    have hmem1 : ∀ q' ∈ l1, q' ∈ a_visits (ueSpec n p) (ueSpec n p) := by
      intro q' hq'; rw [hsplit]; exact List.mem_append_left _ hq'
    have hmemq : q ∈ a_visits (ueSpec n p) (ueSpec n p) := by
      rw [hsplit]; exact List.mem_append_right _ (List.mem_cons_self _ _)
    obtain ⟨m, hrun, hwf, -, hbits, -⟩ := run_visits_spec (p : Int) (by omega) hp64 l1
      (umap_init (2 ^ 13)) (fun q' hq' => hval q' (hmem1 q' hq')) (umap_init_WF 13)
    obtain ⟨m1, h1, hwf1, hkeys1, hbits1, -⟩ := d_body_spec (p : Int) (by omega) hp64 q
      (hval q hmemq) m hwf
    have hzero : ∀ k, Int.testBit (m.maskOf k) 0 = false := by
      intro k
      by_contra hne
      have ht : Int.testBit (m.maskOf k) 0 = true := by simpa using hne
      rcases (hbits k 0).mp ht with h | ⟨q', -, hc⟩
      · rw [umap_init_maskOf] at h
        simp [Int.testBit] at h
      · exact not_contributes_zero _ _ _ hc
    have hzero1 : ∀ k, Int.testBit (m1.maskOf k) 0 = false := by
      intro k
      by_contra hne
      have ht : Int.testBit (m1.maskOf k) 0 = true := by simpa using hne
      rcases (hbits1 k 0).mp ht with h | hc
      · rw [hzero k] at h
        exact Bool.noConfusion h
      · exact not_contributes_zero _ _ _ hc
    refine ⟨m, m1, hrun, h1, ?_, ?_, ?_⟩
    · intro x hx hxu
      obtain ⟨y, hy, hyu, hyk⟩ := (hkeys1 x.key).mpr (Or.inl ⟨x, hx, hxu, rfl⟩)
      refine ⟨y, hy, hyu, hyk, fun t ht => ?_⟩
      rw [← maskOf_of_mem m1 hwf1.inv y hy hyu, hyk]
      apply (hbits1 x.key t).mpr
      left
      rw [maskOf_of_mem m hwf.inv x hx hxu]
      exact ht
    · intro x hx hxu
      rw [← maskOf_of_mem m hwf.inv x hx hxu]
      exact hzero _
    · intro y hy hyu
      rw [← maskOf_of_mem m1 hwf1.inv y hy hyu]
      exact hzero1 _

theorem masks_only_grow_witness :
    (∀ (m : UMap) (u : Int) (lo hi : Nat), m.WF →
      ∃ m2, or_into m u lo hi = some m2 ∧
        ∀ x ∈ m.tab, x.used = true → ∃ y ∈ m2.tab, y.used = true ∧ y.key = x.key ∧
          ∀ t, Int.testBit x.mask t = true → Int.testBit y.mask t = true) ∧
    ∃ ue : List (Int × Int),
      build_Emax ((5 : Nat) : Int) ((3 : Nat) : Int)
        (build_units ((5 : Nat) : Int) ((3 : Nat) : Int)) = some ue ∧
      a_loop ((3 : Nat) : Int) ue ue (umap_init (2 ^ 13)) =
        run_visits ((3 : Nat) : Int) (a_visits ue ue) (umap_init (2 ^ 13)) ∧
      ∀ (l1 : List Visit) (q : Visit) (l2 : List Visit), a_visits ue ue = l1 ++ q :: l2 →
        ∃ m m1, run_visits ((3 : Nat) : Int) l1 (umap_init (2 ^ 13)) = some m ∧
          d_body ((3 : Nat) : Int) q.1 q.2.1 q.2.2.1 q.2.2.2 m = some m1 ∧
          (∀ x ∈ m.tab, x.used = true → ∃ y ∈ m1.tab, y.used = true ∧ y.key = x.key ∧
            ∀ t, Int.testBit x.mask t = true → Int.testBit y.mask t = true) ∧
          (∀ x ∈ m.tab, x.used = true → Int.testBit x.mask 0 = false) ∧
          (∀ y ∈ m1.tab, y.used = true → Int.testBit y.mask 0 = false) :=
  masks_only_grow 5 3 (by decide) (by decide) (by decide)
    (by have := Nat.log_le_self 3 5; omega)

theorem E1max_pos (Ea Eb : Int) (d : Nat) (hEa : 1 ≤ Ea) (hd : (d : Int) < Eb) :
    ¬ (if Ea < Eb - (d : Int) then Ea else Eb - d) < 1 := by
  split <;> omega

theorem d_loop_nobreak_eq (p a Ea b Eb : Int) (hEa : 1 ≤ Ea) : ∀ (ds : List Nat) (m : UMap),
    (∀ d ∈ ds, (d : Int) < Eb) → d_loop_nobreak p a Ea b Eb ds m = d_loop p a Ea b Eb ds m := by
  intro ds
  induction ds with
  | nil => intro m _; rfl
  | cons d ds ih =>
    intro m h
    have hd := E1max_pos Ea Eb d hEa (h d (List.mem_cons_self _ _))
    rw [d_loop_cons, if_neg hd]
    show (match d_body p a b (if Ea < Eb - (d : Int) then Ea else Eb - d) d m with
      | none => none
      | some m1 => d_loop_nobreak p a Ea b Eb ds m1) = _
    cases d_body p a b (if Ea < Eb - (d : Int) then Ea else Eb - d) d m with
    | none => rfl
    | some m1 => exact ih m1 (fun d' hd' => h d' (List.mem_cons_of_mem _ hd'))

theorem d_loop_skip_eq (p a Ea b Eb : Int) (hEa : 1 ≤ Ea) : ∀ (ds : List Nat) (m : UMap),
    (∀ d ∈ ds, (d : Int) < Eb) → d_loop_skip p a Ea b Eb ds m = d_loop p a Ea b Eb ds m := by
  intro ds
  induction ds with
  | nil => intro m _; rfl
  | cons d ds ih =>
    intro m h
    have hd := E1max_pos Ea Eb d hEa (h d (List.mem_cons_self _ _))
    rw [d_loop_cons, if_neg hd]
    show (if (if Ea < Eb - (d : Int) then Ea else Eb - d) < 1 then d_loop_skip p a Ea b Eb ds m
      else match d_body p a b (if Ea < Eb - (d : Int) then Ea else Eb - d) d m with
        | none => none
        | some m1 => d_loop_skip p a Ea b Eb ds m1) = _
    rw [if_neg hd]
    cases d_body p a b (if Ea < Eb - (d : Int) then Ea else Eb - d) d m with
    | none => rfl
    | some m1 => exact ih m1 (fun d' hd' => h d' (List.mem_cons_of_mem _ hd'))

theorem b_loop_with_eq (dl : Int → Int → Int → Int → Int → List Nat → UMap → Option UMap)
    (p a Ea : Int)
    (hdl : ∀ (b Eb : Int) (ds : List Nat) (m : UMap), (∀ d ∈ ds, (d : Int) < Eb) →
      dl p a Ea b Eb ds m = d_loop p a Ea b Eb ds m) :
    ∀ (bs : List (Int × Int)) (m : UMap), b_loop_with dl p a Ea bs m = b_loop p a Ea bs m := by
  intro bs
  induction bs with
  | nil => intro m; rfl
  | cons x rest ih =>
    intro m
    obtain ⟨b, Eb⟩ := x
    rw [b_loop_cons]
    show (if Eb - 1 < 0 then b_loop_with dl p a Ea rest m
      else match dl p a Ea b Eb (List.range (Eb - 1 + 1).toNat) m with
        | none => none
        | some m1 => b_loop_with dl p a Ea rest m1) = _
    by_cases hc : Eb - 1 < 0
    · rw [if_pos hc, if_pos hc]; exact ih m
    · rw [if_neg hc, if_neg hc, hdl b Eb _ m (by
        intro d hd; rw [List.mem_range] at hd; omega)]
      cases d_loop p a Ea b Eb (List.range (Eb - 1 + 1).toNat) m with
      | none => rfl
      | some m1 => exact ih m1

theorem a_loop_with_eq (dl : Int → Int → Int → Int → Int → List Nat → UMap → Option UMap)
    (p : Int) (all : List (Int × Int))
    (hdl : ∀ (a Ea b Eb : Int) (ds : List Nat) (m : UMap), 1 ≤ Ea → (∀ d ∈ ds, (d : Int) < Eb) →
      dl p a Ea b Eb ds m = d_loop p a Ea b Eb ds m) :
    ∀ (as : List (Int × Int)) (m : UMap), (∀ x ∈ as, 1 ≤ x.2) →
      a_loop_with dl p all as m = a_loop p all as m := by
  intro as
  induction as with
  | nil => intro m _; rfl
  | cons x rest ih =>
    intro m h
    obtain ⟨a, Ea⟩ := x
    rw [a_loop_cons]
    show (match b_loop_with dl p a Ea all m with
      | none => none
      | some m1 => a_loop_with dl p all rest m1) = _
    rw [b_loop_with_eq dl p a Ea (fun b Eb ds m' hds =>
      hdl a Ea b Eb ds m' (h (a, Ea) (List.mem_cons_self _ _)) hds)]
    cases b_loop p a Ea all m with
    | none => rfl
    | some m1 => exact ih m1 (fun x hx => h x (List.mem_cons_of_mem _ hx))

theorem ueSpec_Emax_pos (n p : Nat) (hn : 1 ≤ n) : ∀ x ∈ ueSpec n p, 1 ≤ x.2 := by
  intro x hx
  obtain ⟨i, -, -, -, rfl⟩ := (mem_ueSpec n p x).mp hx
  simp only []
  omega

theorem A_ads_map_with_eq (dl : Int → Int → Int → Int → Int → List Nat → UMap → Option UMap)
    (n p : Nat) (hp : 2 ≤ p) (hn : 1 ≤ n)
    (hdl : ∀ (a Ea b Eb : Int) (ds : List Nat) (m : UMap), 1 ≤ Ea → (∀ d ∈ ds, (d : Int) < Eb) →
      dl (p : Int) a Ea b Eb ds m = d_loop (p : Int) a Ea b Eb ds m) :
    A_ads_map_with dl (n : Int) (p : Int) = A_ads_map (n : Int) (p : Int) := by
  unfold A_ads_map_with A_ads_map
  rw [build_ue n p hp]
  simp only []
  rw [a_loop_with_eq dl (p : Int) (ueSpec n p) hdl (ueSpec n p) _ (ueSpec_Emax_pos n p hn)]

/-- C17: removing the early exit changes no result. For `p ≥ 2` and `n ≥ 1` the enumeration
with `if (E1max < 1) break;`, the one with that statement deleted and the one with it replaced
by a skip of the current `d` return the same final map and the same `(A_size, AA_size)`; the
run completes when `n + floor(log_p n)` fits `int`. -/
theorem early_exit_irrelevant (n p : Nat) (hp : 2 ≤ p) (hn : 1 ≤ n) (hp31 : p < 2 ^ 31)
    (hrange : n + Nat.log p n < 2 ^ 31) :
    A_ads_map_with d_loop (n : Int) (p : Int) = A_ads_map (n : Int) (p : Int) ∧
      A_ads_map_with d_loop_nobreak (n : Int) (p : Int) = A_ads_map (n : Int) (p : Int) ∧
      A_ads_map_with d_loop_skip (n : Int) (p : Int) = A_ads_map (n : Int) (p : Int) ∧
      A_ads_size_big_with d_loop_nobreak (n : Int) (p : Int) =
        A_ads_size_big (n : Int) (p : Int) ∧
      A_ads_size_big_with d_loop_skip (n : Int) (p : Int) =
        A_ads_size_big (n : Int) (p : Int) ∧
      ∃ (A : Int) (map : UMap), A_ads_map (n : Int) (p : Int) = some (A, map) ∧
        A_ads_size_big (n : Int) (p : Int) = some (A, sum_popcounts map) := by
  have h0 := A_ads_map_with_eq d_loop n p hp hn (fun _ _ _ _ _ _ _ _ => rfl)
  have h1 := A_ads_map_with_eq d_loop_nobreak n p hp hn
    (fun a Ea b Eb ds m hEa hds => d_loop_nobreak_eq (p : Int) a Ea b Eb hEa ds m hds)
  have h2 := A_ads_map_with_eq d_loop_skip n p hp hn
    (fun a Ea b Eb ds m hEa hds => d_loop_skip_eq (p : Int) a Ea b Eb hEa ds m hds)
  have hp64 : (p : Int) < 2 ^ 64 := by
    have : ((p : Nat) : Int) < 2 ^ 31 := by exact_mod_cast hp31
    omega
  obtain ⟨m, hrun, -⟩ := run_visits_total (p : Int) (by omega) hp64
    (a_visits (ueSpec n p) (ueSpec n p)) (umap_init (2 ^ 13))
    (program_visits_small n p hn (by omega)) (umap_init_WF 13)
  refine ⟨h0, h1, h2, ?_, ?_, sum_Emax (ueSpec n p), m, ?_, ?_⟩
  · unfold A_ads_size_big_with
    rw [h1]
    rfl
  · unfold A_ads_size_big_with
    rw [h2]
    rfl
  · rw [A_ads_map_eq n p hp, hrun]
  · rw [A_ads_size_big_eq, A_ads_map_eq n p hp, hrun]

theorem early_exit_irrelevant_witness :
    A_ads_map_with d_loop ((5 : Nat) : Int) ((3 : Nat) : Int) =
        A_ads_map ((5 : Nat) : Int) ((3 : Nat) : Int) ∧
      A_ads_map_with d_loop_nobreak ((5 : Nat) : Int) ((3 : Nat) : Int) =
        A_ads_map ((5 : Nat) : Int) ((3 : Nat) : Int) ∧
      A_ads_map_with d_loop_skip ((5 : Nat) : Int) ((3 : Nat) : Int) =
        A_ads_map ((5 : Nat) : Int) ((3 : Nat) : Int) ∧
      A_ads_size_big_with d_loop_nobreak ((5 : Nat) : Int) ((3 : Nat) : Int) =
        A_ads_size_big ((5 : Nat) : Int) ((3 : Nat) : Int) ∧
      A_ads_size_big_with d_loop_skip ((5 : Nat) : Int) ((3 : Nat) : Int) =
        A_ads_size_big ((5 : Nat) : Int) ((3 : Nat) : Int) ∧
      ∃ (A : Int) (map : UMap), A_ads_map ((5 : Nat) : Int) ((3 : Nat) : Int) = some (A, map) ∧
        A_ads_size_big ((5 : Nat) : Int) ((3 : Nat) : Int) = some (A, sum_popcounts map) :=
  early_exit_irrelevant 5 3 (by decide) (by decide) (by decide)
    (by have := Nat.log_le_self 3 5; omega)

/-! ### The map updates of the enumeration -/

theorem run_calls_cons (c : Int × Nat × Nat) (rest : List (Int × Nat × Nat)) (m : UMap) :
    run_calls (c :: rest) m =
      match or_into m c.1 c.2.1 c.2.2 with
      | none => none
      | some m1 => run_calls rest m1 := by
  obtain ⟨u, lo, hi⟩ := c
  rfl

/-- On a wrap-free visit the loop body is exactly one map update: `umap_get_or_create` on the
core of `K` followed by `mpz_or_range` with `t_lo = 1 + tz` and `t_hi = E1max + tz`. -/
theorem d_body_eq_or_into (p : Int) (hp : 2 ≤ p) (hp64 : p < 2 ^ 64) (q : Visit)
    (hq : validVisit p q) (m : UMap) :
    d_body p q.1 q.2.1 q.2.2.1 q.2.2.2 m =
      or_into m (visit_call p q).1 (visit_call p q).2.1 (visit_call p q).2.2 := by
  have hKpos := Visit.K_pos p hp q hq
  obtain ⟨ha, ha64, hb, hb64, hd64, hE, hrange⟩ := hq
  obtain ⟨hstrip, -, -, -⟩ := core_val_spec p hp (q.K p) hKpos
  have htz0 : (0 : Int) ≤ ((core_val p (q.K p)).2 : Int) := by omega
  have hlo : toUnsigned (1 + ((core_val p (q.K p)).2 : Int)) = 1 + (core_val p (q.K p)).2 := by
    have := toUnsigned_of_range (1 + ((core_val p (q.K p)).2 : Int)) (by omega)
      (by norm_num at hrange ⊢; omega)
    omega
  have hhi : toUnsigned (q.2.2.1 + toInt ((core_val p (q.K p)).2 : Int)) =
      (q.2.2.1 + ((core_val p (q.K p)).2 : Int)).toNat := by
    rw [toInt_of_range _ htz0 (by omega)]
    have := toUnsigned_of_range (q.2.2.1 + ((core_val p (q.K p)).2 : Int)) (by omega)
      (by norm_num at hrange ⊢; omega)
    omega
  unfold d_body visit_call
  simp only []
  rw [toULong_of_range q.1 (by omega) ha64, toULong_of_range q.2.1 (by omega) hb64,
    toULong_of_range p (by omega) hp64, toULong_natCast q.2.2.2 hd64]
  have hK : q.2.1 * p ^ q.2.2.2 + q.1 = q.K p := rfl
  rw [hK, hstrip]
  simp only []
  rw [hlo, hhi]

theorem run_visits_eq_run_calls (p : Int) (hp : 2 ≤ p) (hp64 : p < 2 ^ 64) :
    ∀ (l : List Visit) (m : UMap), (∀ q ∈ l, validVisit p q) →
      run_visits p l m = run_calls (l.map (visit_call p)) m := by
  intro l
  induction l with
  | nil => intro m _; rfl
  | cons q rest ih =>
    intro m h
    rw [run_visits_cons, List.map_cons, run_calls_cons,
      d_body_eq_or_into p hp hp64 q (h q (List.mem_cons_self _ _)) m]
    cases or_into m (visit_call p q).1 (visit_call p q).2.1 (visit_call p q).2.2 with
    | none => rfl
    | some m1 => exact ih m1 (fun q' hq' => h q' (List.mem_cons_of_mem _ hq'))

/-- The interval of a wrap-free visit starts at bit 1 or above and is not empty. -/
theorem visit_call_interval (p : Int) (q : Visit) (hq : validVisit p q) :
    1 ≤ (visit_call p q).2.1 ∧ (visit_call p q).2.1 ≤ (visit_call p q).2.2 ∧
      (visit_call p q).2.2 < 2 ^ 31 := by
  obtain ⟨-, -, -, -, -, hE, hrange⟩ := hq
  unfold visit_call
  simp only []
  norm_num at hrange ⊢
  omega

theorem mem_build_units (n p i : Nat) :
    (i : Int) ∈ build_units (n : Int) (p : Int) ↔ 1 ≤ i ∧ i ≤ n ∧ ¬ p ∣ i := by
  rw [build_units_eq, ← mem_unitsNat, List.mem_map]
  constructor
  · rintro ⟨j, hj, h⟩
    have : j = i := by exact_mod_cast h
    rw [← this]
    exact hj
  · intro h
    exact ⟨i, h, rfl⟩

theorem ueSpec_fst (n p : Nat) :
    (ueSpec n p).map Prod.fst = build_units (n : Int) (p : Int) := by
  rw [build_units_eq]
  unfold ueSpec
  rw [List.map_map]
  rfl

theorem ueSpec_Emax (n p : Nat) (hp : 2 ≤ p) (x : Int × Int) (hx : x ∈ ueSpec n p) :
    1 ≤ x.2 ∧ ∃ L : Int, ilogp_int (Int.tdiv (n : Int) x.1) (p : Int) = some L ∧ 0 ≤ L ∧
      x.2 = (n : Int) + L := by
  obtain ⟨i, hi1, hi2, -, rfl⟩ := (mem_ueSpec n p x).mp hx
  have hq : Int.tdiv (n : Int) (i : Int) = ((n / i : Nat) : Int) := (Int.ofNat_tdiv n i).symm
  have hq1 : 1 ≤ n / i := (Nat.one_le_div_iff (by omega)).mpr hi2
  refine ⟨by simp only []; omega, ((Nat.log p (n / i) : Nat) : Int), ?_, by omega, rfl⟩
  simp only []
  rw [hq, ilogp_int_eq_log _ p hq1 hp]

theorem E1max_eq_min (Ea Eb : Int) (d : Nat) :
    (if Ea < Eb - (d : Int) then Ea else Eb - d) = min Ea (Eb - d) := by
  by_cases hc : Ea < Eb - (d : Int)
  · rw [if_pos hc, min_eq_left (le_of_lt hc)]
  · rw [if_neg hc, min_eq_right (by omega)]

/-- On a wrap-free visit the key and the interval of `visit_call` are the values the loop body
computes: the result `(uZ, tz)` of the stripping loop, `t_lo = (unsigned)(1 + tz)` and
`t_hi = (unsigned)(E1max + (int)tz)`. -/
theorem visit_call_code (p : Int) (hp : 2 ≤ p) (q : Visit) (hq : validVisit p q) :
    strip_loop p ((q.K p).natAbs + 1) (q.K p) 0 =
        some ((core_val p (q.K p)).1, (core_val p (q.K p)).2) ∧
      visit_call p q = ((core_val p (q.K p)).1,
        toUnsigned (1 + ((core_val p (q.K p)).2 : Int)),
        toUnsigned (q.2.2.1 + toInt ((core_val p (q.K p)).2 : Int))) := by
  have hKpos := Visit.K_pos p hp q hq
  obtain ⟨ha, ha64, hb, hb64, hd64, hE, hrange⟩ := hq
  obtain ⟨hstrip, -, -, -⟩ := core_val_spec p hp (q.K p) hKpos
  have htz0 : (0 : Int) ≤ ((core_val p (q.K p)).2 : Int) := by omega
  have hlo : toUnsigned (1 + ((core_val p (q.K p)).2 : Int)) = 1 + (core_val p (q.K p)).2 := by
    have := toUnsigned_of_range (1 + ((core_val p (q.K p)).2 : Int)) (by omega)
      (by norm_num at hrange ⊢; omega)
    omega
  have hhi : toUnsigned (q.2.2.1 + toInt ((core_val p (q.K p)).2 : Int)) =
      (q.2.2.1 + ((core_val p (q.K p)).2 : Int)).toNat := by
    rw [toInt_of_range _ htz0 (by omega)]
    have := toUnsigned_of_range (q.2.2.1 + ((core_val p (q.K p)).2 : Int)) (by omega)
      (by norm_num at hrange ⊢; omega)
    omega
  refine ⟨hstrip, ?_⟩
  unfold visit_call
  rw [hlo, hhi]

/-- C18: for `p ≥ 2` and `n ≥ 1` the unit sequence is the `i` in `[1, n]` with `p ∤ i`, every
unit has `Emax = n + ilogp_int(n / u) ≥ 1`, and for every ordered pair of units
`max_d = Eb - 1 ≥ 0` and `E1max ≥ 1` for every `d` in `0..Eb - 1`, so neither the `continue`
nor the `break` is taken: the `d` loop is exactly the sequence of the `Eb` map updates
(`umap_get_or_create` then `mpz_or_range`) for `d = 0, ..., Eb - 1`; in each of them the loop
body strips `K = b * p^d + a` to `(uZ, tz)`, looks `uZ` up and calls `mpz_or_range` on its mask
with `t_lo = (unsigned)(1 + tz)` and `t_hi = (unsigned)(E1max + (int)tz)`, where
`1 ≤ t_lo ≤ t_hi` (the test `hi < lo` of `mpz_or_range` fails), and afterwards the bits `t_lo`
and `t_hi` of the mask of `uZ` are set. -/
theorem loop_guards_never_fire (n p : Nat) (hp : 2 ≤ p) (hn : 1 ≤ n) (hp31 : p < 2 ^ 31)
    (hrange : n + 2 * Nat.log p n + 1 < 2 ^ 31) :
    ∃ ue : List (Int × Int),
      build_Emax (n : Int) (p : Int) (build_units (n : Int) (p : Int)) = some ue ∧
      ue.map Prod.fst = build_units (n : Int) (p : Int) ∧
      (∀ i : Nat, (i : Int) ∈ build_units (n : Int) (p : Int) ↔ 1 ≤ i ∧ i ≤ n ∧ ¬ p ∣ i) ∧
      (∀ x ∈ ue, 1 ≤ x.2 ∧
        ∃ L : Int, ilogp_int (Int.tdiv (n : Int) x.1) (p : Int) = some L ∧ 0 ≤ L ∧
          x.2 = (n : Int) + L) ∧
      (∀ x ∈ ue, ∀ y ∈ ue,
        ¬ (y.2 - 1 < 0) ∧
        (∀ d : Nat, (d : Int) ≤ y.2 - 1 →
          ¬ (if x.2 < y.2 - (d : Int) then x.2 else y.2 - d) < 1) ∧
        (((List.range y.2.toNat).map (fun d : Nat =>
          visit_call (p : Int) (x.1, y.1, min x.2 (y.2 - (d : Int)), d))).length : Int) = y.2 ∧
        (∀ m : UMap, d_loop (p : Int) x.1 x.2 y.1 y.2 (List.range (y.2 - 1 + 1).toNat) m =
          run_calls ((List.range y.2.toNat).map (fun d : Nat =>
            visit_call (p : Int) (x.1, y.1, min x.2 (y.2 - (d : Int)), d))) m) ∧
        (∀ d : Nat, (d : Int) ≤ y.2 - 1 → ∃ (uZ : Int) (tz : Nat),
          strip_loop (p : Int) ((y.1 * (p : Int) ^ d + x.1).natAbs + 1)
            (y.1 * (p : Int) ^ d + x.1) 0 = some (uZ, tz) ∧
          visit_call (p : Int) (x.1, y.1, min x.2 (y.2 - (d : Int)), d) =
            (uZ, toUnsigned (1 + (tz : Int)),
              toUnsigned ((if x.2 < y.2 - (d : Int) then x.2 else y.2 - d) + toInt (tz : Int))) ∧
          1 ≤ toUnsigned (1 + (tz : Int)) ∧
          ¬ (toUnsigned ((if x.2 < y.2 - (d : Int) then x.2 else y.2 - d) + toInt (tz : Int)) <
            toUnsigned (1 + (tz : Int))) ∧
          ∀ m : UMap, m.WF → ∃ (m0 : UMap) (idx : Nat),
            umap_get_or_create m uZ = some (m0, idx) ∧
            d_body (p : Int) x.1 y.1 (if x.2 < y.2 - (d : Int) then x.2 else y.2 - d) d m =
              some (m0.setMask idx (mpz_or_range (m0.maskAt idx) (toUnsigned (1 + (tz : Int)))
                (toUnsigned
                  ((if x.2 < y.2 - (d : Int) then x.2 else y.2 - d) + toInt (tz : Int))))) ∧
            d_body (p : Int) x.1 y.1 (if x.2 < y.2 - (d : Int) then x.2 else y.2 - d) d m =
              or_into m uZ (toUnsigned (1 + (tz : Int)))
                (toUnsigned
                  ((if x.2 < y.2 - (d : Int) then x.2 else y.2 - d) + toInt (tz : Int))) ∧
            Int.testBit
              ((m0.setMask idx (mpz_or_range (m0.maskAt idx) (toUnsigned (1 + (tz : Int)))
                (toUnsigned
                  ((if x.2 < y.2 - (d : Int) then x.2 else y.2 - d) + toInt (tz : Int))))).maskOf
                uZ)
              (toUnsigned (1 + (tz : Int))) = true ∧
            Int.testBit
              ((m0.setMask idx (mpz_or_range (m0.maskAt idx) (toUnsigned (1 + (tz : Int)))
                (toUnsigned
                  ((if x.2 < y.2 - (d : Int) then x.2 else y.2 - d) + toInt (tz : Int))))).maskOf
                uZ)
              (toUnsigned ((if x.2 < y.2 - (d : Int) then x.2 else y.2 - d) + toInt (tz : Int)))
                = true)) ∧
      (∀ m : UMap, a_loop (p : Int) ue ue m =
        run_calls ((a_visits ue ue).map (visit_call (p : Int))) m) := by
  have hp64 : (p : Int) < 2 ^ 64 := by
    have : ((p : Nat) : Int) < 2 ^ 31 := by exact_mod_cast hp31
    omega
  have hp2 : (2 : Int) ≤ (p : Int) := by omega
  have hpos := ueSpec_Emax_pos n p hn
  have hval := program_visits_valid n p hp hn hrange
  refine ⟨ueSpec n p, build_ue n p hp, ueSpec_fst n p, mem_build_units n p,
    fun x hx => ueSpec_Emax n p hp x hx, ?_, ?_⟩
  · intro x hx y hy
    have hx1 := hpos x hx
    have hy1 := hpos y hy
    have hds : ∀ d ∈ List.range (y.2 - 1 + 1).toNat, (d : Int) < y.2 := by
      intro d hd; rw [List.mem_range] at hd; omega
    have hlist : (y.2 - 1 + 1).toNat = y.2.toNat := by congr 1; omega
    have hvis : ∀ d : Nat, (d : Int) < y.2 →
        validVisit (p : Int) (x.1, y.1, min x.2 (y.2 - (d : Int)), d) := by
      intro d hd
      exact hval _ ((mem_a_visits _ _ _ hpos).mpr ⟨x, hx, y, hy, d, hd, rfl⟩)
    refine ⟨by omega, fun d hd => E1max_pos x.2 y.2 d hx1 (by omega), ?_, ?_, ?_⟩
    · rw [List.length_map, List.length_range]
      omega
    · intro m
      rw [d_loop_eq, d_visits_eq_map x.1 x.2 y.1 y.2 hx1 _ hds, hlist,
        run_visits_eq_run_calls (p : Int) hp2 hp64 _ m (by
          intro q hq
          rw [List.mem_map] at hq
          obtain ⟨d, hd, rfl⟩ := hq
          rw [List.mem_range] at hd
          exact hvis d (by omega)), List.map_map]
      rfl
    · intro d hd
      have hv := hvis d (by omega)
      rw [E1max_eq_min]
      obtain ⟨hs, hvc⟩ := visit_call_code (p : Int) hp2 _ hv
      obtain ⟨h1, h2, -⟩ := visit_call_interval (p : Int) _ hv
      have hE : 1 ≤ min x.2 (y.2 - (d : Int)) := hv.2.2.2.2.2.1
      have hbit : ∀ m : UMap, m.WF → ∃ m1,
          d_body (p : Int) x.1 y.1 (min x.2 (y.2 - (d : Int))) d m = some m1 ∧
          Int.testBit
            (m1.maskOf (visit_call (p : Int) (x.1, y.1, min x.2 (y.2 - (d : Int)), d)).1)
            (visit_call (p : Int) (x.1, y.1, min x.2 (y.2 - (d : Int)), d)).2.1 = true ∧
          Int.testBit
            (m1.maskOf (visit_call (p : Int) (x.1, y.1, min x.2 (y.2 - (d : Int)), d)).1)
            (visit_call (p : Int) (x.1, y.1, min x.2 (y.2 - (d : Int)), d)).2.2 = true := by
        intro m hwf
        obtain ⟨m1, hb, -, -, hbits, -⟩ := d_body_spec (p : Int) hp2 hp64 _ hv m hwf
        refine ⟨m1, hb, ?_, ?_⟩
        · apply (hbits _ _).mpr
          right
          exact ⟨rfl, le_refl _, by unfold visit_call; simp only []; push_cast; omega⟩
        · apply (hbits _ _).mpr
          right
          refine ⟨rfl, ?_, ?_⟩
          · unfold visit_call; simp only []; omega
          · unfold visit_call; simp only []; omega
      rw [hvc] at h1 h2 hbit
      simp only [] at h1 h2 hbit
      have hor : ∀ m : UMap, d_body (p : Int) x.1 y.1 (min x.2 (y.2 - (d : Int))) d m =
          or_into m
            (core_val (p : Int) (Visit.K (p : Int) (x.1, y.1, min x.2 (y.2 - (d : Int)), d))).1
            (toUnsigned (1 + ((core_val (p : Int)
              (Visit.K (p : Int) (x.1, y.1, min x.2 (y.2 - (d : Int)), d))).2 : Int)))
            (toUnsigned (min x.2 (y.2 - (d : Int)) + toInt ((core_val (p : Int)
              (Visit.K (p : Int) (x.1, y.1, min x.2 (y.2 - (d : Int)), d))).2 : Int))) := by
        intro m
        have ha : 1 ≤ x.1 := hv.1
        have ha64 : x.1 < 2 ^ 64 := hv.2.1
        have hb : 1 ≤ y.1 := hv.2.2.1
        have hb64 : y.1 < 2 ^ 64 := hv.2.2.2.1
        have hd64 : d < 2 ^ 64 := hv.2.2.2.2.1
        unfold d_body
        simp only []
        rw [toULong_of_range x.1 (by omega) ha64, toULong_of_range y.1 (by omega) hb64,
          toULong_of_range (p : Int) (by omega) hp64, toULong_natCast d hd64]
        have hK : y.1 * (p : Int) ^ d + x.1 =
            Visit.K (p : Int) (x.1, y.1, min x.2 (y.2 - (d : Int)), d) := rfl
        rw [hK, hs]
      refine ⟨_, _, hs, hvc, h1, by omega, ?_⟩
      intro m hwf
      obtain ⟨m1, hb, hb1, hb2⟩ := hbit m hwf
      have h3 := hor m
      simp only [] at h3
      rw [hb] at h3
      have h4 := h3.symm
      unfold or_into at h4
      cases hg : umap_get_or_create m (core_val (p : Int)
          (Visit.K (p : Int) (x.1, y.1, min x.2 (y.2 - (d : Int)), d))).1 with
      | none =>
        rw [hg] at h4
        exact absurd h4 (by simp)
      | some r =>
        obtain ⟨m0, idx⟩ := r
        rw [hg] at h4
        simp only [Option.some.injEq] at h4
        subst h4
        exact ⟨m0, idx, rfl, hb, hb.trans h3, hb1, hb2⟩
  · intro m
    rw [a_loop_eq, run_visits_eq_run_calls (p : Int) hp2 hp64 _ m hval]

theorem loop_guards_never_fire_witness :
    (build_units 5 3 = [1, 2, 4, 5] ∧
      build_Emax 5 3 (build_units 5 3) = some [(1, 6), (2, 5), (4, 5), (5, 5)] ∧
      strip_loop 3 ((2 * 3 ^ 0 + 1 : Int).natAbs + 1) (2 * 3 ^ 0 + 1) 0 = some (1, 1) ∧
      (List.range 5).map (fun d : Nat => visit_call 3 (1, 2, min 6 (5 - (d : Int)), d)) =
        [(1, 2, 6), (7, 1, 4), (19, 1, 3), (55, 1, 2), (163, 1, 1)] ∧
      (d_body 3 1 2 5 0 (umap_init (2 ^ 3))).map (fun m => (m.size, m.cap, m.maskOf 1)) =
        some (1, 8, 124) ∧
      (d_loop 3 1 6 2 5 (List.range 5) (umap_init (2 ^ 3))).map
          (fun m => (m.size, m.cap,
            (m.tab.filter (fun e => e.used)).map (fun e => (e.key, e.mask)))) =
        some (5, 8, [(1, 124), (55, 6), (7, 30), (163, 2), (19, 14)])) ∧
    (∃ ue : List (Int × Int),
      build_Emax ((5 : Nat) : Int) ((3 : Nat) : Int) (build_units ((5 : Nat) : Int) ((3 : Nat) : Int)) = some ue ∧
      ue.map Prod.fst = build_units ((5 : Nat) : Int) ((3 : Nat) : Int) ∧
      (∀ i : Nat, (i : Int) ∈ build_units ((5 : Nat) : Int) ((3 : Nat) : Int) ↔ 1 ≤ i ∧ i ≤ 5 ∧ ¬ 3 ∣ i) ∧
      (∀ x ∈ ue, 1 ≤ x.2 ∧
        ∃ L : Int, ilogp_int (Int.tdiv ((5 : Nat) : Int) x.1) ((3 : Nat) : Int) = some L ∧ 0 ≤ L ∧
          x.2 = ((5 : Nat) : Int) + L) ∧
      (∀ x ∈ ue, ∀ y ∈ ue,
        ¬ (y.2 - 1 < 0) ∧
        (∀ d : Nat, (d : Int) ≤ y.2 - 1 →
          ¬ (if x.2 < y.2 - (d : Int) then x.2 else y.2 - d) < 1) ∧
        (((List.range y.2.toNat).map (fun d : Nat =>
          visit_call ((3 : Nat) : Int) (x.1, y.1, min x.2 (y.2 - (d : Int)), d))).length : Int) = y.2 ∧
        (∀ m : UMap, d_loop ((3 : Nat) : Int) x.1 x.2 y.1 y.2 (List.range (y.2 - 1 + 1).toNat) m =
          run_calls ((List.range y.2.toNat).map (fun d : Nat =>
            visit_call ((3 : Nat) : Int) (x.1, y.1, min x.2 (y.2 - (d : Int)), d))) m) ∧
        (∀ d : Nat, (d : Int) ≤ y.2 - 1 → ∃ (uZ : Int) (tz : Nat),
          strip_loop ((3 : Nat) : Int) ((y.1 * ((3 : Nat) : Int) ^ d + x.1).natAbs + 1)
            (y.1 * ((3 : Nat) : Int) ^ d + x.1) 0 = some (uZ, tz) ∧
          visit_call ((3 : Nat) : Int) (x.1, y.1, min x.2 (y.2 - (d : Int)), d) =
            (uZ, toUnsigned (1 + (tz : Int)),
              toUnsigned ((if x.2 < y.2 - (d : Int) then x.2 else y.2 - d) + toInt (tz : Int))) ∧
          1 ≤ toUnsigned (1 + (tz : Int)) ∧
          ¬ (toUnsigned ((if x.2 < y.2 - (d : Int) then x.2 else y.2 - d) + toInt (tz : Int)) <
            toUnsigned (1 + (tz : Int))) ∧
          ∀ m : UMap, m.WF → ∃ (m0 : UMap) (idx : Nat),
            umap_get_or_create m uZ = some (m0, idx) ∧
            d_body ((3 : Nat) : Int) x.1 y.1 (if x.2 < y.2 - (d : Int) then x.2 else y.2 - d) d m =
              some (m0.setMask idx (mpz_or_range (m0.maskAt idx) (toUnsigned (1 + (tz : Int)))
                (toUnsigned
                  ((if x.2 < y.2 - (d : Int) then x.2 else y.2 - d) + toInt (tz : Int))))) ∧
            d_body ((3 : Nat) : Int) x.1 y.1 (if x.2 < y.2 - (d : Int) then x.2 else y.2 - d) d m =
              or_into m uZ (toUnsigned (1 + (tz : Int)))
                (toUnsigned
                  ((if x.2 < y.2 - (d : Int) then x.2 else y.2 - d) + toInt (tz : Int))) ∧
            Int.testBit
              ((m0.setMask idx (mpz_or_range (m0.maskAt idx) (toUnsigned (1 + (tz : Int)))
                (toUnsigned
                  ((if x.2 < y.2 - (d : Int) then x.2 else y.2 - d) + toInt (tz : Int))))).maskOf
                uZ)
              (toUnsigned (1 + (tz : Int))) = true ∧
            Int.testBit
              ((m0.setMask idx (mpz_or_range (m0.maskAt idx) (toUnsigned (1 + (tz : Int)))
                (toUnsigned
                  ((if x.2 < y.2 - (d : Int) then x.2 else y.2 - d) + toInt (tz : Int))))).maskOf
                uZ)
              (toUnsigned ((if x.2 < y.2 - (d : Int) then x.2 else y.2 - d) + toInt (tz : Int)))
                = true)) ∧
      (∀ m : UMap, a_loop ((3 : Nat) : Int) ue ue m =
        run_calls ((a_visits ue ue).map (visit_call ((3 : Nat) : Int))) m)) :=
  ⟨by decide!,
    loop_guards_never_fire 5 3 (by decide) (by decide) (by decide)
      (by have := Nat.log_le_self 3 5; omega)⟩

/-! ### Termination of the probe loops -/

/-- In a power-of-two table with an empty slot the probe loop of `umap_get_or_create`
stops within `cap` steps, at a slot holding the key or at an empty slot. -/
theorem probe_total (tab : List Entry) (cap : Nat) (u : Int) (hc : ∃ e : Nat, cap = 2 ^ e)
    (hlen : tab.length = cap) (hroom : tab.countP (fun x => x.used) < cap) (idx : Nat)
    (hidx : idx < cap) :
    ∃ (j : Nat) (found : Bool), probe tab cap u cap idx = some (j, found) ∧ j < cap ∧
      (found = true → (slot tab j).used = true ∧ (slot tab j).key = u) ∧
      (found = false → (slot tab j).used = false) := by
  obtain ⟨t, ht, hfree, -⟩ := exists_first_empty tab cap idx hlen hidx hroom
  have hex : ∃ s, s < cap ∧ ((slot tab ((idx + s) % cap)).used = false ∨
      (slot tab ((idx + s) % cap)).key = u) := ⟨t, ht, Or.inl hfree⟩
  classical
  have hs := Nat.find_spec hex
  have hmin : ∀ s, s < Nat.find hex → (slot tab ((idx + s) % cap)).used = true ∧
      (slot tab ((idx + s) % cap)).key ≠ u := by
    intro s hlt
    have := Nat.find_min hex hlt
    have hsc : s < cap := lt_trans hlt hs.1
    constructor
    · by_contra hn
      exact this ⟨hsc, Or.inl (by simpa using hn)⟩
    · intro hk
      exact this ⟨hsc, Or.inr hk⟩
  have hj : (idx + Nat.find hex) % cap < cap := Nat.mod_lt _ (cap_pos hc)
  by_cases hu : (slot tab ((idx + Nat.find hex) % cap)).used = true
  · have hk : (slot tab ((idx + Nat.find hex) % cap)).key = u := by
      rcases hs.2 with h | h
      · rw [hu] at h; exact Bool.noConfusion h
      · exact h
    exact ⟨_, true, probe_hit tab cap u hc hlen _ idx cap hidx hs.1 hmin hu hk, hj,
      fun _ => ⟨hu, hk⟩, fun h => Bool.noConfusion h⟩
  · have hu' : (slot tab ((idx + Nat.find hex) % cap)).used = false := by simpa using hu
    exact ⟨_, false, probe_miss tab cap u hc hlen _ idx cap hidx hs.1 hmin hu', hj,
      fun h => Bool.noConfusion h, fun _ => hu'⟩

/-- In a power-of-two table with an empty slot the probe loop of `umap_rehash` stops within
`cap` steps at an empty slot. -/
theorem probe_empty_total (tab : List Entry) (cap : Nat) (hc : ∃ e : Nat, cap = 2 ^ e)
    (hlen : tab.length = cap) (hroom : tab.countP (fun x => x.used) < cap) (idx : Nat)
    (hidx : idx < cap) :
    ∃ j, probe_empty tab cap cap idx = some j ∧ j < cap ∧ (slot tab j).used = false := by
  obtain ⟨t, ht, hfree, hpre⟩ := exists_first_empty tab cap idx hlen hidx hroom
  exact ⟨_, probe_empty_spec tab cap hc hlen t idx cap hidx ht hpre hfree,
    Nat.mod_lt _ (cap_pos hc), hfree⟩

/-- Claiming a slot during a rehash succeeds in a power-of-two table with an empty slot. -/
theorem rehash_insert_total (m : UMap) (e : Entry) (hc : ∃ k : Nat, m.cap = 2 ^ k)
    (hlen : m.tab.length = m.cap) (hsize : m.size = m.tab.countP (fun x => x.used))
    (hroom : m.size < m.cap) :
    ∃ m1, rehash_insert m e = some m1 ∧ m1.cap = m.cap ∧ m1.tab.length = m1.cap ∧
      m1.size = m1.tab.countP (fun x => x.used) ∧ m1.size = m.size + 1 := by
  have hh : mpz_hash64 e.key &&& (m.cap - 1) < m.cap := by
    rw [and_mask _ _ hc]; exact Nat.mod_lt _ (cap_pos hc)
  obtain ⟨j, hp, hj, hfree⟩ := probe_empty_total m.tab m.cap hc hlen (by rw [← hsize]; exact hroom)
    _ hh
  refine ⟨{ m with tab := m.tab.set j ⟨true, e.key, e.mask⟩, size := m.size + 1 }, ?_, rfl,
    by simp only []; rw [List.length_set]; exact hlen, ?_, rfl⟩
  · unfold rehash_insert
    simp only []
    rw [hp]
  · simp only []
    rw [countP_set_empty m.tab j _ (by omega) hfree rfl, hsize]

theorem rehash_loop_total : ∀ (old : List Entry) (m : UMap), (∃ k : Nat, m.cap = 2 ^ k) →
    m.tab.length = m.cap → m.size = m.tab.countP (fun x => x.used) →
    m.size + old.countP (fun x => x.used) < m.cap →
    ∃ m1, rehash_loop old m = some m1 ∧ m1.cap = m.cap ∧ m1.tab.length = m1.cap ∧
      m1.size = m1.tab.countP (fun x => x.used) ∧
      m1.size = m.size + old.countP (fun x => x.used) := by
  intro old
  induction old with
  | nil => intro m _ hlen hsize _; exact ⟨m, rfl, rfl, hlen, hsize, by simp⟩
  | cons e rest ih =>
    intro m hc hlen hsize hroom
    by_cases hu : e.used = true
    · have hcnt : (e :: rest).countP (fun x => x.used) = rest.countP (fun x => x.used) + 1 := by
        rw [List.countP_cons_of_pos _ _ hu]
      rw [hcnt] at hroom
      obtain ⟨m1, h1, hcap1, hlen1, hsize1, hs1⟩ := rehash_insert_total m e hc hlen hsize
        (by omega)
      obtain ⟨m2, h2, hcap2, hlen2, hsize2, hs2⟩ := ih m1 (by rw [hcap1]; exact hc) hlen1 hsize1
        (by rw [hcap1, hs1]; omega)
      refine ⟨m2, ?_, by rw [hcap2, hcap1], hlen2, hsize2, by rw [hs2, hs1, hcnt]; omega⟩
      show (if !e.used then rehash_loop rest m
        else match rehash_insert m e with
          | none => none
          | some m1 => rehash_loop rest m1) = _
      simp only [hu, Bool.not_true, Bool.false_eq_true, if_false, h1]
      exact h2
    · have hu' : e.used = false := by simpa using hu
      have hcnt : (e :: rest).countP (fun x => x.used) = rest.countP (fun x => x.used) := by
        rw [List.countP_cons_of_neg _ _ (by simp [hu'])]
      rw [hcnt] at hroom
      obtain ⟨m2, h2, hcap2, hlen2, hsize2, hs2⟩ := ih m hc hlen hsize hroom
      refine ⟨m2, ?_, hcap2, hlen2, hsize2, by rw [hs2, hcnt]⟩
      show (if !e.used then rehash_loop rest m
        else match rehash_insert m e with
          | none => none
          | some m1 => rehash_loop rest m1) = _
      simp only [hu', Bool.not_false, if_true]
      exact h2

theorem umap_rehash_total (m : UMap) (new_cap : Nat) (hlen : m.tab.length = m.cap)
    (hsize : m.size = m.tab.countP (fun x => x.used)) (hpow : ∃ k : Nat, new_cap = 2 ^ k)
    (hroom : m.size < new_cap) :
    ∃ m1, umap_rehash m new_cap = some m1 ∧ m1.cap = new_cap ∧ m1.tab.length = m1.cap ∧
      m1.size = m1.tab.countP (fun x => x.used) ∧ m1.size = m.size := by
  have htake : m.tab.take m.cap = m.tab := List.take_of_length_le (le_of_eq hlen)
  have hcount0 : (List.replicate new_cap Entry.empty).countP (fun x => x.used) = 0 := by
    rw [List.countP_eq_zero]
    intro a ha
    rw [List.mem_replicate] at ha
    rw [ha.2]
    simp [Entry.empty]
  obtain ⟨m1, h1, hcap1, hlen1, hsize1, hs1⟩ := rehash_loop_total m.tab
    { tab := List.replicate new_cap Entry.empty, cap := new_cap, size := 0 }
    hpow (List.length_replicate _ _) hcount0.symm (by simp only []; rw [← hsize]; omega)
  refine ⟨m1, ?_, hcap1, hlen1, hsize1, by rw [hs1, ← hsize]; simp⟩
  unfold umap_rehash
  rw [htake]
  exact h1

/-- C19: the probe loops terminate. For a map with power-of-two capacity whose size counts
the used slots and satisfies the load-factor bound, the table has an empty slot; the probe
loop of `umap_get_or_create` stops within `cap` steps at an equal key or an empty slot, the
probe loop of `umap_rehash` stops within `cap` steps at an empty slot, and the calls
`umap_rehash m (2 * cap)` and `umap_get_or_create m u` (probing in the table after the resize,
if any) return. -/
theorem probe_loops_terminate (m : UMap) (u : Int) (e : Nat) (hpow : m.cap = 2 ^ e)
    (hlen : m.tab.length = m.cap) (hsize : m.size = m.tab.countP (fun x => x.used))
    (hload : m.size * 10 ≤ m.cap * 7) :
    (∃ j, j < m.cap ∧ (slot m.tab j).used = false) ∧
    (∀ idx, idx < m.cap →
      ∃ (j : Nat) (found : Bool), probe m.tab m.cap u m.cap idx = some (j, found) ∧ j < m.cap ∧
        (found = true → (slot m.tab j).used = true ∧ (slot m.tab j).key = u) ∧
        (found = false → (slot m.tab j).used = false)) ∧
    (∀ idx, idx < m.cap →
      ∃ j, probe_empty m.tab m.cap m.cap idx = some j ∧ j < m.cap ∧
        (slot m.tab j).used = false) ∧
    (∃ m1, umap_rehash m (m.cap * 2) = some m1 ∧ m1.cap = m.cap * 2 ∧ m1.size = m.size) ∧
    (∃ m1 idx, umap_get_or_create m u = some (m1, idx) ∧ idx < m1.cap) := by
  have hc : ∃ k : Nat, m.cap = 2 ^ k := ⟨e, hpow⟩
  have hcpos := cap_pos hc
  have hroom : m.tab.countP (fun x => x.used) < m.cap := by rw [← hsize]; omega
  have hc2 : ∃ k : Nat, m.cap * 2 = 2 ^ k := ⟨e + 1, by rw [hpow, pow_succ]⟩
  obtain ⟨mr, hr, hcapr, hlenr, hsizer, hsr⟩ := umap_rehash_total m (m.cap * 2) hlen hsize hc2
    (by omega)
  refine ⟨?_, fun idx hidx => probe_total m.tab m.cap u hc hlen hroom idx hidx,
    fun idx hidx => probe_empty_total m.tab m.cap hc hlen hroom idx hidx,
    ⟨mr, hr, hcapr, hsr⟩, ?_⟩
  · obtain ⟨j, hj, hfree⟩ := exists_empty_slot m.tab (by rw [hlen]; exact hroom)
    exact ⟨j, by omega, hfree⟩
  · -- the table in which `umap_get_or_create` probes: `m` itself or the resized map
    obtain ⟨m0, h0, hc0, hlen0, hroom0⟩ :
        ∃ m0, (if (m.size + 1) * 10 ≥ m.cap * 7 then umap_rehash m (m.cap * 2) else some m)
            = some m0 ∧ (∃ k : Nat, m0.cap = 2 ^ k) ∧ m0.tab.length = m0.cap ∧
          m0.tab.countP (fun x => x.used) < m0.cap := by
      by_cases hg : (m.size + 1) * 10 ≥ m.cap * 7
      · rw [if_pos hg]
        exact ⟨mr, hr, by rw [hcapr]; exact hc2, hlenr, by rw [← hsizer, hsr, hcapr]; omega⟩
      · rw [if_neg hg]
        exact ⟨m, rfl, hc, hlen, hroom⟩
    have hh : mpz_hash64 u &&& (m0.cap - 1) < m0.cap := by
      rw [and_mask _ _ hc0]; exact Nat.mod_lt _ (cap_pos hc0)
    obtain ⟨j, found, hp, hj, -, -⟩ := probe_total m0.tab m0.cap u hc0 hlen0 hroom0 _ hh
    cases found with
    | true =>
      refine ⟨m0, j, ?_, hj⟩
      unfold umap_get_or_create
      rw [h0]
      simp only []
      rw [hp]
    | false =>
      refine ⟨{ m0 with tab := m0.tab.set j ⟨true, u, 0⟩, size := m0.size + 1 }, j, ?_, hj⟩
      unfold umap_get_or_create
      rw [h0]
      simp only []
      rw [hp]

theorem probe_loops_terminate_witness :
    (run_calls [(9, 1, 1), (19, 1, 1), (1, 1, 1), (10, 1, 1), (13, 1, 1)] (umap_init (2 ^ 3)) =
        some example_map ∧
      probe example_map.tab example_map.cap 34 example_map.cap
        (mpz_hash64 34 &&& (example_map.cap - 1)) = some (4, false) ∧
      probe example_map.tab example_map.cap 13 example_map.cap
        (mpz_hash64 13 &&& (example_map.cap - 1)) = some (3, true) ∧
      probe example_map.tab example_map.cap 34 example_map.cap 7 = some (4, false) ∧
      probe_empty example_map.tab example_map.cap example_map.cap 7 = some 4 ∧
      (umap_rehash example_map (example_map.cap * 2)).map
          (fun m => m.tab.map (fun x => (x.used, x.key))) =
        some [(true, 1), (true, 10), (true, 13), (false, 0), (false, 0), (false, 0), (false, 0),
          (true, 19), (true, 9), (false, 0), (false, 0), (false, 0), (false, 0), (false, 0),
          (false, 0), (false, 0)] ∧
      (umap_get_or_create example_map 34).map (fun r => (r.2, r.1.size, r.1.cap)) =
        some (3, 6, 16)) ∧
    (∃ j, j < example_map.cap ∧ (slot example_map.tab j).used = false) ∧
    (∀ idx, idx < example_map.cap →
      ∃ (j : Nat) (found : Bool),
        probe example_map.tab example_map.cap 34 example_map.cap idx = some (j, found) ∧
        j < example_map.cap ∧
        (found = true → (slot example_map.tab j).used = true ∧
          (slot example_map.tab j).key = 34) ∧
        (found = false → (slot example_map.tab j).used = false)) ∧
    (∀ idx, idx < example_map.cap →
      ∃ j, probe_empty example_map.tab example_map.cap example_map.cap idx = some j ∧
        j < example_map.cap ∧ (slot example_map.tab j).used = false) ∧
    (∃ m1, umap_rehash example_map (example_map.cap * 2) = some m1 ∧
      m1.cap = example_map.cap * 2 ∧ m1.size = example_map.size) ∧
    (∃ m1 idx, umap_get_or_create example_map 34 = some (m1, idx) ∧ idx < m1.cap) :=
  ⟨by decide!,
    probe_loops_terminate example_map 34 3 (by decide) (by decide) (by decide) (by decide)⟩

/-! ### The size of `A` and the bound on the sumset -/

theorem unit_pow_injective (i p : Nat) (hi : 1 ≤ i) (hp : 2 ≤ p) :
    Function.Injective (fun e : Nat => i * p ^ e) := by
  intro e e' h
  have h1 : p ^ e = p ^ e' := Nat.eq_of_mul_eq_mul_left (by omega) h
  exact Nat.pow_right_injective hp h1

/-- The elements `i * p^e` of `A` are pairwise distinct, so `|A|` is the sum of the bounds. -/
theorem card_spec_A (n p : Nat) (hp : 2 ≤ p) :
    ((spec_A n p).card : Int) = ∑ i ∈ spec_U n p, spec_Emax n p i := by
  have hU : ∀ i ∈ spec_U n p, 1 ≤ i ∧ i ≤ n ∧ ¬ p ∣ i := by
    intro i hi
    unfold spec_U at hi
    simp only [Finset.mem_filter, Finset.mem_Icc] at hi
    exact ⟨hi.1.1, hi.1.2, hi.2⟩
  unfold spec_A
  rw [Finset.card_biUnion]
  · push_cast
    apply Finset.sum_congr rfl
    intro i hi
    obtain ⟨h1, h2, -⟩ := hU i hi
    rw [Finset.card_image_of_injective _ (unit_pow_injective i p h1 hp), Nat.card_Icc,
      spec_Emax_eq n p i h1 h2]
    have : ((n : Int) + ((Nat.log p (n / i) : Nat) : Int)).toNat = n + Nat.log p (n / i) := by
      omega
    rw [this]
    push_cast
    omega
  · intro i hi j hj hij
    rw [Finset.disjoint_left]
    intro x hx hx'
    rw [Finset.mem_image] at hx hx'
    obtain ⟨e, -, rfl⟩ := hx
    obtain ⟨e', -, h⟩ := hx'
    obtain ⟨-, -, hdi⟩ := hU i hi
    obtain ⟨-, -, hdj⟩ := hU j hj
    have hc : (i : Int) * (p : Int) ^ e = (j : Int) * (p : Int) ^ e' := by exact_mod_cast h.symm
    have := (core_unique (p : Int) i j e e' (by omega)
      (fun hd => hdi (Int.natCast_dvd_natCast.mp hd))
      (fun hd => hdj (Int.natCast_dvd_natCast.mp hd)) hc).1
    exact hij (by exact_mod_cast this)

/-- A sumset has at most as many elements as there are unordered pairs. -/
theorem card_sumset_le (A : Finset Nat) :
    ((A ×ˢ A).image (fun xy => xy.1 + xy.2)).card ≤ A.card * (A.card + 1) / 2 := by
  have hsub : (A ×ˢ A).image (fun xy => xy.1 + xy.2) ⊆
      A.sym2.image (Sym2.lift ⟨fun a b => a + b, fun a b => Nat.add_comm a b⟩) := by
    intro x hx
    rw [Finset.mem_image] at hx
    obtain ⟨⟨a, b⟩, hab, rfl⟩ := hx
    rw [Finset.mem_product] at hab
    rw [Finset.mem_image]
    exact ⟨s(a, b), Finset.mk_mem_sym2_iff.mpr hab, by simp⟩
  calc ((A ×ˢ A).image (fun xy => xy.1 + xy.2)).card
      ≤ (A.sym2.image (Sym2.lift ⟨fun a b => a + b, fun a b => Nat.add_comm a b⟩)).card :=
        Finset.card_le_card hsub
    _ ≤ A.sym2.card := Finset.card_image_le
    _ = A.card * (A.card + 1) / 2 := by
        rw [Finset.card_sym2, Nat.choose_two_right, Nat.add_sub_cancel, Nat.mul_comm]

/-- C20: for `p ≥ 2` and `n ≥ 1` (int range as for C2) the results satisfy
`AA_size ≤ A_size * (A_size + 1) / 2`, hence `AA_size ≤ A_size^2`: `A_size` is the number of
elements of `A` and `AA_size` the number of distinct sums, at most the number of unordered
pairs. -/
theorem AA_size_le_pairs (n p : Nat) (hp : 2 ≤ p) (hn : 1 ≤ n) (hp31 : p < 2 ^ 31)
    (hrange : n + 2 * Nat.log p n + 1 < 2 ^ 31) :
    ∃ A AA : Int, A_ads_size_big (n : Int) (p : Int) = some (A, AA) ∧
      A = ((spec_A n p).card : Int) ∧ AA = ((spec_sumset n p).card : Int) ∧
      AA ≤ A * (A + 1) / 2 ∧ AA ≤ A ^ 2 := by
  have hp64 : (p : Int) < 2 ^ 64 := by
    have : ((p : Nat) : Int) < 2 ^ 31 := by exact_mod_cast hp31
    omega
  obtain ⟨m, hrun, hwf, hnn, -, hbits⟩ := run_visits_init (p : Int) (by omega) hp64
    (a_visits (ueSpec n p) (ueSpec n p)) (program_visits_valid n p hp hn hrange) 13
  have hA : sum_Emax (ueSpec n p) = ((spec_A n p).card : Int) := by
    unfold ueSpec
    rw [sum_Emax_eq n p (by omega), card_spec_A n p hp]
  have hle : (spec_sumset n p).card ≤ (spec_A n p).card * ((spec_A n p).card + 1) / 2 :=
    card_sumset_le (spec_A n p)
  have hle2 : (spec_A n p).card * ((spec_A n p).card + 1) / 2 ≤ (spec_A n p).card ^ 2 := by
    apply Nat.div_le_of_le_mul
    nlinarith [Nat.zero_le (spec_A n p).card]
  refine ⟨sum_Emax (ueSpec n p), ((spec_sumset n p).card : Int), ?_, hA, rfl, ?_, ?_⟩
  · rw [A_ads_size_big_eq, A_ads_map_eq n p hp, hrun]
    simp only []
    rw [sum_popcounts_eq_card m hwf.inv hnn, card_eq_sumset n p hp hn m.bitPairs hbits]
  · rw [hA]
    have : (((spec_A n p).card * ((spec_A n p).card + 1) / 2 : Nat) : Int) =
        ((spec_A n p).card : Int) * (((spec_A n p).card : Int) + 1) / 2 := by
      push_cast
      rfl
    rw [← this]
    exact_mod_cast hle
  · rw [hA]
    exact_mod_cast le_trans hle hle2

theorem AA_size_le_pairs_witness :
    ∃ A AA : Int, A_ads_size_big ((5 : Nat) : Int) ((3 : Nat) : Int) = some (A, AA) ∧
      A = ((spec_A 5 3).card : Int) ∧ AA = ((spec_sumset 5 3).card : Int) ∧
      AA ≤ A * (A + 1) / 2 ∧ AA ≤ A ^ 2 :=
  AA_size_le_pairs 5 3 (by decide) (by decide) (by decide)
    (by have := Nat.log_le_self 3 5; omega)

end AdsP
